import Mathlib

/-!
# A scheduling kernel and its ordered queue: embedding and properties

Shallow embedding of `libpriqueue.c` and `libscheduler.c`.

Modelling conventions.

* A `job_t*` is represented by the job record it points to and `NULL` by `none`;
  a `void*` stored in a queue node is an element of an arbitrary type `α`.
* The doubly linked chain of nodes of a `priqueue_t` (from `head` along `next_node`)
  is the list `elems`; `tail` is the last node of that chain. The `size` field is kept
  apart from the chain, as the C struct does.
* The process-wide `scheduler` is passed explicitly; every entry point returns the new
  state together with its C return value. An entry point returns `none` where the C code
  dereferences a null pointer or indexes outside `core_array`.
* The `uint` field `size` is a natural number; it does not wrap for a queue that fits in
  memory.
* The arithmetic of the scheduler is given in two readings.
  In the integer reading (`refresh_job`, `updateRemainingTimes`, `scheduler_new_job`,
  `install_next`, `scheduler_job_finished`, `scheduler_quantum_expired`, the three
  `scheduler_average_*` functions, `step`, `run`) C `int` values are integers and the
  `float` accumulators are exact rationals; only the comparators, whose result is inspected
  for its sign, wrap their difference to 32 bits (`wrap32`). This is the reading of the
  statements about which job goes where, and of those that take the totals as exact
  numbers.
  In the machine reading (the same names with the suffix `32`) every `int` operation wraps
  to 32 bits and every `float` operation rounds to binary32 (`f32`: round to nearest, ties
  to even, each operation evaluated in `float`). This is the reading of the statements
  about the values of the accumulators, of the averages and of the time accounting.
  An event in time order with arguments within the range of `int`, delivered in a state
  whose jobs are within range (`fits`), has in both readings the same return value and
  leaves the same jobs in the same places (`step32_same_jobs`).
-/

namespace Scheduler

/-! ## libpriqueue -/

/-- The queue struct: the values along the node chain, the `size` field and the comparer. -/
structure priqueue_t (α : Type) where
  elems : List α
  size : Nat
  compare : α → α → Int

/-- `priqueue_init`: empty chain, size zero, the given comparer. -/
def priqueue_init {α : Type} (comparer : α → α → Int) : priqueue_t α :=
  { elems := [], size := 0, compare := comparer }

/-- The `while` loop of `priqueue_offer`, started at a node with counter `index`: walks the
chain and links the new value in front of the first node it compares below, giving the new
chain and the counter reached; `none` when the chain ends with `found_spot` still false. -/
def offer_loop {α : Type} (compare : α → α → Int) (v : α) : List α → Nat → Option (List α × Nat)
  | [], _ => none
  | t :: rest, index =>
    if compare v t < 0 then some (v :: t :: rest, index)
    else
      match offer_loop compare v rest (index + 1) with
      | some (l, i) => some (t :: l, i)
      | none => none

/-- `priqueue_offer`: the new queue and the returned index. -/
def priqueue_offer {α : Type} (q : priqueue_t α) (ptr : α) : priqueue_t α × Int :=
  match q.elems with
  | [] => ({ q with elems := [ptr], size := q.size + 1 }, 0)
  | _ :: _ =>
    match offer_loop q.compare ptr q.elems 0 with
    | some (l, index) => ({ q with elems := l, size := q.size + 1 }, (index : Int))
    | none => ({ q with elems := q.elems ++ [ptr], size := q.size + 1 }, (q.size : Int))

/-- `priqueue_peek`: the value of the head node, `none` for `NULL`. -/
def priqueue_peek {α : Type} (q : priqueue_t α) : Option α :=
  match q.elems with
  | [] => none
  | h :: _ => some h

/-- `priqueue_poll`: the new queue and the value returned (`none` for `NULL`). -/
def priqueue_poll {α : Type} (q : priqueue_t α) : priqueue_t α × Option α :=
  match q.elems with
  | [] => (q, none)
  | h :: rest => ({ q with elems := rest, size := q.size - 1 }, some h)

/-- `priqueue_size`: the `size` field. -/
def priqueue_size {α : Type} (q : priqueue_t α) : Nat := q.size

/-- The `while` loop of `priqueue_remove` at a node of the chain; `at_head` tells that the
`prev_node` of that node is `NULL`, `hits` is the counter so far. A matching node is
unlinked: with `prev_node == NULL` the head moves on (and the next node, if any, gets
`prev_node = NULL`); otherwise the neighbours are linked to each other, and the statement
`temp_next->prev_node = temp_prev` dereferences `NULL` when the node is the last one, which
is the result `none`. The step `temp_node = temp_node->next_node` after `free(temp_node)`
reads the link the node had before it was freed. -/
def remove_loop {α : Type} [DecidableEq α] (ptr : α) :
    List α → Bool → Nat → Option (List α × Nat)
  | [], _, hits => some ([], hits)
  | t :: rest, at_head, hits =>
    if t = ptr then
      if at_head then remove_loop ptr rest true (hits + 1)
      else
        match rest with
        | [] => none
        | n :: more => remove_loop ptr (n :: more) false (hits + 1)
    else
      match remove_loop ptr rest false hits with
      | some (l, h) => some (t :: l, h)
      | none => none

/-- `priqueue_remove`: the new queue and the number of entries removed; `none` when the
loop dereferences `NULL`. -/
def priqueue_remove {α : Type} [DecidableEq α] (q : priqueue_t α) (ptr : α) :
    Option (priqueue_t α × Int) :=
  match q.elems with
  | [] => some ({ q with size := q.size - 0 }, 0)
  | t :: rest =>
    match remove_loop ptr (t :: rest) true 0 with
    | some (l, hits) => some ({ q with elems := l, size := q.size - hits }, (hits : Int))
    | none => none

/-- The `while` loop of `priqueue_remove_at` at a node of the chain with counter `i`;
`at_head` tells that the `prev_node` of that node is `NULL`, `to_return` is the value found
so far. The node with `i == index` is unlinked exactly as in `remove_loop`, with the same
`NULL` dereference at a last node that has a predecessor; the loop has no `break` and walks
on to the end of the chain. -/
def remove_at_loop {α : Type} :
    List α → Bool → Int → Int → Option α → Option (List α × Option α)
  | [], _, _, _, to_return => some ([], to_return)
  | t :: rest, at_head, i, index, to_return =>
    if i = index then
      if at_head then remove_at_loop rest true (i + 1) index (some t)
      else
        match rest with
        | [] => none
        | n :: more => remove_at_loop (n :: more) false (i + 1) index (some t)
    else
      match remove_at_loop rest false (i + 1) index to_return with
      | some (l, r) => some (t :: l, r)
      | none => none

/-- `priqueue_remove_at`: the new queue and the value returned (`none` inside for `NULL`);
the outer `none` when the loop dereferences `NULL`. The `size` field is not written. -/
def priqueue_remove_at {α : Type} (q : priqueue_t α) (index : Int) :
    Option (priqueue_t α × Option α) :=
  if q.elems.isEmpty ∨ index < 0 ∨ index ≥ (q.size : Int) then some (q, none)
  else
    match remove_at_loop q.elems true 0 index none with
    | some (l, to_return) => some ({ q with elems := l }, to_return)
    | none => none

/-- `priqueue_destroy`: polls until the chain is empty. -/
def priqueue_destroy {α : Type} (q : priqueue_t α) : priqueue_t α :=
  { q with elems := [], size := q.size - q.elems.length }

/-! ## libscheduler -/

/-- Modelled from the spec: the enumeration `scheme_t` is declared in `libscheduler.h`,
which is not among the sources; the six variants are those the spec lists. -/
inductive scheme_t where
  | FCFS
  | RR
  | SJF
  | PSJF
  | PRI
  | PPRI
deriving DecidableEq, Repr

/-- Modelled from the spec: the integer value of each enumerator of the absent
`libscheduler.h`, numbered in the order in which the spec lists the variants. -/
def scheme_t.toInt : scheme_t → Int
  | .FCFS => 0
  | .RR => 1
  | .SJF => 2
  | .PSJF => 3
  | .PRI => 4
  | .PPRI => 5

/-- The job record `job_t`. -/
structure job_t where
  id : Int
  arrival_time : Int
  used_time : Int
  remaining_time : Int
  needed_time : Int
  last_start_time : Int
  time_to_schedule : Int
  priority : Int
deriving DecidableEq, Repr

/-- The scheduler record `scheduler_t`; `num_cores` is the length of `core_array`. -/
structure scheduler_t where
  total_jobs : Int
  total_wait : ℚ
  total_turnaround : ℚ
  total_response : ℚ
  scheme : scheme_t
  priqueue : priqueue_t job_t
  core_array : List (Option job_t)

/-- The field `num_cores`: the number of slots of `core_array`. -/
def scheduler_t.num_cores (s : scheduler_t) : Nat := s.core_array.length

/-- A 32-bit two's complement result of an `int` subtraction. -/
def wrap32 (x : Int) : Int := (x + 2147483648) % 4294967296 - 2147483648

/-- `fcfs_compare`. -/
def fcfs_compare (job1 job2 : job_t) : Int :=
  wrap32 (job1.arrival_time - job2.arrival_time)

/-- `rr_compare`. -/
def rr_compare (_job1 _job2 : job_t) : Int := 1

/-- `sjf_compare`. -/
def sjf_compare (job1 job2 : job_t) : Int :=
  let to_return := wrap32 (job1.remaining_time - job2.remaining_time)
  if to_return = 0 then wrap32 (job1.arrival_time - job2.arrival_time)
  else to_return

/-- `pri_compare`. -/
def pri_compare (job1 job2 : job_t) : Int :=
  let to_return := wrap32 (job1.priority - job2.priority)
  if to_return = 0 then wrap32 (job1.arrival_time - job2.arrival_time)
  else to_return

/-- The comparer that the `if` chain of `scheduler_start_up` hands to `priqueue_init`. -/
def start_up_comparer (scheme : scheme_t) : job_t → job_t → Int :=
  if scheme = .FCFS then fcfs_compare
  else if scheme = .RR then rr_compare
  else if scheme = .SJF ∨ scheme = .PSJF then sjf_compare
  else if scheme = .PRI ∨ scheme.toInt ≠ 0 ∨ scheme_t.PPRI.toInt ≠ 0 then pri_compare
  else fcfs_compare

/-- `scheduler_start_up`. -/
def scheduler_start_up (cores : Nat) (scheme : scheme_t) : scheduler_t :=
  { total_jobs := 0
    total_wait := 0
    total_turnaround := 0
    total_response := 0
    scheme := scheme
    priqueue := priqueue_init (start_up_comparer scheme)
    core_array := List.replicate cores none }

/-- The body of the loop of `updateRemainingTimes` for one running job. -/
def refresh_job (time : Int) (j : job_t) : job_t :=
  let used := j.used_time + (time - j.last_start_time)
  { j with used_time := used, remaining_time := j.needed_time - used, last_start_time := time }

/-- `updateRemainingTimes`: every occupied slot is refreshed, empty slots are skipped. -/
def updateRemainingTimes (s : scheduler_t) (time : Int) : scheduler_t :=
  { s with core_array := s.core_array.map (Option.map (refresh_job time)) }

/-- The first loop of `scheduler_new_job`, at slot counter `i`: the index of the first
`NULL` slot, `none` when `core` keeps its initial `-1`. -/
def idle_scan : List (Option job_t) → Nat → Option Nat
  | [], _ => none
  | none :: _, i => some i
  | some _ :: rest, i => idle_scan rest (i + 1)

/-- One iteration of the victim loop of `scheduler_new_job` for the ranking field `key`
(`remaining_time` under PSJF, `priority` under PPRI): the new value of `core`, or `none`
when `core_array[core]` cannot be read. -/
def victim_step (key : job_t → Int) (cores : List (Option job_t)) (core i : Nat) : Option Nat :=
  match cores[i]? with
  | some (some ji) =>
    match cores[core]? with
    | some (some jc) =>
      if key ji > key jc then some i
      else if key ji = key jc then
        if ji.arrival_time > jc.remaining_time then some i else some core
      else some core
    | _ => none
  | _ => some core

/-- The victim loop: `core = 0`, then one iteration for each `i < num_cores`. -/
def victim_loop (key : job_t → Int) (cores : List (Option job_t)) : Option Nat :=
  (List.range cores.length).foldlM (victim_step key cores) 0

/-- The record filled in at the top of `scheduler_new_job`. -/
def make_job (job_number time running_time priority : Int) : job_t :=
  { id := job_number
    arrival_time := time
    used_time := 0
    remaining_time := running_time
    needed_time := running_time
    last_start_time := 0
    time_to_schedule := 0
    priority := priority }

/-- The PSJF and the PPRI branch of `scheduler_new_job` (identical up to the ranking
field `key`), entered with the running jobs already refreshed. -/
def preempt_branch (key : job_t → Int) (s : scheduler_t) (new_job : job_t) (time : Int) :
    Option (scheduler_t × Int) :=
  match victim_loop key s.core_array with
  | none => none
  | some core =>
    match s.core_array[core]? with
    | some (some old_job) =>
      if key old_job ≤ key new_job then
        some ({ s with priqueue := (priqueue_offer s.priqueue new_job).1 }, -1)
      else
        some ({ s with
                priqueue := (priqueue_offer s.priqueue old_job).1
                core_array := s.core_array.set core (some { new_job with last_start_time := time }) },
              (core : Int))
    | _ => none

/-- `scheduler_new_job`. -/
def scheduler_new_job (s : scheduler_t) (job_number time running_time priority : Int) :
    Option (scheduler_t × Int) :=
  let new_job := make_job job_number time running_time priority
  let core := idle_scan s.core_array 0
  let s1 := updateRemainingTimes s time
  match core with
  | some c =>
    some ({ s1 with core_array := s1.core_array.set c (some { new_job with last_start_time := time }) },
          (c : Int))
  | none =>
    if s1.scheme = .PSJF then preempt_branch (fun j => j.remaining_time) s1 new_job time
    else if s1.scheme = .PPRI then preempt_branch (fun j => j.priority) s1 new_job time
    else if s1.scheme = .FCFS ∨ s1.scheme = .RR ∨ s1.scheme = .PRI ∨ s1.scheme = .SJF then
      some ({ s1 with priqueue := (priqueue_offer s1.priqueue new_job).1 }, -1)
    else some (s1, -1)

/-- The common tail of `scheduler_job_finished` and `scheduler_quantum_expired`: poll the
queue and, when a job comes out, install it on `core_id`. -/
def install_next (s : scheduler_t) (core_id : Nat) (time : Int) : scheduler_t × Int :=
  match priqueue_poll s.priqueue with
  | (q, none) => ({ s with priqueue := q }, -1)
  | (q, some new_job) =>
    let j : job_t :=
      if new_job.used_time = 0 then
        { new_job with time_to_schedule := time - new_job.arrival_time }
      else new_job
    ({ s with
        priqueue := q
        core_array := s.core_array.set core_id (some { j with last_start_time := time }) },
      j.id)

/-- `scheduler_job_finished`; the argument `job_number` is not read by the C code. -/
def scheduler_job_finished (s : scheduler_t) (core_id : Nat) (_job_number time : Int) :
    Option (scheduler_t × Int) :=
  match s.core_array[core_id]? with
  | some (some old_job) =>
    let s1 : scheduler_t :=
      { s with
        total_jobs := s.total_jobs + 1
        total_wait := s.total_wait + (((time - old_job.arrival_time) - old_job.needed_time : Int) : ℚ)
        total_turnaround := s.total_turnaround + ((time - old_job.arrival_time : Int) : ℚ)
        total_response := s.total_response + (old_job.time_to_schedule : ℚ)
        core_array := s.core_array.set core_id none }
    some (install_next s1 core_id time)
  | _ => none

/-- `scheduler_quantum_expired`; an empty slot would make the C code enqueue a null
pointer, which the queue of this model cannot hold, so that call has no result here. -/
def scheduler_quantum_expired (s : scheduler_t) (core_id : Nat) (time : Int) :
    Option (scheduler_t × Int) :=
  let s1 := updateRemainingTimes s time
  match s1.core_array[core_id]? with
  | some (some old_job) =>
    let s2 : scheduler_t :=
      { s1 with
        priqueue := (priqueue_offer s1.priqueue old_job).1
        core_array := s1.core_array.set core_id none }
    some (install_next s2 core_id time)
  | _ => none

/-- `scheduler_average_waiting_time`. -/
def scheduler_average_waiting_time (s : scheduler_t) : ℚ :=
  if s.total_jobs = 0 then 0 else s.total_wait / (s.total_jobs : ℚ)

/-- `scheduler_average_turnaround_time`. -/
def scheduler_average_turnaround_time (s : scheduler_t) : ℚ :=
  if s.total_jobs = 0 then 0 else s.total_turnaround / (s.total_jobs : ℚ)

/-- `scheduler_average_response_time`. -/
def scheduler_average_response_time (s : scheduler_t) : ℚ :=
  if s.total_jobs = 0 then 0 else s.total_response / (s.total_jobs : ℚ)

/-- The identities (job ids) of the occupants of the core slots, slot by slot. -/
def occupant_ids (s : scheduler_t) : List (Option Int) :=
  s.core_array.map (Option.map job_t.id)

/-- Every slot of the core array holds a job. -/
def all_busy (cores : List (Option job_t)) : Prop :=
  ∀ i, i < cores.length → ∃ j, cores[i]? = some (some j)

/-! ## Event traces -/

/-- The three events by which the simulator drives the scheduler. -/
inductive event_t where
  | new_job (job_number time running_time priority : Int)
  | job_finished (core_id : Nat) (job_number time : Int)
  | quantum_expired (core_id : Nat) (time : Int)
deriving DecidableEq, Repr

/-- Deliver one event to the scheduler. -/
def step (s : scheduler_t) : event_t → Option (scheduler_t × Int)
  | .new_job job_number time running_time priority =>
    scheduler_new_job s job_number time running_time priority
  | .job_finished core_id job_number time => scheduler_job_finished s core_id job_number time
  | .quantum_expired core_id time => scheduler_quantum_expired s core_id time

/-- Deliver a list of events in order; the final state and the values returned, in order. -/
def run (s : scheduler_t) : List event_t → Option (scheduler_t × List Int)
  | [] => some (s, [])
  | e :: es =>
    match step s e with
    | none => none
    | some (s1, r) =>
      match run s1 es with
      | none => none
      | some (s2, rs) => some (s2, r :: rs)

/-- What a test can observe of a state: the core slots and the waiting jobs in order. -/
def snapshot (s : scheduler_t) : List (Option job_t) × List job_t :=
  (s.core_array, s.priqueue.elems)

/-- The observable part of a result: the snapshot of the state and the returned value. -/
def observe {β : Type} (r : Option (scheduler_t × β)) :
    Option ((List (Option job_t) × List job_t) × β) :=
  r.map (fun x => (snapshot x.1, x.2))

/-- Example state: one core under PSJF running job 1 (arrival 0, service 10), as left by
`scheduler_new_job 1 0 10 0` on a fresh scheduler. -/
def ex_psjf_running : scheduler_t :=
  { scheduler_start_up 1 .PSJF with
    core_array := [some { make_job 1 0 10 0 with last_start_time := 0 }] }

/-- Example state: one core under FCFS running job 1 (arrival 0, service 5). -/
def ex_fcfs_running : scheduler_t :=
  { scheduler_start_up 1 .FCFS with
    core_array := [some { make_job 1 0 5 0 with last_start_time := 0 }] }

/-- Example state: two cores under PSJF at time 5; core 0 runs job 1 (arrival 0, service
105), core 1 runs job 2 (arrival 5, service 100), both with `remaining_time = 100`. -/
def ex_psjf_tie : scheduler_t :=
  { scheduler_start_up 2 .PSJF with
    core_array :=
      [some { id := 1, arrival_time := 0, used_time := 5, remaining_time := 100,
              needed_time := 105, last_start_time := 5, time_to_schedule := 0, priority := 0 },
       some { id := 2, arrival_time := 5, used_time := 0, remaining_time := 100,
              needed_time := 100, last_start_time := 5, time_to_schedule := 0,
              priority := 0 }] }

/-- Example state: two cores under PPRI at time 1; jobs 1 (arrival 0) and 2 (arrival 1),
both of priority 5 and service 100, run on cores 0 and 1. -/
def ex_ppri_tie : scheduler_t :=
  { scheduler_start_up 2 .PPRI with
    core_array :=
      [some { id := 1, arrival_time := 0, used_time := 1, remaining_time := 99,
              needed_time := 100, last_start_time := 1, time_to_schedule := 0, priority := 5 },
       some { id := 2, arrival_time := 1, used_time := 0, remaining_time := 100,
              needed_time := 100, last_start_time := 1, time_to_schedule := 0,
              priority := 5 }] }

/-- The four accumulator fields: completed-job count and the totals of wait, turnaround
and response time. -/
def stats (s : scheduler_t) : Int × ℚ × ℚ × ℚ :=
  (s.total_jobs, s.total_wait, s.total_turnaround, s.total_response)

/-- A job as `install_next` leaves it on a core at `time`: the latency is recorded when
`used_time` is zero, and `last_start_time` is set. -/
def dispatched (time : Int) (w : job_t) : job_t :=
  { w with
    time_to_schedule := if w.used_time = 0 then time - w.arrival_time else w.time_to_schedule
    last_start_time := time }

/-- Example state: one core under FCFS running job 1, jobs 2 and 3 waiting. -/
def ex_fcfs_waiting : scheduler_t :=
  { scheduler_start_up 1 .FCFS with
    core_array := [some { make_job 1 0 5 0 with last_start_time := 0 }]
    priqueue :=
      { elems := [make_job 2 1 2 0, make_job 3 2 4 0], size := 2, compare := fcfs_compare } }

/-- Example state: one core under RR at time 2; job 1 runs, jobs 2 and 3 wait, as left
by the arrivals of jobs 1, 2, 3 at times 0, 1, 2 on a fresh scheduler. -/
def ex_rr_three : scheduler_t :=
  { scheduler_start_up 1 .RR with
    core_array := [some { id := 1, arrival_time := 0, used_time := 2, remaining_time := 8,
                          needed_time := 10, last_start_time := 2, time_to_schedule := 0,
                          priority := 0 }]
    priqueue :=
      { elems := [make_job 2 1 10 0, make_job 3 2 10 0], size := 2, compare := rr_compare } }

/-- Example queue of integers ordered by difference: 1, 3, 5. -/
def ex_queue : priqueue_t Int :=
  { elems := [1, 3, 5], size := 3, compare := fun a b => a - b }

/-- Example state: two cores under FCFS, core 0 running job 7, core 1 idle. -/
def ex_one_idle : scheduler_t :=
  { scheduler_start_up 2 .FCFS with
    core_array := [some { make_job 7 0 5 0 with last_start_time := 0 }, none] }

/-! ## Jobs in the system and the record of a trace -/

/-- The jobs held by the core slots, in slot order. -/
def running_jobs (s : scheduler_t) : List job_t := s.core_array.filterMap (fun x => x)

/-- Every job in the system: the running ones, then the waiting ones in queue order. -/
def jobs_of (s : scheduler_t) : List job_t := running_jobs s ++ s.priqueue.elems

/-- The ids of the jobs in the system, one entry per occurrence. -/
def job_ids (s : scheduler_t) : List Int := (jobs_of s).map job_t.id

/-- What a trace has done so far: the ids that arrived, the ids of the jobs that completed,
the arrival times used, and the time of the latest event. -/
structure ledger where
  arrived : List Int
  completed : List Int
  arrivals : List Int
  now : Int
deriving DecidableEq, Repr

/-- The record before any event. -/
def ledger.start : ledger := { arrived := [], completed := [], arrivals := [], now := 0 }

/-- The time stamp of an event. -/
def event_time : event_t → Int
  | .new_job _ time _ _ => time
  | .job_finished _ _ time => time
  | .quantum_expired _ time => time

/-- The slot `c` of the core array exists and holds a job. -/
def occupied (s : scheduler_t) (c : Nat) : Bool :=
  match s.core_array[c]? with
  | some (some _) => true
  | _ => false

/-- The record after an event delivered in state `s`: an arrival adds its id and time, a
completion adds the id of the job that was on the core. -/
def track (s : scheduler_t) (g : ledger) (e : event_t) : ledger :=
  match e with
  | .new_job job_number time _ _ =>
    { g with arrived := job_number :: g.arrived, arrivals := time :: g.arrivals, now := time }
  | .job_finished core_id _ time =>
    match s.core_array[core_id]? with
    | some (some j) => { g with completed := j.id :: g.completed, now := time }
    | _ => { g with now := time }
  | .quantum_expired _ time => { g with now := time }

/-- An event valid for the interface: an arrival carries an id not used before; a
completion or quantum expiry names an existing, occupied core. -/
def valid_event (s : scheduler_t) (g : ledger) : event_t → Bool
  | .new_job job_number _ _ _ => decide (job_number ∉ g.arrived)
  | .job_finished core_id _ _ => occupied s core_id
  | .quantum_expired core_id _ => occupied s core_id

/-- An event in time order with inputs in range: its time is not before the latest event
and below `2^30`; an arrival has a time no earlier arrival used, a service time in
`[0, 2^30)` and a priority strictly between `-2^30` and `2^30`. -/
def timed_event (g : ledger) : event_t → Bool
  | .new_job _ time running_time priority =>
    decide (g.now ≤ time ∧ time < 1073741824 ∧ time ∉ g.arrivals ∧
      0 ≤ running_time ∧ running_time < 1073741824 ∧
      -1073741824 < priority ∧ priority < 1073741824)
  | .job_finished _ _ time => decide (g.now ≤ time ∧ time < 1073741824)
  | .quantum_expired _ time => decide (g.now ≤ time ∧ time < 1073741824)

/-- The events of a trace, delivered in order from state `s` with record `g`, each satisfy
`ok` in the state and record in which they are delivered. -/
def each_event (ok : scheduler_t → ledger → event_t → Bool) (s : scheduler_t) (g : ledger) :
    List event_t → Bool
  | [] => true
  | e :: es =>
    ok s g e &&
      match step s e with
      | some (s1, _) => each_event ok s1 (track s g e) es
      | none => true

/-- The record after a whole trace delivered from state `s` with record `g`. -/
def track_all (s : scheduler_t) (g : ledger) : List event_t → ledger
  | [] => g
  | e :: es =>
    match step s e with
    | some (s1, _) => track_all s1 (track s g e) es
    | none => track s g e

/-- The waiting order of a scheme: `a` goes before `b`. FCFS orders by arrival time; SJF
and PSJF by remaining time, then arrival time; PRI and PPRI by priority value, then arrival
time. RR has no such order. -/
def precedes (scheme : scheme_t) (a b : job_t) : Prop :=
  match scheme with
  | .FCFS => a.arrival_time < b.arrival_time
  | .RR => False
  | .SJF | .PSJF =>
    a.remaining_time < b.remaining_time ∨
      (a.remaining_time = b.remaining_time ∧ a.arrival_time < b.arrival_time)
  | .PRI | .PPRI =>
    a.priority < b.priority ∨ (a.priority = b.priority ∧ a.arrival_time < b.arrival_time)

/-- The ids in the system agree with the record: an id that arrived and did not complete
occurs exactly once among the core slots and the queue, any other id does not occur; the
scheduler has a core and only arrived jobs have completed. -/
def ids_accounted (s : scheduler_t) (g : ledger) : Prop :=
  0 < s.core_array.length ∧
  (∀ id : Int, (job_ids s).count id = if id ∈ g.arrived ∧ id ∉ g.completed then 1 else 0) ∧
  (∀ id : Int, id ∈ g.completed → id ∈ g.arrived)

/-- Example trace: three arrivals on one PSJF core (the second preempts the first), a
completion, a quantum expiry and a second completion. -/
def ex_trace : List event_t :=
  [.new_job 1 0 10 0, .new_job 2 2 3 0, .new_job 3 3 7 0, .job_finished 0 2 5,
   .quantum_expired 0 6, .job_finished 0 3 12]

/-- A field of the job record that refreshing a running job, dispatching a job and setting
`last_start_time` leave unchanged. -/
def stable_field (f : job_t → Int) : Prop :=
  (∀ (time : Int) (j : job_t), f (refresh_job time j) = f j) ∧
  (∀ (time : Int) (j : job_t), f (dispatched time j) = f j) ∧
  (∀ (time : Int) (j : job_t), f { j with last_start_time := time } = f j)

/-- The three ranking fields of a job lie strictly between `-2^30` and `2^30`, so that the
difference of two of them fits in 32 bits. -/
def in_range (j : job_t) : Prop :=
  -1073741824 < j.arrival_time ∧ j.arrival_time < 1073741824 ∧
  -1073741824 < j.remaining_time ∧ j.remaining_time < 1073741824 ∧
  -1073741824 < j.priority ∧ j.priority < 1073741824

/-- The time accounting of a job is consistent at time `now`: it arrived in `[0, now]`, its
service time is in `[0, 2^30)`, it has used between 0 and `now - arrival_time`, its
`remaining_time` is `needed_time - used_time`, and its priority is in range. -/
def job_ok (now : Int) (j : job_t) : Prop :=
  0 ≤ j.arrival_time ∧ j.arrival_time ≤ now ∧
  0 ≤ j.needed_time ∧ j.needed_time < 1073741824 ∧
  0 ≤ j.used_time ∧ j.used_time ≤ now - j.arrival_time ∧
  j.remaining_time = j.needed_time - j.used_time ∧
  -1073741824 < j.priority ∧ j.priority < 1073741824

/-- A running job is consistent at time `now`: it was last started no later than `now` and
had used no more than the time between its arrival and that start. -/
def running_ok (now : Int) (j : job_t) : Prop :=
  job_ok now j ∧ j.last_start_time ≤ now ∧ j.used_time ≤ j.last_start_time - j.arrival_time

/-- The state reached by an orderly trace with record `g`: there is a core, the queue
carries the comparer of the scheme and is ordered by `precedes`, every job is consistent at
the time of the latest event, and the arrival times of the jobs in the system are pairwise
distinct and recorded. -/
def orderly (s : scheduler_t) (g : ledger) : Prop :=
  0 < s.core_array.length ∧
  s.priqueue.compare = start_up_comparer s.scheme ∧
  0 ≤ g.now ∧ g.now < 1073741824 ∧
  (∀ j ∈ running_jobs s, running_ok g.now j) ∧
  (∀ j ∈ s.priqueue.elems, job_ok g.now j) ∧
  ((jobs_of s).map job_t.arrival_time).Nodup ∧
  (∀ j ∈ jobs_of s, j.arrival_time ∈ g.arrivals) ∧
  s.priqueue.elems.Pairwise (precedes s.scheme)

/-- An event of an orderly trace: valid for the interface, in time order, inputs in range. -/
def orderly_event (s : scheduler_t) (g : ledger) (e : event_t) : Bool :=
  valid_event s g e && timed_event g e

/-- Example trace: three arrivals on one core; under PSJF the second preempts the first
and the third waits ahead of the first. -/
def ex_arrivals : List event_t :=
  [.new_job 1 0 10 0, .new_job 2 2 3 0, .new_job 3 3 7 0]

/-- Example queue of pairs (key, tag) ordered by the difference of the keys: the keys are
1, 3, 3, 5 and the tags tell the equal keys apart. -/
def ex_equal_queue : priqueue_t (Int × Int) :=
  { elems := [(1, 0), (3, 1), (3, 2), (5, 3)], size := 4, compare := fun a b => a.1 - b.1 }

/-- What a test can observe of a queue: the stored values in order and `priqueue_size`. -/
def queue_view {α : Type} (q : priqueue_t α) : List α × Nat := (q.elems, priqueue_size q)

/-- The FCFS scenario of the spec on one core: job 1 (arrival 0, service 5) and job 2
(arrival 1, service 2) arrive, job 1 finishes at time 5 and job 2 at time 7. -/
def ex_fcfs_trace : List event_t :=
  [.new_job 1 0 5 0, .new_job 2 1 2 0, .job_finished 0 1 5, .job_finished 0 2 7]

/-- The three averages of a state: waiting, turnaround and response time. -/
def averages (s : scheduler_t) : ℚ × ℚ × ℚ :=
  (scheduler_average_waiting_time s, scheduler_average_turnaround_time s,
    scheduler_average_response_time s)

/-- An event valid for the interface and delivered in time order: its time is not before
the time of the latest event. -/
def in_order_event (s : scheduler_t) (g : ledger) (e : event_t) : Bool :=
  valid_event s g e && decide (g.now ≤ event_time e)

/-- The running jobs are consistent with the record of a trace in time order: the ids are
accounted for, no running job was started after the latest event, no job has a negative
`used_time`, and a running job that has not used any time yet carries as `time_to_schedule`
the time of its placement (`last_start_time`) minus its `arrival_time`. -/
def in_order (s : scheduler_t) (g : ledger) : Prop :=
  ids_accounted s g ∧
  (∀ j ∈ running_jobs s, j.last_start_time ≤ g.now) ∧
  (∀ j ∈ jobs_of s, 0 ≤ j.used_time) ∧
  (∀ j ∈ running_jobs s, j.used_time = 0 →
    j.time_to_schedule = j.last_start_time - j.arrival_time)

/-- Example trace on one core: job 2 (arrival 1) is dispatched when job 1 finishes at time
5, job 3 arrives at the same time 5 with a shorter service time, and job 3 finishes at 7. -/
def ex_redispatch : List event_t :=
  [.new_job 1 0 5 0, .new_job 2 1 8 0, .job_finished 0 1 5, .new_job 3 5 2 0,
   .job_finished 0 3 7]

/-- The id, `used_time` and `time_to_schedule` of the occupant of each core slot. -/
def latencies (s : scheduler_t) : List (Option (Int × Int × Int)) :=
  s.core_array.map (Option.map (fun j => (j.id, j.used_time, j.time_to_schedule)))

/-- The id, `used_time` and `time_to_schedule` of the waiting jobs, in queue order. -/
def waiting_latencies (s : scheduler_t) : List (Int × Int × Int) :=
  s.priqueue.elems.map (fun j => (j.id, j.used_time, j.time_to_schedule))

/-- The record `j1` continues the job `j`: it has the same id, and if `j` had used
processor time then `j1` has the same `time_to_schedule` and has used processor time. -/
def keeps_latency (j j1 : job_t) : Prop :=
  j.id = j1.id ∧ (0 < j.used_time → j1.time_to_schedule = j.time_to_schedule ∧ 0 < j1.used_time)

/-- What one event at `time` may do to the latency of a job, `j` being its record in the
state `s` before the event and `j1` its record in the state `s1` after it: the id and the
arrival time stay, and the `time_to_schedule` stays as well unless the event took the job
from the waiting queue with `used_time = 0` and put it on a core, in which case the new
`time_to_schedule` is `time - arrival_time`. -/
def latency_rule (s s1 : scheduler_t) (time : Int) (j j1 : job_t) : Prop :=
  j1.id = j.id ∧ j1.arrival_time = j.arrival_time ∧
  (j1.time_to_schedule = j.time_to_schedule ∨
    (j ∈ s.priqueue.elems ∧ j.used_time = 0 ∧ j1 ∈ running_jobs s1 ∧
      j1.time_to_schedule = time - j.arrival_time))

/-- Example state: one core under RR at time 0 running job 1 (service 10), nobody waiting. -/
def ex_rr_alone : scheduler_t :=
  { scheduler_start_up 1 .RR with
    core_array := [some { make_job 1 0 10 0 with last_start_time := 0 }] }

/-- Example trace on one core: a job whose `job_number` is -1 arrives at time 0 (service
10), and the quantum of core 0 expires at time 4. -/
def ex_minus_one : List event_t :=
  [.new_job (-1) 0 10 0, .quantum_expired 0 4]

/-! ## The machine reading: 32-bit `int` and binary32 `float`

The definitions above read the `int` operations over the integers and the `float`
accumulators as exact rationals. The definitions of this section are the same C functions
with every `int` operation wrapped to 32 bits (`wrap32`) and every `float` operation
rounded to binary32 (`f32`); their names carry the suffix `32`. -/

/-- Rounding of a rational to the nearest integer, a tie going to the even integer. -/
def round_even (y : ℚ) : Int :=
  if y - (⌊y⌋ : ℚ) < 1 / 2 then ⌊y⌋
  else if 1 / 2 < y - (⌊y⌋ : ℚ) then ⌊y⌋ + 1
  else if ⌊y⌋ % 2 = 0 then ⌊y⌋ else ⌊y⌋ + 1

/-- The binary32 (`float`) value of a rational `x`, rounding to nearest with ties to even:
with `e` the exponent of the binade of `x` (at least -126, the exponent of the subnormal
numbers), `x` is rounded to a multiple of `2 ^ (e - 23)`. Finite values only: the
accumulators start at 0 and only ever have a 32-bit integer added, which cannot take a
finite binary32 value to an infinity, and a quotient by a non-zero integer is not larger in
magnitude than the dividend. -/
def f32 (x : ℚ) : ℚ :=
  if x = 0 then 0
  else
    (round_even (x / 2 ^ (max (Int.log 2 |x|) (-126) - 23)) : ℚ) *
      2 ^ (max (Int.log 2 |x|) (-126) - 23)

/-- The body of the loop of `updateRemainingTimes` for one running job, in 32-bit `int`
arithmetic. -/
def refresh_job32 (time : Int) (j : job_t) : job_t :=
  let used := wrap32 (j.used_time + wrap32 (time - j.last_start_time))
  { j with
    used_time := used
    remaining_time := wrap32 (j.needed_time - used)
    last_start_time := time }

/-- `updateRemainingTimes` in 32-bit `int` arithmetic. -/
def updateRemainingTimes32 (s : scheduler_t) (time : Int) : scheduler_t :=
  { s with core_array := s.core_array.map (Option.map (refresh_job32 time)) }

/-- `scheduler_new_job` in 32-bit `int` arithmetic: its only arithmetic is that of
`updateRemainingTimes`. -/
def scheduler_new_job32 (s : scheduler_t) (job_number time running_time priority : Int) :
    Option (scheduler_t × Int) :=
  let new_job := make_job job_number time running_time priority
  let core := idle_scan s.core_array 0
  let s1 := updateRemainingTimes32 s time
  match core with
  | some c =>
    some ({ s1 with core_array := s1.core_array.set c (some { new_job with last_start_time := time }) },
          (c : Int))
  | none =>
    if s1.scheme = .PSJF then preempt_branch (fun j => j.remaining_time) s1 new_job time
    else if s1.scheme = .PPRI then preempt_branch (fun j => j.priority) s1 new_job time
    else if s1.scheme = .FCFS ∨ s1.scheme = .RR ∨ s1.scheme = .PRI ∨ s1.scheme = .SJF then
      some ({ s1 with priqueue := (priqueue_offer s1.priqueue new_job).1 }, -1)
    else some (s1, -1)

/-- The common tail of `scheduler_job_finished` and `scheduler_quantum_expired` in 32-bit
`int` arithmetic. -/
def install_next32 (s : scheduler_t) (core_id : Nat) (time : Int) : scheduler_t × Int :=
  match priqueue_poll s.priqueue with
  | (q, none) => ({ s with priqueue := q }, -1)
  | (q, some new_job) =>
    let j : job_t :=
      if new_job.used_time = 0 then
        { new_job with time_to_schedule := wrap32 (time - new_job.arrival_time) }
      else new_job
    ({ s with
        priqueue := q
        core_array := s.core_array.set core_id (some { j with last_start_time := time }) },
      j.id)

/-- `scheduler_job_finished` in 32-bit `int` and binary32 `float` arithmetic: `temp` is an
`int`; in `total_wait + temp` the `int` is converted to `float` and the sum is rounded
to `float`. -/
def scheduler_job_finished32 (s : scheduler_t) (core_id : Nat) (_job_number time : Int) :
    Option (scheduler_t × Int) :=
  match s.core_array[core_id]? with
  | some (some old_job) =>
    let s1 : scheduler_t :=
      { s with
        total_jobs := wrap32 (s.total_jobs + 1)
        total_wait :=
          f32 (s.total_wait +
            f32 ((wrap32 (wrap32 (time - old_job.arrival_time) - old_job.needed_time) : Int) : ℚ))
        total_turnaround :=
          f32 (s.total_turnaround + f32 ((wrap32 (time - old_job.arrival_time) : Int) : ℚ))
        total_response := f32 (s.total_response + f32 (old_job.time_to_schedule : ℚ))
        core_array := s.core_array.set core_id none }
    some (install_next32 s1 core_id time)
  | _ => none

/-- `scheduler_quantum_expired` in 32-bit `int` arithmetic; as in
`scheduler_quantum_expired`, the call on an empty slot has no result here. -/
def scheduler_quantum_expired32 (s : scheduler_t) (core_id : Nat) (time : Int) :
    Option (scheduler_t × Int) :=
  let s1 := updateRemainingTimes32 s time
  match s1.core_array[core_id]? with
  | some (some old_job) =>
    let s2 : scheduler_t :=
      { s1 with
        priqueue := (priqueue_offer s1.priqueue old_job).1
        core_array := s1.core_array.set core_id none }
    some (install_next32 s2 core_id time)
  | _ => none

/-- `scheduler_average_waiting_time` in binary32 arithmetic, with the state after the call:
in `total_wait / total_jobs` the `int` is converted to `float` and the quotient is rounded
to `float`. The function writes no field of the scheduler. -/
def scheduler_average_waiting_time32 (s : scheduler_t) : scheduler_t × ℚ :=
  (s, if s.total_jobs = 0 then 0 else f32 (s.total_wait / f32 (s.total_jobs : ℚ)))

/-- `scheduler_average_turnaround_time` in binary32 arithmetic, with the state after the
call. -/
def scheduler_average_turnaround_time32 (s : scheduler_t) : scheduler_t × ℚ :=
  (s, if s.total_jobs = 0 then 0 else f32 (s.total_turnaround / f32 (s.total_jobs : ℚ)))

/-- `scheduler_average_response_time` in binary32 arithmetic, with the state after the
call. -/
def scheduler_average_response_time32 (s : scheduler_t) : scheduler_t × ℚ :=
  (s, if s.total_jobs = 0 then 0 else f32 (s.total_response / f32 (s.total_jobs : ℚ)))

/-- Deliver one event to the scheduler, machine reading. -/
def step32 (s : scheduler_t) : event_t → Option (scheduler_t × Int)
  | .new_job job_number time running_time priority =>
    scheduler_new_job32 s job_number time running_time priority
  | .job_finished core_id job_number time => scheduler_job_finished32 s core_id job_number time
  | .quantum_expired core_id time => scheduler_quantum_expired32 s core_id time

/-- Deliver a list of events in order, machine reading; the final state and the values
returned, in order. -/
def run32 (s : scheduler_t) : List event_t → Option (scheduler_t × List Int)
  | [] => some (s, [])
  | e :: es =>
    match step32 s e with
    | none => none
    | some (s1, r) =>
      match run32 s1 es with
      | none => none
      | some (s2, rs) => some (s2, r :: rs)

/-- The events of a trace, delivered in order from state `s` with record `g` in the machine
reading, each satisfy `ok` in the state and record in which they are delivered. -/
def each_event32 (ok : scheduler_t → ledger → event_t → Bool) (s : scheduler_t) (g : ledger) :
    List event_t → Bool
  | [] => true
  | e :: es =>
    ok s g e &&
      match step32 s e with
      | some (s1, _) => each_event32 ok s1 (track s g e) es
      | none => true

/-- The record after a whole trace delivered from state `s` with record `g`, machine
reading. -/
def track_all32 (s : scheduler_t) (g : ledger) : List event_t → ledger
  | [] => g
  | e :: es =>
    match step32 s e with
    | some (s1, _) => track_all32 s1 (track s g e) es
    | none => track s g e

/-- The three averages of a state as the three functions return them when called one after
the other, machine reading, with the state after the third call. -/
def averages32 (s : scheduler_t) : scheduler_t × ℚ × ℚ × ℚ :=
  let a := scheduler_average_waiting_time32 s
  let b := scheduler_average_turnaround_time32 a.1
  let c := scheduler_average_response_time32 b.1
  (c.1, a.2, b.2, c.2)

/-- An event valid for the interface, delivered in time order from time 0 on, with
arguments that fit an `int`: its time is not before the time of the latest event and below
`2^31`; the service time of an arrival is in `[0, 2^31)`. -/
def ranged_event (s : scheduler_t) (g : ledger) (e : event_t) : Bool :=
  in_order_event s g e && decide (event_time e < 2147483648) &&
    match e with
    | .new_job _ _ running_time _ => decide (0 ≤ running_time ∧ running_time < 2147483648)
    | _ => true

/-- The time accounting of a job fits 32 bits at time `now`: it arrived at a time in
`[0, 2^31)`, its service time is in `[0, 2^31)`, it has used a time between 0 and its
`last_start_time`, which is not after `now`, and its `remaining_time` is
`needed_time - used_time`. -/
def job_fits (now : Int) (j : job_t) : Prop :=
  0 ≤ j.arrival_time ∧ j.arrival_time < 2147483648 ∧
  0 ≤ j.needed_time ∧ j.needed_time < 2147483648 ∧
  0 ≤ j.used_time ∧ j.used_time ≤ j.last_start_time ∧ j.last_start_time ≤ now ∧
  j.remaining_time = j.needed_time - j.used_time

/-- A state reached by a trace of `ranged_event`s with record `g`: there is a core, the
time of the latest event is in `[0, 2^31)` and every job fits. -/
def fits (s : scheduler_t) (g : ledger) : Prop :=
  0 < s.core_array.length ∧ 0 ≤ g.now ∧ g.now < 2147483648 ∧
  ∀ j ∈ jobs_of s, job_fits g.now j

/-- Two states hold the same jobs in the same places under the same scheme; they may differ
in the accumulators. -/
def same_jobs (s s1 : scheduler_t) : Prop :=
  s1.scheme = s.scheme ∧ s1.priqueue = s.priqueue ∧ s1.core_array = s.core_array

/-- Example trace on one core: job 1 (arrival 0, service 1) is alone and finishes at time
16777218, having waited 16777217 units. -/
def ex_long_wait : List event_t :=
  [.new_job 1 0 1 0, .job_finished 0 1 16777218]

/-- Example trace on one FCFS core: jobs 1, 2, 3 arrive at times 0, 1, 2 with service times
7, 2, 4 and finish at times 7, 9, 13; they wait 0, 6 and 7 units. -/
def ex_thirds : List event_t :=
  [.new_job 1 0 7 0, .new_job 2 1 2 0, .new_job 3 2 4 0, .job_finished 0 1 7,
   .job_finished 0 2 9, .job_finished 0 3 13]

/-- Example trace on one core: job 1 arrives at time -2 and job 2 at time 2147483647. -/
def ex_wrap_negative : List event_t :=
  [.new_job 1 (-2) 10 0, .new_job 2 2147483647 5 0]

/-- Example trace on one core: job 1 arrives at time 2147483647 and job 2 at time 0. -/
def ex_wrap_backwards : List event_t :=
  [.new_job 1 2147483647 10 0, .new_job 2 0 5 0]

/-- Example trace on one core: job 1 arrives at time 0 with service time -10 and job 2 at
time 2147483647. -/
def ex_wrap_service : List event_t :=
  [.new_job 1 0 (-10) 0, .new_job 2 2147483647 5 0]

/-- The id, `remaining_time`, `needed_time` and `used_time` of every job of a state. -/
def accounts (s : scheduler_t) : List (Int × Int × Int × Int) :=
  (jobs_of s).map (fun j => (j.id, j.remaining_time, j.needed_time, j.used_time))

/-- Example state: two jobs completed, with total waiting time 4, total turnaround time 11
and total response time 4, as at the end of the FCFS scenario `ex_fcfs_trace`. -/
def ex_two_done : scheduler_t :=
  { scheduler_start_up 1 .FCFS with
    total_jobs := 2, total_wait := 4, total_turnaround := 11, total_response := 4 }

/-! ## The ordered queue: where `priqueue_offer` links the new node -/

theorem offer_loop_some {α : Type} (cmp : α → α → Int) (v : α) (l : List α) (k : Nat)
    (l2 : List α) (i : Nat) (h : offer_loop cmp v l k = some (l2, i)) :
    ∃ a e b, l = a ++ e :: b ∧ l2 = a ++ v :: e :: b ∧ i = k + a.length ∧
      (∀ x ∈ a, ¬ cmp v x < 0) ∧ cmp v e < 0 := by
  induction l generalizing k l2 i with
  | nil => simp [offer_loop] at h
  | cons t rest ih =>
    simp only [offer_loop] at h
    by_cases hlt : cmp v t < 0
    · simp only [hlt, if_true, Option.some.injEq, Prod.mk.injEq] at h
      obtain ⟨h1, h2⟩ := h
      exact ⟨[], t, rest, by simp, by simp [← h1], by simp [← h2], by simp, hlt⟩
    · simp only [hlt, if_false] at h
      cases hr : offer_loop cmp v rest (k + 1) with
      | none => simp [hr] at h
      | some r =>
        obtain ⟨l3, i3⟩ := r
        simp only [hr, Option.some.injEq, Prod.mk.injEq] at h
        obtain ⟨h1, h2⟩ := h
        obtain ⟨a, e, b, ha, hb, hi, hall, he⟩ := ih (k + 1) l3 i3 hr
        refine ⟨t :: a, e, b, by simp [ha], by simp [← h1, hb], ?_, ?_, he⟩
        · simp only [List.length_cons]; omega
        · intro x hx
          rcases List.mem_cons.mp hx with hx | hx
          · subst hx; exact hlt
          · exact hall x hx

theorem offer_loop_none {α : Type} (cmp : α → α → Int) (v : α) (l : List α) (k : Nat)
    (h : offer_loop cmp v l k = none) : ∀ x ∈ l, ¬ cmp v x < 0 := by
  induction l generalizing k with
  | nil => simp
  | cons t rest ih =>
    simp only [offer_loop] at h
    by_cases hlt : cmp v t < 0
    · simp [hlt] at h
    · simp only [hlt, if_false] at h
      cases hr : offer_loop cmp v rest (k + 1) with
      | some r => simp [hr] at h
      | none =>
        intro x hx
        rcases List.mem_cons.mp hx with hx | hx
        · subst hx; exact hlt
        · exact ih (k + 1) hr x hx

/-- The shape of the queue after `priqueue_offer`: the chain is split at the first element
the new value compares below (at the end when there is none), the value is linked in at the
split, and the `size` field grows by one. -/
theorem priqueue_offer_shape {α : Type} (q : priqueue_t α) (v : α) :
    ∃ a b, q.elems = a ++ b ∧ (priqueue_offer q v).1.elems = a ++ v :: b ∧
      (∀ x ∈ a, ¬ q.compare v x < 0) ∧
      (b = [] ∨ ∃ e rest, b = e :: rest ∧ q.compare v e < 0) ∧
      (priqueue_offer q v).1.size = q.size + 1 ∧
      (priqueue_offer q v).1.compare = q.compare ∧
      (q.size = q.elems.length → (priqueue_offer q v).2 = (a.length : Int)) := by
  cases hq : q.elems with
  | nil =>
    refine ⟨[], [], by simp, ?_, by simp, Or.inl rfl, ?_, ?_, ?_⟩ <;>
      simp [priqueue_offer, hq]
  | cons t rest =>
    cases hl : offer_loop q.compare v (t :: rest) 0 with
    | none =>
      have hall := offer_loop_none q.compare v (t :: rest) 0 hl
      refine ⟨t :: rest, [], by simp, ?_, hall, Or.inl rfl, ?_, ?_, ?_⟩ <;>
        simp [priqueue_offer, hq, hl]
      intro hs; exact_mod_cast hs
    | some r =>
      obtain ⟨l2, i⟩ := r
      obtain ⟨a, e, b, ha, hb, hi, hall, he⟩ := offer_loop_some q.compare v (t :: rest) 0 l2 i hl
      refine ⟨a, e :: b, ha, ?_, hall, Or.inr ⟨e, b, rfl, he⟩, ?_, ?_, ?_⟩ <;>
        simp [priqueue_offer, hq, hl, hb, hi]

/-! ## Core slots: the idle scan and the refresh -/

theorem idle_scan_some (l : List (Option job_t)) (k c : Nat) (h : idle_scan l k = some c) :
    k ≤ c ∧ l[c - k]? = some none ∧ ∀ i, i < c - k → ∃ j, l[i]? = some (some j) := by
  induction l generalizing k with
  | nil => simp [idle_scan] at h
  | cons x rest ih =>
    cases x with
    | none =>
      simp only [idle_scan, Option.some.injEq] at h
      subst h
      simp
    | some j =>
      simp only [idle_scan] at h
      obtain ⟨h1, h2, h3⟩ := ih (k + 1) h
      have hc : c - k = (c - (k + 1)) + 1 := by omega
      refine ⟨by omega, ?_, ?_⟩
      · rw [hc, List.getElem?_cons_succ]; exact h2
      · intro i hi
        cases i with
        | zero => exact ⟨j, by simp⟩
        | succ n =>
          rw [List.getElem?_cons_succ]
          exact h3 n (by omega)

theorem idle_scan_none (l : List (Option job_t)) (k : Nat) (h : idle_scan l k = none) :
    all_busy l := by
  induction l generalizing k with
  | nil => intro i hi; simp at hi
  | cons x rest ih =>
    cases x with
    | none => simp [idle_scan] at h
    | some j =>
      simp only [idle_scan] at h
      intro i hi
      cases i with
      | zero => exact ⟨j, by simp⟩
      | succ n =>
        rw [List.getElem?_cons_succ]
        exact ih (k + 1) h n (by simpa using hi)

theorem idle_scan_of_idle (l : List (Option job_t)) (k i : Nat) (h : l[i]? = some none) :
    ∃ c, idle_scan l k = some c := by
  cases hs : idle_scan l k with
  | some c => exact ⟨c, rfl⟩
  | none =>
    have hb := idle_scan_none l k hs
    have hi : i < l.length := by
      by_contra hn
      rw [List.getElem?_eq_none (by omega)] at h
      cases h
    obtain ⟨j, hj⟩ := hb i hi
    rw [hj] at h
    cases h

theorem occupant_ids_update (s : scheduler_t) (time : Int) :
    occupant_ids (updateRemainingTimes s time) = occupant_ids s := by
  simp only [occupant_ids, updateRemainingTimes, List.map_map]
  apply List.map_congr_left
  intro x _
  cases x <;> rfl

/-! ## Arrival on an idle core -/

theorem new_job_idle_eq (s : scheduler_t) (job_number time running_time priority : Int)
    (c : Nat) (hc : idle_scan s.core_array 0 = some c) :
    scheduler_new_job s job_number time running_time priority =
      some ({ updateRemainingTimes s time with
              core_array := (updateRemainingTimes s time).core_array.set c
                (some { make_job job_number time running_time priority with
                        last_start_time := time }) }, (c : Int)) := by
  simp only [scheduler_new_job, hc]

/-- C1: when some core is empty, `scheduler_new_job` called at `time` returns the index `c`
of the lowest-indexed empty core, puts there the new job with `last_start_time = time`,
`used_time = 0` and `remaining_time = needed_time = running_time`, leaves the waiting queue
as it was, and every other slot keeps its occupant (refreshed to `time`, same job id). -/
theorem new_job_idle_core (s : scheduler_t) (job_number time running_time priority : Int)
    (h : ∃ i : Nat, s.core_array[i]? = some none) :
    ∃ (c : Nat) (s1 : scheduler_t),
      scheduler_new_job s job_number time running_time priority = some (s1, (c : Int)) ∧
      s.core_array[c]? = some none ∧
      (∀ i : Nat, i < c → ∃ j, s.core_array[i]? = some (some j)) ∧
      s1.core_array[c]? = some (some
        { id := job_number, arrival_time := time, used_time := 0,
          remaining_time := running_time, needed_time := running_time,
          last_start_time := time, time_to_schedule := 0, priority := priority }) ∧
      s1.priqueue = s.priqueue ∧
      s1.core_array.length = s.core_array.length ∧
      (∀ i : Nat, i ≠ c →
        s1.core_array[i]? = (s.core_array[i]?).map (Option.map (refresh_job time))) ∧
      (∀ i : Nat, i ≠ c → (occupant_ids s1)[i]? = (occupant_ids s)[i]?) := by
  obtain ⟨i0, hi0⟩ := h
  obtain ⟨c, hc⟩ := idle_scan_of_idle s.core_array 0 i0 hi0
  obtain ⟨_, hcn, hlow⟩ := idle_scan_some s.core_array 0 c hc
  simp only [Nat.sub_zero] at hcn hlow
  have hlen : c < s.core_array.length := by
    by_contra hn
    rw [List.getElem?_eq_none (by omega)] at hcn
    cases hcn
  refine ⟨c, _, new_job_idle_eq s job_number time running_time priority c hc,
    hcn, hlow, ?_, ?_, ?_, ?_, ?_⟩
  · simp [updateRemainingTimes, make_job, hlen]
  · rfl
  · simp [updateRemainingTimes]
  · intro i hi
    simp only [updateRemainingTimes]
    rw [List.getElem?_set_ne (Ne.symm hi), List.getElem?_map]
  · intro i hi
    have hu := occupant_ids_update s time
    simp only [occupant_ids, updateRemainingTimes] at hu ⊢
    rw [List.map_set, List.getElem?_set_ne (Ne.symm hi), hu]

/-- C1 at `ex_one_idle`: job 8 arriving at time 3 goes to core 1. -/
theorem new_job_idle_core_witness :
    (∃ i : Nat, ex_one_idle.core_array[i]? = some none) ∧
    ∃ (c : Nat) (s1 : scheduler_t),
      scheduler_new_job ex_one_idle 8 3 4 2 = some (s1, (c : Int)) ∧
      ex_one_idle.core_array[c]? = some none ∧
      (∀ i : Nat, i < c → ∃ j, ex_one_idle.core_array[i]? = some (some j)) ∧
      s1.core_array[c]? = some (some
        { id := 8, arrival_time := 3, used_time := 0,
          remaining_time := 4, needed_time := 4,
          last_start_time := 3, time_to_schedule := 0, priority := 2 }) ∧
      s1.priqueue = ex_one_idle.priqueue ∧
      s1.core_array.length = ex_one_idle.core_array.length ∧
      (∀ i : Nat, i ≠ c →
        s1.core_array[i]? = (ex_one_idle.core_array[i]?).map (Option.map (refresh_job 3))) ∧
      (∀ i : Nat, i ≠ c → (occupant_ids s1)[i]? = (occupant_ids ex_one_idle)[i]?) :=
  ⟨⟨1, rfl⟩, new_job_idle_core ex_one_idle 8 3 4 2 ⟨1, rfl⟩⟩

/-! ## Arrival with every core busy -/

theorem idle_scan_busy (l : List (Option job_t)) (k : Nat) (h : all_busy l) :
    idle_scan l k = none := by
  cases hs : idle_scan l k with
  | none => rfl
  | some c =>
    obtain ⟨_, h2, _⟩ := idle_scan_some l k c hs
    have hlt : c - k < l.length := by
      by_contra hn
      rw [List.getElem?_eq_none (by omega)] at h2
      cases h2
    obtain ⟨j, hj⟩ := h (c - k) hlt
    rw [hj] at h2
    cases h2

theorem all_busy_update (s : scheduler_t) (time : Int) (h : all_busy s.core_array) :
    all_busy (updateRemainingTimes s time).core_array := by
  intro i hi
  simp only [updateRemainingTimes, List.length_map] at hi
  obtain ⟨j, hj⟩ := h i hi
  exact ⟨refresh_job time j, by simp [updateRemainingTimes, List.getElem?_map, hj]⟩

theorem victim_step_busy (key : job_t → Int) (cores : List (Option job_t))
    (hb : all_busy cores) (c i : Nat) (hc : c < cores.length) (hi : i < cores.length) :
    ∃ r jr jc ji, victim_step key cores c i = some r ∧ (r = c ∨ r = i) ∧
      cores[r]? = some (some jr) ∧ cores[c]? = some (some jc) ∧ cores[i]? = some (some ji) ∧
      key jc ≤ key jr ∧ key ji ≤ key jr := by
  obtain ⟨jc, hjc⟩ := hb c hc
  obtain ⟨ji, hji⟩ := hb i hi
  simp only [victim_step, hjc, hji]
  by_cases h1 : key ji > key jc
  · exact ⟨i, ji, jc, ji, by simp [h1], Or.inr rfl, hji, rfl, rfl, by omega, le_refl _⟩
  · by_cases h2 : key ji = key jc
    · by_cases h3 : ji.arrival_time > jc.remaining_time
      · exact ⟨i, ji, jc, ji, by simp [h1, h2, h3], Or.inr rfl, hji, rfl, rfl, by omega,
          le_refl _⟩
      · exact ⟨c, jc, jc, ji, by simp [h2, h3], Or.inl rfl, hjc, rfl, rfl, le_refl _,
          by omega⟩
    · exact ⟨c, jc, jc, ji, by simp [h1, h2], Or.inl rfl, hjc, rfl, rfl, le_refl _, by omega⟩

theorem victim_fold_busy (key : job_t → Int) (cores : List (Option job_t))
    (hb : all_busy cores) (l : List Nat) (hl : ∀ i ∈ l, i < cores.length)
    (c0 : Nat) (hc0 : c0 < cores.length) :
    ∃ r jr, l.foldlM (victim_step key cores) c0 = some r ∧ r < cores.length ∧
      cores[r]? = some (some jr) ∧
      (∀ j0, cores[c0]? = some (some j0) → key j0 ≤ key jr) ∧
      (∀ i ∈ l, ∀ ji, cores[i]? = some (some ji) → key ji ≤ key jr) := by
  induction l generalizing c0 with
  | nil =>
    obtain ⟨j0, hj0⟩ := hb c0 hc0
    refine ⟨c0, j0, rfl, hc0, hj0, ?_, by simp⟩
    intro j hj
    rw [hj0] at hj
    cases hj
    exact le_refl _
  | cons i rest ih =>
    have hi : i < cores.length := hl i (List.mem_cons_self _ _)
    obtain ⟨r1, jr1, jc, ji, hstep, hr1, hjr1, hjc, hji, hle1, hle2⟩ :=
      victim_step_busy key cores hb c0 i hc0 hi
    have hr1lt : r1 < cores.length := by
      rcases hr1 with h | h <;> subst h <;> assumption
    obtain ⟨r, jr, hfold, hrlt, hjr, hfrom, hrest⟩ :=
      ih (fun x hx => hl x (List.mem_cons_of_mem _ hx)) r1 hr1lt
    have hmid : key jr1 ≤ key jr := hfrom jr1 hjr1
    refine ⟨r, jr, ?_, hrlt, hjr, ?_, ?_⟩
    · simp only [List.foldlM_cons, hstep]
      exact hfold
    · intro j0 hj0
      rw [hjc] at hj0
      cases hj0
      omega
    · intro x hx jx hjx
      rcases List.mem_cons.mp hx with hx | hx
      · subst hx
        rw [hji] at hjx
        cases hjx
        omega
      · exact hrest x hx jx hjx

/-- With every core busy the victim loop ends on a slot whose job has the largest value of
the ranking field among all running jobs. -/
theorem victim_loop_busy (key : job_t → Int) (cores : List (Option job_t))
    (hb : all_busy cores) (hpos : 0 < cores.length) :
    ∃ core v, victim_loop key cores = some core ∧ core < cores.length ∧
      cores[core]? = some (some v) ∧
      ∀ (i : Nat) (ji : job_t), cores[i]? = some (some ji) → key ji ≤ key v := by
  obtain ⟨r, jr, hfold, hrlt, hjr, _, hall⟩ :=
    victim_fold_busy key cores hb (List.range cores.length)
      (fun i hi => List.mem_range.mp hi) 0 hpos
  refine ⟨r, jr, hfold, hrlt, hjr, ?_⟩
  intro i ji hji
  have hi : i < cores.length := by
    by_contra hn
    rw [List.getElem?_eq_none (by omega)] at hji
    cases hji
  exact hall i (List.mem_range.mpr hi) ji hji

theorem preempt_branch_busy (key : job_t → Int) (s0 : scheduler_t) (new_job : job_t)
    (time : Int) (hb : all_busy s0.core_array) (hpos : 0 < s0.core_array.length) :
    ∃ core victim, victim_loop key s0.core_array = some core ∧
      s0.core_array[core]? = some (some victim) ∧
      preempt_branch key s0 new_job time =
        if key victim ≤ key new_job then
          some ({ s0 with priqueue := (priqueue_offer s0.priqueue new_job).1 }, -1)
        else
          some ({ s0 with
                  priqueue := (priqueue_offer s0.priqueue victim).1
                  core_array :=
                    s0.core_array.set core (some { new_job with last_start_time := time }) },
                (core : Int)) := by
  obtain ⟨core, v, hloop, _, hv, _⟩ := victim_loop_busy key s0.core_array hb hpos
  exact ⟨core, v, hloop, hv, by simp only [preempt_branch, hloop, hv]⟩

theorem new_job_busy_preemptive_eq (s : scheduler_t)
    (job_number time running_time priority : Int) (key : job_t → Int)
    (hkey : (s.scheme = .PSJF ∧ key = fun j => j.remaining_time) ∨
            (s.scheme = .PPRI ∧ key = fun j => j.priority))
    (hbusy : all_busy s.core_array) :
    scheduler_new_job s job_number time running_time priority =
      preempt_branch key (updateRemainingTimes s time)
        (make_job job_number time running_time priority) time := by
  have hidle := idle_scan_busy s.core_array 0 hbusy
  have hsch : (updateRemainingTimes s time).scheme = s.scheme := rfl
  rcases hkey with ⟨h1, h2⟩ | ⟨h1, h2⟩
  · subst h2
    simp only [scheduler_new_job, hidle, hsch, h1, if_true]
  · subst h2
    simp [scheduler_new_job, hidle, hsch, h1]

/-- C2: under PSJF (`key` = refreshed `remaining_time`) and PPRI (`key` = `priority`), with
every core busy, `scheduler_new_job` returns a result. The victim is the refreshed occupant
of the slot picked by the victim loop. If the victim's key is at most the new job's key, the
new job is linked into the waiting queue, `-1` is returned and the slots hold exactly the
refreshed former occupants (same job ids). Otherwise the refreshed victim is linked into the
waiting queue, the new job takes the victim's slot with `last_start_time = time`, and the
victim's core index is returned. -/
theorem new_job_preemptive (s : scheduler_t) (job_number time running_time priority : Int)
    (key : job_t → Int)
    (hkey : (s.scheme = .PSJF ∧ key = fun j => j.remaining_time) ∨
            (s.scheme = .PPRI ∧ key = fun j => j.priority))
    (hpos : 0 < s.core_array.length) (hbusy : all_busy s.core_array) :
    ∃ (core : Nat) (old victim : job_t) (s1 : scheduler_t) (r : Int),
      victim_loop key (updateRemainingTimes s time).core_array = some core ∧
      s.core_array[core]? = some (some old) ∧
      victim = refresh_job time old ∧
      victim.remaining_time = old.needed_time - (old.used_time + (time - old.last_start_time)) ∧
      scheduler_new_job s job_number time running_time priority = some (s1, r) ∧
      (key victim ≤ key (make_job job_number time running_time priority) →
        r = -1 ∧
        s1.core_array = (updateRemainingTimes s time).core_array ∧
        occupant_ids s1 = occupant_ids s ∧
        s1.priqueue.size = s.priqueue.size + 1 ∧
        ∃ a b, s.priqueue.elems = a ++ b ∧
          s1.priqueue.elems = a ++ make_job job_number time running_time priority :: b) ∧
      (key (make_job job_number time running_time priority) < key victim →
        r = (core : Int) ∧
        s1.core_array = (updateRemainingTimes s time).core_array.set core
          (some { make_job job_number time running_time priority with
                  last_start_time := time }) ∧
        s1.priqueue.size = s.priqueue.size + 1 ∧
        ∃ a b, s.priqueue.elems = a ++ b ∧ s1.priqueue.elems = a ++ victim :: b) := by
  have heq := new_job_busy_preemptive_eq s job_number time running_time priority key hkey hbusy
  have hb0 := all_busy_update s time hbusy
  have hpos0 : 0 < (updateRemainingTimes s time).core_array.length := by
    simpa [updateRemainingTimes] using hpos
  obtain ⟨core, victim, hloop, hv, hbr⟩ :=
    preempt_branch_busy key (updateRemainingTimes s time)
      (make_job job_number time running_time priority) time hb0 hpos0
  have hold : ∃ old, s.core_array[core]? = some (some old) ∧ victim = refresh_job time old := by
    simp only [updateRemainingTimes, List.getElem?_map] at hv
    cases ho : s.core_array[core]? with
    | none => simp [ho] at hv
    | some x =>
      cases x with
      | none => simp [ho] at hv
      | some old =>
        simp only [ho, Option.map_some', Option.some.injEq] at hv
        exact ⟨old, rfl, hv.symm⟩
  obtain ⟨old, hold1, hold2⟩ := hold
  rw [hbr] at heq
  by_cases hle : key victim ≤ key (make_job job_number time running_time priority)
  · simp only [hle, if_true] at heq
    obtain ⟨a, b, h1, h2, _, _, h5, _, _⟩ :=
      priqueue_offer_shape s.priqueue (make_job job_number time running_time priority)
    refine ⟨core, old, victim, _, _, hloop, hold1, hold2, by rw [hold2]; rfl, heq, ?_, ?_⟩
    · intro _
      exact ⟨rfl, rfl, occupant_ids_update s time, h5, a, b, h1, h2⟩
    · intro hlt
      omega
  · simp only [hle, if_false] at heq
    obtain ⟨a, b, h1, h2, _, _, h5, _, _⟩ := priqueue_offer_shape s.priqueue victim
    refine ⟨core, old, victim, _, _, hloop, hold1, hold2, by rw [hold2]; rfl, heq, ?_, ?_⟩
    · intro h
      exact absurd h hle
    · intro _
      exact ⟨rfl, rfl, h5, a, b, h1, h2⟩

/-- C4: under FCFS, RR, SJF and PRI, with every core busy, `scheduler_new_job` returns
`-1`, links the new job into the waiting queue (whose other elements keep their order, the
size growing by one), and the slots hold exactly the refreshed former occupants: the job
id in every slot is the same as before the call. -/
theorem new_job_non_preemptive (s : scheduler_t) (job_number time running_time priority : Int)
    (hs : s.scheme = .FCFS ∨ s.scheme = .RR ∨ s.scheme = .SJF ∨ s.scheme = .PRI)
    (hbusy : all_busy s.core_array) :
    ∃ s1 : scheduler_t,
      scheduler_new_job s job_number time running_time priority = some (s1, -1) ∧
      (∃ a b, s.priqueue.elems = a ++ b ∧
        s1.priqueue.elems = a ++ make_job job_number time running_time priority :: b) ∧
      make_job job_number time running_time priority ∈ s1.priqueue.elems ∧
      s1.priqueue.elems.length = s.priqueue.elems.length + 1 ∧
      s1.priqueue.size = s.priqueue.size + 1 ∧
      s1.core_array = s.core_array.map (Option.map (refresh_job time)) ∧
      occupant_ids s1 = occupant_ids s := by
  have hidle := idle_scan_busy s.core_array 0 hbusy
  have hsch : (updateRemainingTimes s time).scheme = s.scheme := rfl
  obtain ⟨a, b, h1, h2, _, _, h5, _, _⟩ :=
    priqueue_offer_shape s.priqueue (make_job job_number time running_time priority)
  refine ⟨{ updateRemainingTimes s time with
            priqueue := (priqueue_offer s.priqueue
              (make_job job_number time running_time priority)).1 }, ?_, ⟨a, b, h1, h2⟩,
          ?_, ?_, h5, rfl, occupant_ids_update s time⟩
  · rcases hs with h | h | h | h <;>
      simp [scheduler_new_job, hidle, hsch, h, updateRemainingTimes]
  · show _ ∈ (priqueue_offer s.priqueue _).1.elems
    rw [h2]; simp
  · show (priqueue_offer s.priqueue _).1.elems.length = _
    rw [h2, h1]; simp
    omega

/-- C2 at the scenario of the spec: one core, PSJF, job 1 (arrival 0, service 10) running;
job 2 (service 3) arriving at time 2 is returned core 0 and job 1 waits with
`remaining_time = 8`. -/
theorem new_job_preemptive_witness :
    ((ex_psjf_running.scheme = .PSJF ∧
        (fun j : job_t => j.remaining_time) = fun j => j.remaining_time) ∨
      (ex_psjf_running.scheme = .PPRI ∧
        (fun j : job_t => j.remaining_time) = fun j => j.priority)) ∧
    0 < ex_psjf_running.core_array.length ∧
    all_busy ex_psjf_running.core_array ∧
    observe (run (scheduler_start_up 1 .PSJF) [.new_job 1 0 10 0]) =
      some (snapshot ex_psjf_running, [0]) ∧
    observe (scheduler_new_job ex_psjf_running 2 2 3 0) =
      some (([some { id := 2, arrival_time := 2, used_time := 0, remaining_time := 3,
                     needed_time := 3, last_start_time := 2, time_to_schedule := 0,
                     priority := 0 }],
             [{ id := 1, arrival_time := 0, used_time := 2, remaining_time := 8,
                needed_time := 10, last_start_time := 2, time_to_schedule := 0,
                priority := 0 }]), 0) ∧
    ∃ (core : Nat) (old victim : job_t) (s1 : scheduler_t) (r : Int),
      victim_loop (fun j : job_t => j.remaining_time)
        (updateRemainingTimes ex_psjf_running 2).core_array = some core ∧
      ex_psjf_running.core_array[core]? = some (some old) ∧
      victim = refresh_job 2 old ∧
      victim.remaining_time = old.needed_time - (old.used_time + (2 - old.last_start_time)) ∧
      scheduler_new_job ex_psjf_running 2 2 3 0 = some (s1, r) ∧
      ((fun j : job_t => j.remaining_time) victim ≤
          (fun j : job_t => j.remaining_time) (make_job 2 2 3 0) →
        r = -1 ∧
        s1.core_array = (updateRemainingTimes ex_psjf_running 2).core_array ∧
        occupant_ids s1 = occupant_ids ex_psjf_running ∧
        s1.priqueue.size = ex_psjf_running.priqueue.size + 1 ∧
        ∃ a b, ex_psjf_running.priqueue.elems = a ++ b ∧
          s1.priqueue.elems = a ++ make_job 2 2 3 0 :: b) ∧
      ((fun j : job_t => j.remaining_time) (make_job 2 2 3 0) <
          (fun j : job_t => j.remaining_time) victim →
        r = (core : Int) ∧
        s1.core_array = (updateRemainingTimes ex_psjf_running 2).core_array.set core
          (some { make_job 2 2 3 0 with last_start_time := 2 }) ∧
        s1.priqueue.size = ex_psjf_running.priqueue.size + 1 ∧
        ∃ a b, ex_psjf_running.priqueue.elems = a ++ b ∧ s1.priqueue.elems = a ++ victim :: b) :=
  ⟨Or.inl ⟨rfl, rfl⟩, by decide, by intro i hi; exact ⟨_, by
      have : i = 0 := by simpa [ex_psjf_running] using hi
      subst this; rfl⟩, by decide, by decide,
    new_job_preemptive ex_psjf_running 2 2 3 0 (fun j => j.remaining_time)
      (Or.inl ⟨rfl, rfl⟩) (by decide)
      (by intro i hi; exact ⟨_, by
        have : i = 0 := by simpa [ex_psjf_running] using hi
        subst this; rfl⟩)⟩

/-- C4 at `ex_fcfs_running`: job 2 arriving at time 1 waits and job 1 keeps core 0. -/
theorem new_job_non_preemptive_witness :
    (ex_fcfs_running.scheme = .FCFS ∨ ex_fcfs_running.scheme = .RR ∨
      ex_fcfs_running.scheme = .SJF ∨ ex_fcfs_running.scheme = .PRI) ∧
    all_busy ex_fcfs_running.core_array ∧
    ∃ s1 : scheduler_t,
      scheduler_new_job ex_fcfs_running 2 1 2 0 = some (s1, -1) ∧
      (∃ a b, ex_fcfs_running.priqueue.elems = a ++ b ∧
        s1.priqueue.elems = a ++ make_job 2 1 2 0 :: b) ∧
      make_job 2 1 2 0 ∈ s1.priqueue.elems ∧
      s1.priqueue.elems.length = ex_fcfs_running.priqueue.elems.length + 1 ∧
      s1.priqueue.size = ex_fcfs_running.priqueue.size + 1 ∧
      s1.core_array = ex_fcfs_running.core_array.map (Option.map (refresh_job 1)) ∧
      occupant_ids s1 = occupant_ids ex_fcfs_running :=
  ⟨Or.inl rfl, by intro i hi; exact ⟨_, by
      have : i = 0 := by simpa [ex_fcfs_running] using hi
      subst this; rfl⟩,
    new_job_non_preemptive ex_fcfs_running 2 1 2 0 (Or.inl rfl)
      (by intro i hi; exact ⟨_, by
        have : i = 0 := by simpa [ex_fcfs_running] using hi
        subst this; rfl⟩)⟩

/-- C3, evaluated where two running jobs tie on the ranking key. Under PSJF, after jobs 1
(arrival 0) and 2 (arrival 5) both have `remaining_time = 99` at time 6, the victim loop
picks core 0, the job that arrived first, and job 3 is returned core 0; under PPRI, with
jobs 1 (arrival 0) and 2 (arrival 1) of equal priority, the loop again picks core 0. The
tie-break of the loop reads `remaining_time` of the current candidate where an arrival
time is meant. -/
theorem victim_tie_break_picks_earlier_arrival :
    observe (run (scheduler_start_up 2 .PSJF) [.new_job 1 0 105 0, .new_job 2 5 100 0]) =
      some (snapshot ex_psjf_tie, [0, 1]) ∧
    (updateRemainingTimes ex_psjf_tie 6).core_array =
      [some { id := 1, arrival_time := 0, used_time := 6, remaining_time := 99,
              needed_time := 105, last_start_time := 6, time_to_schedule := 0, priority := 0 },
       some { id := 2, arrival_time := 5, used_time := 1, remaining_time := 99,
              needed_time := 100, last_start_time := 6, time_to_schedule := 0,
              priority := 0 }] ∧
    victim_loop (fun j => j.remaining_time) (updateRemainingTimes ex_psjf_tie 6).core_array =
      some 0 ∧
    (observe (scheduler_new_job ex_psjf_tie 3 6 1 0)).map (fun r => (r.1.2.map job_t.id, r.2)) =
      some ([1], 0) ∧
    observe (run (scheduler_start_up 2 .PPRI) [.new_job 1 0 100 5, .new_job 2 1 100 5]) =
      some (snapshot ex_ppri_tie, [0, 1]) ∧
    victim_loop (fun j => j.priority) (updateRemainingTimes ex_ppri_tie 2).core_array =
      some 0 ∧
    (observe (scheduler_new_job ex_ppri_tie 3 2 10 1)).map (fun r => (r.1.2.map job_t.id, r.2)) =
      some ([1], 0) := by
  refine ⟨by decide, by decide, by decide, by decide, by decide, by decide, by decide⟩

/-! ## Completion of a job -/

theorem install_next_nil (s : scheduler_t) (core_id : Nat) (time : Int)
    (h : s.priqueue.elems = []) : install_next s core_id time = (s, -1) := by
  simp [install_next, priqueue_poll, h]

theorem install_next_cons (s : scheduler_t) (core_id : Nat) (time : Int) (w : job_t)
    (rest : List job_t) (h : s.priqueue.elems = w :: rest) :
    install_next s core_id time =
      ({ s with
          priqueue := { s.priqueue with elems := rest, size := s.priqueue.size - 1 }
          core_array := s.core_array.set core_id (some (dispatched time w)) }, w.id) := by
  simp only [install_next, priqueue_poll, h, dispatched]
  by_cases hu : w.used_time = 0 <;> simp [hu]

theorem job_finished_eq (s : scheduler_t) (core_id : Nat) (job_number time : Int)
    (old : job_t) (h : s.core_array[core_id]? = some (some old)) :
    ∃ s0 : scheduler_t,
      scheduler_job_finished s core_id job_number time =
        some (install_next s0 core_id time) ∧
      s0.priqueue = s.priqueue ∧ s0.scheme = s.scheme ∧
      s0.core_array = s.core_array.set core_id none ∧
      s0.total_jobs = s.total_jobs + 1 ∧
      s0.total_wait =
        s.total_wait + (((time - old.arrival_time) - old.needed_time : Int) : ℚ) ∧
      s0.total_turnaround = s.total_turnaround + ((time - old.arrival_time : Int) : ℚ) ∧
      s0.total_response = s.total_response + (old.time_to_schedule : ℚ) :=
  ⟨{ s with
      total_jobs := s.total_jobs + 1
      total_wait := s.total_wait + (((time - old.arrival_time) - old.needed_time : Int) : ℚ)
      total_turnaround := s.total_turnaround + ((time - old.arrival_time : Int) : ℚ)
      total_response := s.total_response + (old.time_to_schedule : ℚ)
      core_array := s.core_array.set core_id none },
    by simp only [scheduler_job_finished, h], rfl, rfl, rfl, rfl, rfl, rfl, rfl⟩

/-- C5: on an occupied core, `scheduler_job_finished` returns a result. It returns `-1`
with the core left empty exactly when the waiting queue is empty. Otherwise the front job
`w` leaves the queue, whose remaining elements keep their order, `w` is put on `core_id`
with `last_start_time = time` and with `time_to_schedule = time - arrival_time` when its
`used_time` is 0 (unchanged otherwise), and `w.id` is returned. The other slots are not
touched. -/
theorem job_finished_dispatch (s : scheduler_t) (core_id : Nat) (job_number time : Int)
    (old : job_t) (h : s.core_array[core_id]? = some (some old)) :
    ∃ (s1 : scheduler_t) (r : Int),
      scheduler_job_finished s core_id job_number time = some (s1, r) ∧
      ((r = -1 ∧ s1.core_array[core_id]? = some none) ↔ s.priqueue.elems = []) ∧
      (s.priqueue.elems = [] → s1.priqueue.elems = []) ∧
      (∀ w rest, s.priqueue.elems = w :: rest →
        r = w.id ∧ s1.priqueue.elems = rest ∧
        s1.priqueue.size = s.priqueue.size - 1 ∧
        s1.core_array[core_id]? = some (some
          { w with
            last_start_time := time
            time_to_schedule :=
              if w.used_time = 0 then time - w.arrival_time else w.time_to_schedule })) ∧
      (∀ i : Nat, i ≠ core_id → s1.core_array[i]? = s.core_array[i]?) := by
  have hlt : core_id < s.core_array.length := by
    by_contra hn
    rw [List.getElem?_eq_none (by omega)] at h
    cases h
  obtain ⟨s0, heq, hq0, _, hc0, _⟩ := job_finished_eq s core_id job_number time old h
  cases hq : s.priqueue.elems with
  | nil =>
    rw [install_next_nil s0 core_id time (by rw [hq0]; exact hq)] at heq
    refine ⟨_, _, heq, ?_, ?_, ?_, ?_⟩
    · simp [hlt, hc0]
    · intro _; rw [hq0]; exact hq
    · intro w rest hw; cases hw
    · intro i hi
      rw [hc0, List.getElem?_set_ne (Ne.symm hi)]
  | cons w rest =>
    rw [install_next_cons s0 core_id time w rest (by rw [hq0]; exact hq)] at heq
    refine ⟨_, _, heq, ?_, ?_, ?_, ?_⟩
    · simp [hlt, hc0]
    · intro hn; cases hn
    · intro w2 rest2 hw
      cases hw
      refine ⟨rfl, rfl, by simp [hq0], ?_⟩
      simp [hlt, hc0, dispatched]
    · intro i hi
      simp only []
      rw [List.getElem?_set_ne (Ne.symm hi), hc0, List.getElem?_set_ne (Ne.symm hi)]

/-- C5 at `ex_fcfs_waiting`: job 1 finishes at time 5, job 2 is dispatched, job 3 waits. -/
theorem job_finished_dispatch_witness :
    ex_fcfs_waiting.core_array[0]? = some (some { make_job 1 0 5 0 with last_start_time := 0 }) ∧
    observe (scheduler_job_finished ex_fcfs_waiting 0 1 5) =
      some (([some { make_job 2 1 2 0 with last_start_time := 5, time_to_schedule := 4 }],
             [make_job 3 2 4 0]), 2) ∧
    ∃ (s1 : scheduler_t) (r : Int),
      scheduler_job_finished ex_fcfs_waiting 0 1 5 = some (s1, r) ∧
      ((r = -1 ∧ s1.core_array[0]? = some none) ↔ ex_fcfs_waiting.priqueue.elems = []) ∧
      (ex_fcfs_waiting.priqueue.elems = [] → s1.priqueue.elems = []) ∧
      (∀ w rest, ex_fcfs_waiting.priqueue.elems = w :: rest →
        r = w.id ∧ s1.priqueue.elems = rest ∧
        s1.priqueue.size = ex_fcfs_waiting.priqueue.size - 1 ∧
        s1.core_array[0]? = some (some
          { w with
            last_start_time := 5
            time_to_schedule :=
              if w.used_time = 0 then 5 - w.arrival_time else w.time_to_schedule })) ∧
      (∀ i : Nat, i ≠ 0 → s1.core_array[i]? = ex_fcfs_waiting.core_array[i]?) :=
  ⟨rfl, by decide,
    job_finished_dispatch ex_fcfs_waiting 0 1 5 { make_job 1 0 5 0 with last_start_time := 0 } rfl⟩

/-! ## The accumulators -/

theorem preempt_branch_stats (key : job_t → Int) (s0 : scheduler_t) (new_job : job_t)
    (time : Int) (s1 : scheduler_t) (r : Int)
    (h : preempt_branch key s0 new_job time = some (s1, r)) : stats s1 = stats s0 := by
  unfold preempt_branch at h
  split at h
  · cases h
  · split at h
    · split at h
      · cases h; rfl
      · cases h; rfl
    · cases h

theorem priqueue_offer_rr (q : priqueue_t job_t) (v : job_t) (h : q.compare = rr_compare) :
    (priqueue_offer q v).1.elems = q.elems ++ [v] := by
  obtain ⟨a, b, h1, h2, _, h4, _⟩ := priqueue_offer_shape q v
  rcases h4 with hb | ⟨e, rest, _, he⟩
  · subst hb
    rw [h2, h1]; simp
  · rw [h] at he
    simp [rr_compare] at he

theorem quantum_expired_eq (s : scheduler_t) (core_id : Nat) (time : Int) (r : job_t)
    (hr : s.core_array[core_id]? = some (some r)) :
    ∃ s2 : scheduler_t,
      scheduler_quantum_expired s core_id time = some (install_next s2 core_id time) ∧
      s2.priqueue = (priqueue_offer s.priqueue (refresh_job time r)).1 ∧
      s2.scheme = s.scheme ∧
      s2.core_array = ((updateRemainingTimes s time).core_array).set core_id none := by
  have h1 : (updateRemainingTimes s time).core_array[core_id]? =
      some (some (refresh_job time r)) := by
    simp [updateRemainingTimes, List.getElem?_map, hr]
  exact ⟨{ updateRemainingTimes s time with
           priqueue := (priqueue_offer s.priqueue (refresh_job time r)).1
           core_array := (updateRemainingTimes s time).core_array.set core_id none },
    by simp only [scheduler_quantum_expired, h1]; rfl, rfl, rfl, rfl⟩

/-- C8: under RR (the queue carrying the comparer installed at start-up), with job `r` on
`core_id` and the waiting queue `w :: ws`, `scheduler_quantum_expired` returns `w.id`, puts
`w` on `core_id` with `last_start_time = time` (recording its latency when `used_time` is
0), and leaves the queue as `ws` followed by the refreshed `r`: the expired job stands
behind every job that was already waiting. -/
theorem quantum_expired_round_robin (s : scheduler_t) (core_id : Nat) (time : Int)
    (r w : job_t) (ws : List job_t)
    (hs : s.scheme = .RR) (hcmp : s.priqueue.compare = start_up_comparer s.scheme)
    (hr : s.core_array[core_id]? = some (some r)) (hq : s.priqueue.elems = w :: ws) :
    ∃ s1 : scheduler_t,
      scheduler_quantum_expired s core_id time = some (s1, w.id) ∧
      s1.core_array[core_id]? = some (some
        { w with
          last_start_time := time
          time_to_schedule :=
            if w.used_time = 0 then time - w.arrival_time else w.time_to_schedule }) ∧
      s1.priqueue.elems = ws ++ [refresh_job time r] ∧
      (refresh_job time r).id = r.id ∧
      (∀ i : Nat, i ≠ core_id →
        s1.core_array[i]? = (s.core_array[i]?).map (Option.map (refresh_job time))) := by
  have hlt : core_id < s.core_array.length := by
    by_contra hn
    rw [List.getElem?_eq_none (by omega)] at hr
    cases hr
  have hrr : s.priqueue.compare = rr_compare := by
    rw [hcmp, hs]; rfl
  obtain ⟨s2, heq, hq2, _, hc2⟩ := quantum_expired_eq s core_id time r hr
  have hel : s2.priqueue.elems = w :: (ws ++ [refresh_job time r]) := by
    rw [hq2, priqueue_offer_rr s.priqueue _ hrr, hq]; rfl
  rw [install_next_cons s2 core_id time w _ hel] at heq
  refine ⟨_, heq, ?_, rfl, rfl, ?_⟩
  · simp [hc2, hlt, dispatched, updateRemainingTimes]
  · intro i hi
    simp only []
    rw [List.getElem?_set_ne (Ne.symm hi), hc2, List.getElem?_set_ne (Ne.symm hi)]
    simp [updateRemainingTimes, List.getElem?_map]

/-- C8 at the trace of the spec: one core, jobs 1, 2, 3 arriving in that order; the
successive quantum expiries return 2, 3, 1, 2, 3, 1. -/
theorem quantum_expired_round_robin_witness :
    ex_rr_three.scheme = .RR ∧
    ex_rr_three.priqueue.compare = start_up_comparer ex_rr_three.scheme ∧
    ex_rr_three.core_array[0]? = some (some
      { id := 1, arrival_time := 0, used_time := 2, remaining_time := 8, needed_time := 10,
        last_start_time := 2, time_to_schedule := 0, priority := 0 }) ∧
    ex_rr_three.priqueue.elems = make_job 2 1 10 0 :: [make_job 3 2 10 0] ∧
    observe (run (scheduler_start_up 1 .RR)
      [.new_job 1 0 10 0, .new_job 2 1 10 0, .new_job 3 2 10 0]) =
      some (snapshot ex_rr_three, [0, -1, -1]) ∧
    (run ex_rr_three
      [.quantum_expired 0 3, .quantum_expired 0 4, .quantum_expired 0 5,
       .quantum_expired 0 6, .quantum_expired 0 7, .quantum_expired 0 8]).map Prod.snd =
      some [2, 3, 1, 2, 3, 1] ∧
    ∃ s1 : scheduler_t,
      scheduler_quantum_expired ex_rr_three 0 3 = some (s1, (make_job 2 1 10 0).id) ∧
      s1.core_array[0]? = some (some
        { make_job 2 1 10 0 with
          last_start_time := 3
          time_to_schedule :=
            if (make_job 2 1 10 0).used_time = 0 then 3 - (make_job 2 1 10 0).arrival_time
            else (make_job 2 1 10 0).time_to_schedule }) ∧
      s1.priqueue.elems = [make_job 3 2 10 0] ++
        [refresh_job 3 { id := 1, arrival_time := 0, used_time := 2, remaining_time := 8,
                         needed_time := 10, last_start_time := 2, time_to_schedule := 0,
                         priority := 0 }] ∧
      (refresh_job 3 { id := 1, arrival_time := 0, used_time := 2, remaining_time := 8,
                       needed_time := 10, last_start_time := 2, time_to_schedule := 0,
                       priority := 0 }).id =
        ({ id := 1, arrival_time := 0, used_time := 2, remaining_time := 8,
           needed_time := 10, last_start_time := 2, time_to_schedule := 0,
           priority := 0 } : job_t).id ∧
      (∀ i : Nat, i ≠ 0 →
        s1.core_array[i]? = (ex_rr_three.core_array[i]?).map (Option.map (refresh_job 3))) :=
  ⟨rfl, rfl, rfl, rfl, by decide, by decide,
    quantum_expired_round_robin ex_rr_three 0 3 _ (make_job 2 1 10 0) [make_job 3 2 10 0]
      rfl rfl rfl rfl⟩

/-! ## Position returned by `priqueue_offer` -/

/-- The outcomes of `scheduler_new_job` on a scheduler with at least one core: the new job
takes an idle slot, or it is queued, or it takes the slot of a victim that is queued. -/
theorem new_job_shape (s : scheduler_t) (job_number time running_time priority : Int)
    (hpos : 0 < s.core_array.length) :
    ∃ (s1 : scheduler_t) (r : Int),
      scheduler_new_job s job_number time running_time priority = some (s1, r) ∧
      s1.scheme = s.scheme ∧
      ((∃ c : Nat, s.core_array[c]? = some none ∧
          s1.core_array = (s.core_array.map (Option.map (refresh_job time))).set c
            (some { make_job job_number time running_time priority with
                    last_start_time := time }) ∧
          s1.priqueue = s.priqueue) ∨
       (s1.core_array = s.core_array.map (Option.map (refresh_job time)) ∧
          s1.priqueue =
            (priqueue_offer s.priqueue (make_job job_number time running_time priority)).1) ∨
       (∃ (c : Nat) (v : job_t),
          (s.core_array.map (Option.map (refresh_job time)))[c]? = some (some v) ∧
          s1.core_array = (s.core_array.map (Option.map (refresh_job time))).set c
            (some { make_job job_number time running_time priority with
                    last_start_time := time }) ∧
          s1.priqueue = (priqueue_offer s.priqueue v).1)) := by
  cases hidle : idle_scan s.core_array 0 with
  | some c =>
    obtain ⟨_, hcn, _⟩ := idle_scan_some s.core_array 0 c hidle
    exact ⟨_, _, new_job_idle_eq s job_number time running_time priority c hidle, rfl,
      Or.inl ⟨c, by simpa using hcn, rfl, rfl⟩⟩
  | none =>
    have hbusy := idle_scan_none s.core_array 0 hidle
    have hb0 := all_busy_update s time hbusy
    have hpos0 : 0 < (updateRemainingTimes s time).core_array.length := by
      simpa [updateRemainingTimes] using hpos
    have hpre : ∀ key : job_t → Int,
        (s.scheme = .PSJF ∧ key = fun j => j.remaining_time) ∨
          (s.scheme = .PPRI ∧ key = fun j => j.priority) →
        ∃ (s1 : scheduler_t) (r : Int),
          scheduler_new_job s job_number time running_time priority = some (s1, r) ∧
          s1.scheme = s.scheme ∧
          ((s1.core_array = s.core_array.map (Option.map (refresh_job time)) ∧
              s1.priqueue =
                (priqueue_offer s.priqueue
                  (make_job job_number time running_time priority)).1) ∨
           (∃ (c : Nat) (v : job_t),
              (s.core_array.map (Option.map (refresh_job time)))[c]? = some (some v) ∧
              s1.core_array = (s.core_array.map (Option.map (refresh_job time))).set c
                (some { make_job job_number time running_time priority with
                        last_start_time := time }) ∧
              s1.priqueue = (priqueue_offer s.priqueue v).1)) := by
      intro key hkey
      have heq := new_job_busy_preemptive_eq s job_number time running_time priority key
        hkey hbusy
      obtain ⟨core, victim, _, hv, hbr⟩ :=
        preempt_branch_busy key (updateRemainingTimes s time)
          (make_job job_number time running_time priority) time hb0 hpos0
      rw [hbr] at heq
      by_cases hle : key victim ≤ key (make_job job_number time running_time priority)
      · simp only [hle, if_true] at heq
        exact ⟨_, _, heq, rfl, Or.inl ⟨rfl, rfl⟩⟩
      · simp only [hle, if_false] at heq
        exact ⟨_, _, heq, rfl, Or.inr ⟨core, victim, hv, rfl, rfl⟩⟩
    have hnon : s.scheme = .FCFS ∨ s.scheme = .RR ∨ s.scheme = .SJF ∨ s.scheme = .PRI →
        ∃ (s1 : scheduler_t) (r : Int),
          scheduler_new_job s job_number time running_time priority = some (s1, r) ∧
          s1.scheme = s.scheme ∧
          s1.core_array = s.core_array.map (Option.map (refresh_job time)) ∧
          s1.priqueue =
            (priqueue_offer s.priqueue (make_job job_number time running_time priority)).1 := by
      intro hs
      have hsch : (updateRemainingTimes s time).scheme = s.scheme := rfl
      refine ⟨{ updateRemainingTimes s time with
                priqueue := (priqueue_offer s.priqueue
                  (make_job job_number time running_time priority)).1 }, -1, ?_, rfl, rfl, rfl⟩
      rcases hs with h | h | h | h <;>
        simp [scheduler_new_job, hidle, hsch, h, updateRemainingTimes]
    cases hsc : s.scheme with
    | PSJF =>
      obtain ⟨s1, r, h1, h2, h3⟩ := hpre (fun j => j.remaining_time) (Or.inl ⟨hsc, rfl⟩)
      exact ⟨s1, r, h1, by rw [h2, hsc], Or.inr h3⟩
    | PPRI =>
      obtain ⟨s1, r, h1, h2, h3⟩ := hpre (fun j => j.priority) (Or.inr ⟨hsc, rfl⟩)
      exact ⟨s1, r, h1, by rw [h2, hsc], Or.inr h3⟩
    | FCFS =>
      obtain ⟨s1, r, h1, h2, h3⟩ := hnon (Or.inl hsc)
      exact ⟨s1, r, h1, by rw [h2, hsc], Or.inr (Or.inl h3)⟩
    | RR =>
      obtain ⟨s1, r, h1, h2, h3⟩ := hnon (Or.inr (Or.inl hsc))
      exact ⟨s1, r, h1, by rw [h2, hsc], Or.inr (Or.inl h3)⟩
    | SJF =>
      obtain ⟨s1, r, h1, h2, h3⟩ := hnon (Or.inr (Or.inr (Or.inl hsc)))
      exact ⟨s1, r, h1, by rw [h2, hsc], Or.inr (Or.inl h3)⟩
    | PRI =>
      obtain ⟨s1, r, h1, h2, h3⟩ := hnon (Or.inr (Or.inr (Or.inr hsc)))
      exact ⟨s1, r, h1, by rw [h2, hsc], Or.inr (Or.inl h3)⟩

/-- The outcomes of `scheduler_job_finished` on an occupied core: the core is left empty
when nobody waits, otherwise the front of the queue is installed. -/
theorem job_finished_shape (s : scheduler_t) (core_id : Nat) (job_number time : Int)
    (old : job_t) (h : s.core_array[core_id]? = some (some old)) :
    ∃ (s1 : scheduler_t) (r : Int),
      scheduler_job_finished s core_id job_number time = some (s1, r) ∧
      s1.scheme = s.scheme ∧ s1.priqueue.compare = s.priqueue.compare ∧
      ((s.priqueue.elems = [] ∧ s1.priqueue.elems = [] ∧
          s1.core_array = s.core_array.set core_id none) ∨
       (∃ w rest, s.priqueue.elems = w :: rest ∧ s1.priqueue.elems = rest ∧
          s1.core_array = s.core_array.set core_id (some (dispatched time w)))) := by
  obtain ⟨s0, heq, hq0, hs0, hc0, _⟩ := job_finished_eq s core_id job_number time old h
  cases hq : s.priqueue.elems with
  | nil =>
    rw [install_next_nil s0 core_id time (by rw [hq0]; exact hq)] at heq
    exact ⟨_, _, heq, hs0, by rw [hq0], Or.inl ⟨rfl, by rw [hq0]; exact hq, hc0⟩⟩
  | cons w rest =>
    rw [install_next_cons s0 core_id time w rest (by rw [hq0]; exact hq)] at heq
    refine ⟨_, _, heq, hs0, by simp [hq0], Or.inr ⟨w, rest, rfl, rfl, ?_⟩⟩
    simp only []
    rw [hc0, List.set_set]

/-- With jobs waiting, `scheduler_job_finished` on an occupied core installs and returns
the front of the queue. -/
theorem job_finished_front (s : scheduler_t) (core_id : Nat) (job_number time : Int)
    (old w : job_t) (rest : List job_t) (h : s.core_array[core_id]? = some (some old))
    (hq : s.priqueue.elems = w :: rest) :
    ∃ s1 : scheduler_t,
      scheduler_job_finished s core_id job_number time = some (s1, w.id) ∧
      s1.priqueue.elems = rest ∧
      s1.core_array = s.core_array.set core_id (some (dispatched time w)) := by
  obtain ⟨s0, heq, hq0, _, hc0, _⟩ := job_finished_eq s core_id job_number time old h
  rw [install_next_cons s0 core_id time w rest (by rw [hq0]; exact hq)] at heq
  refine ⟨_, heq, rfl, ?_⟩
  simp only []
  rw [hc0, List.set_set]

/-- The outcome of `scheduler_quantum_expired` on an occupied core: the refreshed occupant
is offered to the queue, and the front `w` of the queue so obtained is installed. -/
theorem quantum_expired_shape (s : scheduler_t) (core_id : Nat) (time : Int) (r : job_t)
    (hr : s.core_array[core_id]? = some (some r)) :
    ∃ (s1 : scheduler_t) (w : job_t) (rest : List job_t),
      scheduler_quantum_expired s core_id time = some (s1, w.id) ∧
      s1.scheme = s.scheme ∧ s1.priqueue.compare = s.priqueue.compare ∧
      (priqueue_offer s.priqueue (refresh_job time r)).1.elems = w :: rest ∧
      s1.priqueue.elems = rest ∧
      s1.core_array = (s.core_array.map (Option.map (refresh_job time))).set core_id
        (some (dispatched time w)) := by
  obtain ⟨s2, heq, hq2, hs2, hc2⟩ := quantum_expired_eq s core_id time r hr
  obtain ⟨a, b, _, hb, _, _, _, hcmp, _⟩ := priqueue_offer_shape s.priqueue (refresh_job time r)
  cases hel : (priqueue_offer s.priqueue (refresh_job time r)).1.elems with
  | nil =>
    rw [hel] at hb
    cases a <;> simp at hb
  | cons w rest =>
    rw [install_next_cons s2 core_id time w rest (by rw [hq2]; exact hel)] at heq
    refine ⟨_, w, rest, heq, hs2, by simp [hq2, hcmp], rfl, rfl, ?_⟩
    simp only []
    rw [hc2, List.set_set]
    rfl

/-! ## The jobs in the system, up to order -/

theorem filterMap_set_of_none (l : List (Option job_t)) (c : Nat) (j : job_t)
    (h : l[c]? = some none) :
    ((l.set c (some j)).filterMap (fun x => x)).Perm (j :: l.filterMap (fun x => x)) := by
  induction l generalizing c with
  | nil => simp at h
  | cons x rest ih =>
    cases c with
    | zero =>
      simp only [List.getElem?_cons_zero, Option.some.injEq] at h
      subst h
      simp
    | succ n =>
      rw [List.getElem?_cons_succ] at h
      cases x with
      | none => simpa using ih n h
      | some y =>
        simp only [List.set_cons_succ, List.filterMap_cons_some]
        exact ((ih n h).cons y).trans (List.Perm.swap j y _)

theorem filterMap_set_none (l : List (Option job_t)) (c : Nat) (old : job_t)
    (h : l[c]? = some (some old)) :
    (l.filterMap (fun x => x)).Perm (old :: (l.set c none).filterMap (fun x => x)) := by
  induction l generalizing c with
  | nil => simp at h
  | cons x rest ih =>
    cases c with
    | zero =>
      simp only [List.getElem?_cons_zero, Option.some.injEq] at h
      subst h
      simp
    | succ n =>
      rw [List.getElem?_cons_succ] at h
      cases x with
      | none => simpa using ih n h
      | some y =>
        simp only [List.set_cons_succ, List.filterMap_cons_some]
        exact ((ih n h).cons y).trans (List.Perm.swap old y _)

theorem set_none_get (l : List (Option job_t)) (c : Nat) (old : job_t)
    (h : l[c]? = some (some old)) : (l.set c none)[c]? = some none := by
  have hlt : c < l.length := by
    by_contra hn
    rw [List.getElem?_eq_none (by omega)] at h
    cases h
  simp [hlt]

/-- Replacing the occupant `old` of a slot by `j` replaces `old` by `j` among the running
jobs, up to order. -/
theorem filterMap_set_replace (l : List (Option job_t)) (c : Nat) (old j : job_t)
    (h : l[c]? = some (some old)) :
    ∃ m : List job_t, (l.filterMap (fun x => x)).Perm (old :: m) ∧
      ((l.set c (some j)).filterMap (fun x => x)).Perm (j :: m) := by
  refine ⟨(l.set c none).filterMap (fun x => x), filterMap_set_none l c old h, ?_⟩
  have h2 := filterMap_set_of_none (l.set c none) c j (set_none_get l c old h)
  rwa [List.set_set] at h2

theorem filterMap_refresh (l : List (Option job_t)) (time : Int) :
    (l.map (Option.map (refresh_job time))).filterMap (fun x => x) =
      (l.filterMap (fun x => x)).map (refresh_job time) := by
  induction l with
  | nil => rfl
  | cons x rest ih =>
    cases x with
    | none => simpa using ih
    | some y => simpa using ih

theorem priqueue_offer_perm {α : Type} (q : priqueue_t α) (v : α) :
    ((priqueue_offer q v).1.elems).Perm (v :: q.elems) := by
  obtain ⟨a, b, h1, h2, _⟩ := priqueue_offer_shape q v
  rw [h1, h2]
  exact List.perm_middle

theorem fields_eq (f : job_t → Int) (s : scheduler_t) :
    (jobs_of s).map f = (s.core_array.filterMap (fun x => x)).map f ++
      s.priqueue.elems.map f := by
  simp [jobs_of, running_jobs]

theorem refreshed_fields (f : job_t → Int) (hf : stable_field f) (l : List (Option job_t))
    (time : Int) :
    ((l.map (Option.map (refresh_job time))).filterMap (fun x => x)).map f =
      (l.filterMap (fun x => x)).map f := by
  rw [filterMap_refresh, List.map_map]
  apply List.map_congr_left
  intro x _
  exact hf.1 time x

theorem stable_id : stable_field job_t.id :=
  ⟨fun _ _ => rfl, fun _ _ => rfl, fun _ _ => rfl⟩

theorem stable_arrival_time : stable_field job_t.arrival_time :=
  ⟨fun _ _ => rfl, fun _ _ => rfl, fun _ _ => rfl⟩

/-- An arrival adds exactly the new job to the jobs in the system, seen through a field
that refreshing and dispatching leave alone. -/
theorem new_job_fields (f : job_t → Int) (hf : stable_field f) (s : scheduler_t)
    (job_number time running_time priority : Int) (hpos : 0 < s.core_array.length) :
    ∃ (s1 : scheduler_t) (r : Int),
      scheduler_new_job s job_number time running_time priority = some (s1, r) ∧
      s1.core_array.length = s.core_array.length ∧
      ((jobs_of s1).map f).Perm
        (f (make_job job_number time running_time priority) :: (jobs_of s).map f) := by
  obtain ⟨s1, r, heq, _, hcases⟩ := new_job_shape s job_number time running_time priority hpos
  have hids := refreshed_fields f hf s.core_array time
  have hnew := hf.2.2 time (make_job job_number time running_time priority)
  refine ⟨s1, r, heq, ?_, ?_⟩
  · rcases hcases with ⟨c, _, hc, _⟩ | ⟨hc, _⟩ | ⟨c, v, _, hc, _⟩ <;> simp [hc]
  · rw [fields_eq, fields_eq]
    rcases hcases with ⟨c, hcn, hc, hq⟩ | ⟨hc, hq⟩ | ⟨c, v, hv, hc, hq⟩
    · have h0 : (s.core_array.map (Option.map (refresh_job time)))[c]? = some none := by
        simp [List.getElem?_map, hcn]
      have hp := (filterMap_set_of_none _ c
        { make_job job_number time running_time priority with last_start_time := time }
        h0).map f
      rw [hc, hq]
      simp only [List.map_cons, hids, hnew] at hp
      rw [List.perm_iff_count] at *
      intro x
      have e1 := hp x
      simp only [List.count_append, List.count_cons] at *
      omega
    · have hp := (priqueue_offer_perm s.priqueue
        (make_job job_number time running_time priority)).map f
      rw [hc, hq, hids]
      simp only [List.map_cons] at hp
      rw [List.perm_iff_count] at *
      intro x
      have e1 := hp x
      simp only [List.count_append, List.count_cons] at *
      omega
    · obtain ⟨m, hm1, hm2⟩ := filterMap_set_replace _ c v
        { make_job job_number time running_time priority with last_start_time := time } hv
      have hp1 := hm1.map f
      have hp2 := hm2.map f
      have hp3 := (priqueue_offer_perm s.priqueue v).map f
      rw [hc, hq]
      simp only [List.map_cons, hids, hnew] at hp1 hp2 hp3
      rw [List.perm_iff_count] at *
      intro x
      have e1 := hp1 x
      have e2 := hp2 x
      have e3 := hp3 x
      simp only [List.count_append, List.count_cons] at *
      omega

/-- A completion removes exactly the job that was on the core. -/
theorem job_finished_fields (f : job_t → Int) (hf : stable_field f) (s : scheduler_t)
    (core_id : Nat) (job_number time : Int)
    (old : job_t) (h : s.core_array[core_id]? = some (some old)) :
    ∃ (s1 : scheduler_t) (r : Int),
      scheduler_job_finished s core_id job_number time = some (s1, r) ∧
      s1.core_array.length = s.core_array.length ∧
      ((jobs_of s).map f).Perm (f old :: (jobs_of s1).map f) := by
  obtain ⟨s1, r, heq, _, _, hcases⟩ := job_finished_shape s core_id job_number time old h
  refine ⟨s1, r, heq, ?_, ?_⟩
  · rcases hcases with ⟨_, _, hc⟩ | ⟨w, rest, _, _, hc⟩ <;> simp [hc]
  · rw [fields_eq, fields_eq]
    rcases hcases with ⟨hq, hq1, hc⟩ | ⟨w, rest, hq, hq1, hc⟩
    · have hp := (filterMap_set_none s.core_array core_id old h).map f
      rw [hc, hq, hq1]
      simp only [List.map_cons] at hp
      rw [List.perm_iff_count] at *
      intro x
      have e1 := hp x
      simp only [List.count_append, List.count_cons, List.map_nil, List.count_nil] at *
      omega
    · obtain ⟨m, hm1, hm2⟩ := filterMap_set_replace s.core_array core_id old
        (dispatched time w) h
      have hp1 := hm1.map f
      have hp2 := hm2.map f
      have hd := hf.2.1 time w
      rw [hc, hq, hq1]
      simp only [List.map_cons, hd] at hp1 hp2
      rw [List.perm_iff_count] at *
      intro x
      have e1 := hp1 x
      have e2 := hp2 x
      simp only [List.count_append, List.count_cons, List.map_cons] at *
      omega

/-- A quantum expiry keeps the jobs in the system. -/
theorem quantum_expired_fields (f : job_t → Int) (hf : stable_field f) (s : scheduler_t)
    (core_id : Nat) (time : Int) (r : job_t)
    (hr : s.core_array[core_id]? = some (some r)) :
    ∃ (s1 : scheduler_t) (ret : Int),
      scheduler_quantum_expired s core_id time = some (s1, ret) ∧
      s1.core_array.length = s.core_array.length ∧
      ((jobs_of s1).map f).Perm ((jobs_of s).map f) := by
  obtain ⟨s1, w, rest, heq, _, _, hoff, hq1, hc⟩ := quantum_expired_shape s core_id time r hr
  have hids := refreshed_fields f hf s.core_array time
  refine ⟨s1, w.id, heq, by simp [hc], ?_⟩
  rw [fields_eq, fields_eq]
  have h0 : (s.core_array.map (Option.map (refresh_job time)))[core_id]? =
      some (some (refresh_job time r)) := by
    simp [List.getElem?_map, hr]
  obtain ⟨m, hm1, hm2⟩ := filterMap_set_replace _ core_id (refresh_job time r)
    (dispatched time w) h0
  have hp1 := hm1.map f
  have hp2 := hm2.map f
  have hp3 := (priqueue_offer_perm s.priqueue (refresh_job time r)).map f
  have hd := hf.2.1 time w
  have hrf := hf.1 time r
  rw [hoff] at hp3
  rw [hc, hq1]
  simp only [List.map_cons, hids, hd, hrf] at hp1 hp2 hp3
  rw [List.perm_iff_count] at *
  intro x
  have e1 := hp1 x
  have e2 := hp2 x
  have e3 := hp3 x
  simp only [List.count_append, List.count_cons] at *
  omega

/-! ## Every live job is in exactly one place -/

theorem occupied_iff (s : scheduler_t) (c : Nat) :
    occupied s c = true ↔ ∃ j, s.core_array[c]? = some (some j) := by
  unfold occupied
  cases h : s.core_array[c]? with
  | none => simp
  | some x => cases x <;> simp

theorem ids_accounted_step (s : scheduler_t) (g : ledger) (e : event_t)
    (hinv : ids_accounted s g) (hv : valid_event s g e = true) :
    ∃ (s1 : scheduler_t) (r : Int), step s e = some (s1, r) ∧
      ids_accounted s1 (track s g e) := by
  obtain ⟨hpos, hcount, hsub⟩ := hinv
  cases e with
  | new_job job_number time running_time priority =>
    simp only [valid_event, decide_eq_true_eq] at hv
    obtain ⟨s1, r, heq, hlen, hperm0⟩ :=
      new_job_fields job_t.id stable_id s job_number time running_time priority hpos
    have hperm : (job_ids s1).Perm (job_number :: job_ids s) := hperm0
    refine ⟨s1, r, heq, by rw [hlen]; exact hpos, ?_, ?_⟩
    · intro x
      have e1 := hperm.count_eq x
      have e2 := hcount x
      have e3 := hcount job_number
      have hnc : job_number ∉ g.completed := fun hc => hv (hsub _ hc)
      simp only [List.count_cons] at e1
      simp only [track, List.mem_cons]
      by_cases hx : x = job_number
      · subst hx
        simp only [hv, false_and, if_false] at e3
        simp only [true_or, hnc, not_false_eq_true, and_self, if_true]
        simp only [beq_self_eq_true, if_true] at e1
        omega
      · have hx2 : ¬ (job_number == x) = true := by
          simp only [beq_iff_eq]; exact fun h => hx h.symm
        simp only [hx2, Bool.false_eq_true, if_false, Nat.add_zero] at e1
        simp only [hx, false_or]
        rw [e1]
        exact e2
    · intro x hx
      simp only [track] at hx ⊢
      exact List.mem_cons_of_mem _ (hsub x hx)
  | job_finished core_id job_number time =>
    simp only [valid_event] at hv
    obtain ⟨old, hold⟩ := (occupied_iff s core_id).mp hv
    obtain ⟨s1, r, heq, hlen, hperm0⟩ :=
      job_finished_fields job_t.id stable_id s core_id job_number time old hold
    have hperm : (job_ids s).Perm (old.id :: job_ids s1) := hperm0
    have hone : (job_ids s).count old.id = 1 ∧ old.id ∈ g.arrived := by
      have e1 := hperm.count_eq old.id
      have e2 := hcount old.id
      simp only [List.count_cons, beq_self_eq_true, if_true] at e1
      by_cases hc : old.id ∈ g.arrived ∧ old.id ∉ g.completed
      · simp only [hc, not_false_eq_true, and_self, if_true] at e2
        exact ⟨e2, hc.1⟩
      · simp only [hc, if_false] at e2
        omega
    refine ⟨s1, r, heq, by rw [hlen]; exact hpos, ?_, ?_⟩
    · intro x
      have e1 := hperm.count_eq x
      have e2 := hcount x
      simp only [List.count_cons] at e1
      simp only [track, hold, List.mem_cons]
      by_cases hx : x = old.id
      · subst hx
        simp only [beq_self_eq_true, if_true] at e1
        simp only [true_or, not_true_eq_false, and_false, if_false]
        omega
      · have hx2 : ¬ (old.id == x) = true := by
          simp only [beq_iff_eq]; exact fun h => hx h.symm
        simp only [hx2, Bool.false_eq_true, if_false, Nat.add_zero] at e1
        simp only [hx, false_or]
        rw [← e1]
        exact e2
    · intro x hx
      simp only [track, hold, List.mem_cons] at hx ⊢
      rcases hx with hx | hx
      · rw [hx]; exact hone.2
      · exact hsub x hx
  | quantum_expired core_id time =>
    simp only [valid_event] at hv
    obtain ⟨old, hold⟩ := (occupied_iff s core_id).mp hv
    obtain ⟨s1, r, heq, hlen, hperm0⟩ :=
      quantum_expired_fields job_t.id stable_id s core_id time old hold
    have hperm : (job_ids s1).Perm (job_ids s) := hperm0
    refine ⟨s1, r, heq, by rw [hlen]; exact hpos, ?_, ?_⟩
    · intro x
      rw [hperm.count_eq x]
      exact hcount x
    · intro x hx
      exact hsub x hx

theorem ids_accounted_run (es : List event_t) (s : scheduler_t) (g : ledger)
    (hinv : ids_accounted s g) (hv : each_event valid_event s g es = true) :
    ∃ (s2 : scheduler_t) (rs : List Int), run s es = some (s2, rs) ∧
      ids_accounted s2 (track_all s g es) := by
  induction es generalizing s g with
  | nil => exact ⟨s, [], rfl, hinv⟩
  | cons e rest ih =>
    simp only [each_event, Bool.and_eq_true] at hv
    obtain ⟨hv1, hv2⟩ := hv
    obtain ⟨s1, r, hstep, hinv1⟩ := ids_accounted_step s g e hinv hv1
    simp only [hstep] at hv2
    obtain ⟨s2, rs, hrun, hinv2⟩ := ih s1 (track s g e) hinv1 hv2
    exact ⟨s2, r :: rs, by simp only [run, hstep, hrun], by
      simp only [track_all, hstep]; exact hinv2⟩

/-- C9: for every scheme, every positive number of cores and every trace of events valid
for the interface (each arrival with an id not used before, each completion and quantum
expiry on an existing occupied core), the trace runs to a state in which every id that
arrived and did not complete occurs exactly once among the core slots and the waiting
queue taken together, and every other id (never arrived, or completed) occurs in neither.
Every prefix of a valid trace is a valid trace, so this holds after each event. -/
theorem jobs_exactly_once (cores : Nat) (scheme : scheme_t) (es : List event_t)
    (hc : 0 < cores)
    (hv : each_event valid_event (scheduler_start_up cores scheme) ledger.start es = true) :
    ∃ (s : scheduler_t) (rs : List Int),
      run (scheduler_start_up cores scheme) es = some (s, rs) ∧
      ∀ id : Int, (job_ids s).count id =
        if id ∈ (track_all (scheduler_start_up cores scheme) ledger.start es).arrived ∧
            id ∉ (track_all (scheduler_start_up cores scheme) ledger.start es).completed
        then 1 else 0 := by
  have h0 : ids_accounted (scheduler_start_up cores scheme) ledger.start := by
    refine ⟨by simpa [scheduler_start_up] using hc, ?_, ?_⟩
    · intro x
      simp [job_ids, fields_eq, scheduler_start_up, priqueue_init, ledger.start]
    · intro x hx
      simp [ledger.start] at hx
  obtain ⟨s, rs, hrun, _, hcount, _⟩ :=
    ids_accounted_run es (scheduler_start_up cores scheme) ledger.start h0 hv
  exact ⟨s, rs, hrun, hcount⟩

/-- C9 at `ex_trace` on one PSJF core: after the six events job 1 is the only job in the
system; jobs 2 and 3 have completed. -/
theorem jobs_exactly_once_witness :
    0 < 1 ∧
    each_event valid_event (scheduler_start_up 1 .PSJF) ledger.start ex_trace = true ∧
    (run (scheduler_start_up 1 .PSJF) ex_trace).map (fun x => (job_ids x.1, x.2)) =
      some ([1], [0, 0, -1, 3, 3, 1]) ∧
    (track_all (scheduler_start_up 1 .PSJF) ledger.start ex_trace).completed = [3, 2] ∧
    ∃ (s : scheduler_t) (rs : List Int),
      run (scheduler_start_up 1 .PSJF) ex_trace = some (s, rs) ∧
      ∀ id : Int, (job_ids s).count id =
        if id ∈ (track_all (scheduler_start_up 1 .PSJF) ledger.start ex_trace).arrived ∧
            id ∉ (track_all (scheduler_start_up 1 .PSJF) ledger.start ex_trace).completed
        then 1 else 0 :=
  ⟨by decide, by decide, by decide, by decide,
    jobs_exactly_once 1 .PSJF ex_trace (by decide) (by decide)⟩

/-! ## The comparers and the waiting order -/

theorem wrap32_eq (x : Int) (h1 : -2147483648 ≤ x) (h2 : x < 2147483648) : wrap32 x = x := by
  unfold wrap32
  omega

theorem start_up_comparer_lt (scheme : scheme_t) (hs : scheme ≠ .RR) (a b : job_t)
    (ha : in_range a) (hb : in_range b) :
    start_up_comparer scheme a b < 0 ↔ precedes scheme a b := by
  obtain ⟨a1, a2, a3, a4, a5, a6⟩ := ha
  obtain ⟨b1, b2, b3, b4, b5, b6⟩ := hb
  have w1 := wrap32_eq (a.arrival_time - b.arrival_time) (by omega) (by omega)
  have w2 := wrap32_eq (a.remaining_time - b.remaining_time) (by omega) (by omega)
  have w3 := wrap32_eq (a.priority - b.priority) (by omega) (by omega)
  cases scheme with
  | RR => exact absurd rfl hs
  | FCFS =>
    have hc : start_up_comparer .FCFS = fcfs_compare := rfl
    rw [hc]
    simp only [fcfs_compare, precedes, w1]
    omega
  | SJF =>
    have hc : start_up_comparer .SJF = sjf_compare := rfl
    rw [hc]
    simp only [sjf_compare, precedes, w1, w2]
    split <;> omega
  | PSJF =>
    have hc : start_up_comparer .PSJF = sjf_compare := rfl
    rw [hc]
    simp only [sjf_compare, precedes, w1, w2]
    split <;> omega
  | PRI =>
    have hc : start_up_comparer .PRI = pri_compare := rfl
    rw [hc]
    simp only [pri_compare, precedes, w1, w3]
    split <;> omega
  | PPRI =>
    have hc : start_up_comparer .PPRI = pri_compare := rfl
    rw [hc]
    simp only [pri_compare, precedes, w1, w3]
    split <;> omega

theorem precedes_total (scheme : scheme_t) (hs : scheme ≠ .RR) (a b : job_t)
    (hne : a.arrival_time ≠ b.arrival_time) (h : ¬ precedes scheme a b) :
    precedes scheme b a := by
  cases scheme with
  | RR => exact absurd rfl hs
  | FCFS => simp only [precedes] at *; omega
  | SJF => simp only [precedes] at *; omega
  | PSJF => simp only [precedes] at *; omega
  | PRI => simp only [precedes] at *; omega
  | PPRI => simp only [precedes] at *; omega

theorem precedes_trans (scheme : scheme_t) (a b c : job_t)
    (h1 : precedes scheme a b) (h2 : precedes scheme b c) : precedes scheme a c := by
  cases scheme with
  | RR => exact h1
  | FCFS => simp only [precedes] at *; omega
  | SJF => simp only [precedes] at *; omega
  | PSJF => simp only [precedes] at *; omega
  | PRI => simp only [precedes] at *; omega
  | PPRI => simp only [precedes] at *; omega

/-- Offering a job to a queue ordered by `precedes` keeps it ordered, provided the ranking
fields are in range and the arrival time of the job differs from those in the queue. -/
theorem priqueue_offer_ordered (q : priqueue_t job_t) (scheme : scheme_t) (v : job_t)
    (hs : scheme ≠ .RR) (hcmp : q.compare = start_up_comparer scheme)
    (hsorted : q.elems.Pairwise (precedes scheme))
    (hv : in_range v) (hq : ∀ x ∈ q.elems, in_range x ∧ x.arrival_time ≠ v.arrival_time) :
    (priqueue_offer q v).1.elems.Pairwise (precedes scheme) := by
  obtain ⟨a, b, h1, h2, h3, h4, _⟩ := priqueue_offer_shape q v
  rw [h1] at hsorted hq
  rw [h2]
  obtain ⟨sa, sb, sab⟩ := List.pairwise_append.mp hsorted
  have hav : ∀ x ∈ a, precedes scheme x v := by
    intro x hx
    have hxq := hq x (List.mem_append_left _ hx)
    have hn := h3 x hx
    rw [hcmp, start_up_comparer_lt scheme hs v x hv hxq.1] at hn
    exact precedes_total scheme hs v x (fun h => hxq.2 h.symm) hn
  have hvb : ∀ y ∈ b, precedes scheme v y := by
    rcases h4 with hb | ⟨e, rest, hb, he⟩
    · subst hb
      intro y hy
      cases hy
    · subst hb
      have heq := hq e (List.mem_append_right _ (List.mem_cons_self _ _))
      rw [hcmp, start_up_comparer_lt scheme hs v e hv heq.1] at he
      intro y hy
      rcases List.mem_cons.mp hy with hy | hy
      · subst hy; exact he
      · exact precedes_trans scheme v e y he ((List.pairwise_cons.mp sb).1 y hy)
  refine List.pairwise_append.mpr ⟨sa, List.pairwise_cons.mpr ⟨hvb, sb⟩, ?_⟩
  intro x hx y hy
  rcases List.mem_cons.mp hy with hy | hy
  · subst hy; exact hav x hx
  · exact sab x hx y hy

/-! ## Time accounting of the jobs along an orderly trace -/

theorem job_ok_mono (now t : Int) (j : job_t) (h : job_ok now j) (ht : now ≤ t) :
    job_ok t j := by
  obtain ⟨h1, h2, h3, h4, h5, h6, h7, h8, h9⟩ := h
  exact ⟨h1, by omega, h3, h4, h5, by omega, h7, h8, h9⟩

theorem running_ok_mono (now t : Int) (j : job_t) (h : running_ok now j) (ht : now ≤ t) :
    running_ok t j :=
  ⟨job_ok_mono now t j h.1 ht, by have := h.2.1; omega, h.2.2⟩

theorem running_ok_refresh (now t : Int) (j : job_t) (h : running_ok now j) (ht : now ≤ t) :
    running_ok t (refresh_job t j) := by
  obtain ⟨⟨h1, h2, h3, h4, h5, h6, h7, h8, h9⟩, h10, h11⟩ := h
  refine ⟨⟨h1, ?_, h3, h4, ?_, ?_, rfl, h8, h9⟩, ?_, ?_⟩ <;>
    simp only [refresh_job] <;> omega

theorem running_ok_dispatched (now t : Int) (w : job_t) (h : job_ok now w) (ht : now ≤ t) :
    running_ok t (dispatched t w) := by
  obtain ⟨h1, h2, h3, h4, h5, h6, h7, h8, h9⟩ := h
  refine ⟨⟨h1, ?_, h3, h4, h5, ?_, h7, h8, h9⟩, ?_, ?_⟩ <;>
    simp only [dispatched] <;> omega

theorem job_ok_in_range (now : Int) (j : job_t) (h : job_ok now j) (hn : now < 1073741824) :
    in_range j := by
  obtain ⟨h1, h2, h3, h4, h5, h6, h7, h8, h9⟩ := h
  refine ⟨?_, ?_, ?_, ?_, h8, h9⟩ <;> omega

theorem job_ok_make_job (job_number time running_time priority : Int)
    (h0 : 0 ≤ time) (h1 : 0 ≤ running_time) (h2 : running_time < 1073741824)
    (h3 : -1073741824 < priority) (h4 : priority < 1073741824) :
    job_ok time (make_job job_number time running_time priority) ∧
    running_ok time
      { make_job job_number time running_time priority with last_start_time := time } := by
  refine ⟨⟨?_, ?_, ?_, ?_, ?_, ?_, ?_, ?_, ?_⟩, ⟨?_, ?_, ?_, ?_, ?_, ?_, ?_, ?_, ?_⟩, ?_, ?_⟩ <;>
    simp only [make_job] <;> omega

theorem mem_filterMap_set (l : List (Option job_t)) (c : Nat) (y : Option job_t) (x : job_t)
    (h : x ∈ (l.set c y).filterMap (fun o => o)) :
    y = some x ∨ x ∈ l.filterMap (fun o => o) := by
  simp only [List.mem_filterMap] at h ⊢
  obtain ⟨o, ho, hx⟩ := h
  rcases List.mem_or_eq_of_mem_set ho with h1 | h1
  · exact Or.inr ⟨o, h1, hx⟩
  · left; rw [← h1]; exact hx

theorem mem_filterMap_of_get (l : List (Option job_t)) (c : Nat) (x : job_t)
    (h : l[c]? = some (some x)) : x ∈ l.filterMap (fun o => o) := by
  simp only [List.mem_filterMap]
  exact ⟨some x, List.getElem?_mem h, rfl⟩

theorem mem_running_refresh (s : scheduler_t) (time : Int) (x : job_t)
    (h : x ∈ (s.core_array.map (Option.map (refresh_job time))).filterMap (fun o => o)) :
    ∃ j ∈ running_jobs s, x = refresh_job time j := by
  rw [filterMap_refresh] at h
  obtain ⟨j, hj, hx⟩ := List.mem_map.mp h
  exact ⟨j, hj, hx.symm⟩

theorem mem_offer {α : Type} (q : priqueue_t α) (v x : α)
    (h : x ∈ (priqueue_offer q v).1.elems) : x = v ∨ x ∈ q.elems := by
  have := (priqueue_offer_perm q v).mem_iff.mp h
  simpa using this

theorem offer_compare {α : Type} (q : priqueue_t α) (v : α) :
    (priqueue_offer q v).1.compare = q.compare := by
  obtain ⟨_, _, _, _, _, _, _, h, _⟩ := priqueue_offer_shape q v
  exact h

theorem running_waiting_distinct (s : scheduler_t)
    (hnodup : ((jobs_of s).map job_t.arrival_time).Nodup) (j x : job_t)
    (hj : j ∈ running_jobs s) (hx : x ∈ s.priqueue.elems) :
    x.arrival_time ≠ j.arrival_time := by
  simp only [jobs_of, List.map_append] at hnodup
  have hd := (List.nodup_append.mp hnodup).2.2
  intro heq
  exact hd (List.mem_map_of_mem _ hj) (by rw [← heq]; exact List.mem_map_of_mem _ hx)

/-! ## An orderly state stays orderly -/

theorem orderly_new_job (s : scheduler_t) (g : ledger)
    (job_number time running_time priority : Int) (hs : s.scheme ≠ .RR)
    (hinv : orderly s g)
    (ht : timed_event g (.new_job job_number time running_time priority) = true) :
    ∃ (s1 : scheduler_t) (r : Int),
      scheduler_new_job s job_number time running_time priority = some (s1, r) ∧
      s1.scheme = s.scheme ∧
      orderly s1 (track s g (.new_job job_number time running_time priority)) := by
  obtain ⟨hpos, hcmp, hn0, hn1, hrun, hwait, hnodup, hsub, hsorted⟩ := hinv
  simp only [timed_event, decide_eq_true_eq] at ht
  obtain ⟨t1, t2, t3, r1, r2, p1, p2⟩ := ht
  obtain ⟨s1, r, heq, hsch, hcases⟩ :=
    new_job_shape s job_number time running_time priority hpos
  obtain ⟨s1b, rb, heqb, hlen, hperm0⟩ :=
    new_job_fields job_t.arrival_time stable_arrival_time s job_number time running_time
      priority hpos
  rw [heq] at heqb
  simp only [Option.some.injEq, Prod.mk.injEq] at heqb
  obtain ⟨hs1, _⟩ := heqb
  subst hs1
  have hperm : ((jobs_of s1).map job_t.arrival_time).Perm
      (time :: (jobs_of s).map job_t.arrival_time) := hperm0
  have hmk := job_ok_make_job job_number time running_time priority (by omega) r1 r2 p1 p2
  have hnotin : time ∉ (jobs_of s).map job_t.arrival_time := by
    intro hin
    obtain ⟨j, hj, hja⟩ := List.mem_map.mp hin
    exact t3 (hja ▸ hsub j hj)
  have hrun0 : ∀ x ∈ (s.core_array.map (Option.map (refresh_job time))).filterMap
      (fun o => o), running_ok time x := by
    intro x hx
    obtain ⟨j, hj, hxj⟩ := mem_running_refresh s time x hx
    rw [hxj]
    exact running_ok_refresh g.now time j (hrun j hj) t1
  have hwait0 : ∀ x ∈ s.priqueue.elems, job_ok time x :=
    fun x hx => job_ok_mono g.now time x (hwait x hx) t1
  have hq_new : ∀ x ∈ s.priqueue.elems, in_range x ∧
      x.arrival_time ≠ (make_job job_number time running_time priority).arrival_time := by
    intro x hx
    refine ⟨job_ok_in_range g.now x (hwait x hx) hn1, ?_⟩
    intro hxa
    have : x.arrival_time ∈ g.arrivals := hsub x (List.mem_append_right _ hx)
    rw [hxa] at this
    exact t3 this
  have hsc1 : s1.scheme ≠ .RR := by rw [hsch]; exact hs
  refine ⟨s1, r, heq, hsch, by rw [hlen]; exact hpos, ?_, by simp only [track]; omega,
    by simp only [track]; omega, ?_, ?_, hperm.nodup_iff.mpr (List.nodup_cons.mpr ⟨hnotin, hnodup⟩),
    ?_, ?_⟩
  · rw [hsch, ← hcmp]
    rcases hcases with ⟨c, _, _, hq⟩ | ⟨_, hq⟩ | ⟨c, v, _, _, hq⟩
    · rw [hq]
    · rw [hq, offer_compare]
    · rw [hq, offer_compare]
  · intro x hx
    simp only [track]
    simp only [running_jobs] at hx
    rcases hcases with ⟨c, _, hc, _⟩ | ⟨hc, _⟩ | ⟨c, v, _, hc, _⟩
    · rw [hc] at hx
      rcases mem_filterMap_set _ c _ x hx with h1 | h1
      · simp only [Option.some.injEq] at h1
        rw [← h1]; exact hmk.2
      · exact hrun0 x h1
    · rw [hc] at hx
      exact hrun0 x hx
    · rw [hc] at hx
      rcases mem_filterMap_set _ c _ x hx with h1 | h1
      · simp only [Option.some.injEq] at h1
        rw [← h1]; exact hmk.2
      · exact hrun0 x h1
  · intro x hx
    simp only [track]
    rcases hcases with ⟨c, _, _, hq⟩ | ⟨_, hq⟩ | ⟨c, v, hv, _, hq⟩
    · rw [hq] at hx
      exact hwait0 x hx
    · rw [hq] at hx
      rcases mem_offer _ _ x hx with h1 | h1
      · rw [h1]; exact hmk.1
      · exact hwait0 x h1
    · rw [hq] at hx
      rcases mem_offer _ _ x hx with h1 | h1
      · rw [h1]; exact (hrun0 v (mem_filterMap_of_get _ c v hv)).1
      · exact hwait0 x h1
  · intro j hj
    simp only [track]
    have hm : j.arrival_time ∈ (jobs_of s1).map job_t.arrival_time :=
      List.mem_map_of_mem _ hj
    rcases List.mem_cons.mp (hperm.mem_iff.mp hm) with h1 | h1
    · rw [h1]; exact List.mem_cons_self _ _
    · obtain ⟨j2, hj2, hja⟩ := List.mem_map.mp h1
      rw [← hja]
      exact List.mem_cons_of_mem _ (hsub j2 hj2)
  · rw [hsch]
    rcases hcases with ⟨c, _, _, hq⟩ | ⟨_, hq⟩ | ⟨c, v, hv, _, hq⟩
    · rw [hq]; exact hsorted
    · rw [hq]
      exact priqueue_offer_ordered s.priqueue s.scheme _ hs hcmp hsorted
        (job_ok_in_range time _ hmk.1 t2) hq_new
    · rw [hq]
      have hvm := mem_filterMap_of_get _ c v hv
      obtain ⟨j, hj, hvj⟩ := mem_running_refresh s time v hvm
      refine priqueue_offer_ordered s.priqueue s.scheme v hs hcmp hsorted
        (job_ok_in_range time v (hrun0 v hvm).1 t2) ?_
      intro x hx
      refine ⟨job_ok_in_range g.now x (hwait x hx) hn1, ?_⟩
      rw [hvj]
      exact running_waiting_distinct s hnodup j x hj hx

theorem orderly_job_finished (s : scheduler_t) (g : ledger) (core_id : Nat)
    (job_number time : Int) (hinv : orderly s g) (hocc : occupied s core_id = true)
    (ht : timed_event g (.job_finished core_id job_number time) = true) :
    ∃ (s1 : scheduler_t) (r : Int),
      scheduler_job_finished s core_id job_number time = some (s1, r) ∧
      s1.scheme = s.scheme ∧
      orderly s1 (track s g (.job_finished core_id job_number time)) := by
  obtain ⟨hpos, hcmp, hn0, hn1, hrun, hwait, hnodup, hsub, hsorted⟩ := hinv
  simp only [timed_event, decide_eq_true_eq] at ht
  obtain ⟨t1, t2⟩ := ht
  obtain ⟨old, hold⟩ := (occupied_iff s core_id).mp hocc
  obtain ⟨s1, r, heq, hsch, hcmp1, hcases⟩ :=
    job_finished_shape s core_id job_number time old hold
  obtain ⟨s1b, rb, heqb, hlen, hperm⟩ :=
    job_finished_fields job_t.arrival_time stable_arrival_time s core_id job_number time
      old hold
  rw [heq] at heqb
  simp only [Option.some.injEq, Prod.mk.injEq] at heqb
  obtain ⟨hs1, _⟩ := heqb
  subst hs1
  have hnow : (track s g (.job_finished core_id job_number time)).now = time := by
    simp only [track, hold]
  have harr : (track s g (.job_finished core_id job_number time)).arrivals = g.arrivals := by
    simp only [track, hold]
  refine ⟨s1, r, heq, hsch, by rw [hlen]; exact hpos, by rw [hcmp1, hsch, hcmp],
    by rw [hnow]; omega, by rw [hnow]; omega, ?_, ?_,
    (List.nodup_cons.mp (hperm.nodup_iff.mp hnodup)).2, ?_, ?_⟩
  · intro x hx
    rw [hnow]
    simp only [running_jobs] at hx
    rcases hcases with ⟨_, _, hc⟩ | ⟨w, rest, hq, _, hc⟩
    · rw [hc] at hx
      rcases mem_filterMap_set _ core_id _ x hx with h1 | h1
      · cases h1
      · exact running_ok_mono g.now time x (hrun x h1) t1
    · rw [hc] at hx
      rcases mem_filterMap_set _ core_id _ x hx with h1 | h1
      · simp only [Option.some.injEq] at h1
        rw [← h1]
        exact running_ok_dispatched g.now time w
          (hwait w (by rw [hq]; exact List.mem_cons_self _ _)) t1
      · exact running_ok_mono g.now time x (hrun x h1) t1
  · intro x hx
    rw [hnow]
    rcases hcases with ⟨_, hq1, _⟩ | ⟨w, rest, hq, hq1, _⟩
    · rw [hq1] at hx; cases hx
    · rw [hq1] at hx
      exact job_ok_mono g.now time x
        (hwait x (by rw [hq]; exact List.mem_cons_of_mem _ hx)) t1
  · intro j hj
    rw [harr]
    have hm : j.arrival_time ∈ (jobs_of s).map job_t.arrival_time :=
      hperm.mem_iff.mpr (List.mem_cons_of_mem _ (List.mem_map_of_mem _ hj))
    obtain ⟨j2, hj2, hja⟩ := List.mem_map.mp hm
    rw [← hja]
    exact hsub j2 hj2
  · rw [hsch]
    rcases hcases with ⟨_, hq1, _⟩ | ⟨w, rest, hq, hq1, _⟩
    · rw [hq1]; exact List.Pairwise.nil
    · rw [hq1]
      rw [hq] at hsorted
      exact (List.pairwise_cons.mp hsorted).2

theorem orderly_quantum_expired (s : scheduler_t) (g : ledger) (core_id : Nat)
    (time : Int) (hs : s.scheme ≠ .RR) (hinv : orderly s g)
    (hocc : occupied s core_id = true)
    (ht : timed_event g (.quantum_expired core_id time) = true) :
    ∃ (s1 : scheduler_t) (r : Int),
      scheduler_quantum_expired s core_id time = some (s1, r) ∧
      s1.scheme = s.scheme ∧
      orderly s1 (track s g (.quantum_expired core_id time)) := by
  obtain ⟨hpos, hcmp, hn0, hn1, hrun, hwait, hnodup, hsub, hsorted⟩ := hinv
  simp only [timed_event, decide_eq_true_eq] at ht
  obtain ⟨t1, t2⟩ := ht
  obtain ⟨old, hold⟩ := (occupied_iff s core_id).mp hocc
  obtain ⟨s1, w, rest, heq, hsch, hcmp1, hoff, hq1, hc⟩ :=
    quantum_expired_shape s core_id time old hold
  obtain ⟨s1b, rb, heqb, hlen, hperm⟩ :=
    quantum_expired_fields job_t.arrival_time stable_arrival_time s core_id time old hold
  rw [heq] at heqb
  simp only [Option.some.injEq, Prod.mk.injEq] at heqb
  obtain ⟨hs1, _⟩ := heqb
  subst hs1
  have hold_run : old ∈ running_jobs s := mem_filterMap_of_get _ core_id old hold
  have hrold : running_ok time (refresh_job time old) :=
    running_ok_refresh g.now time old (hrun old hold_run) t1
  have hoffered : ∀ x ∈ (priqueue_offer s.priqueue (refresh_job time old)).1.elems,
      job_ok time x := by
    intro x hx
    rcases mem_offer _ _ x hx with h1 | h1
    · rw [h1]; exact hrold.1
    · exact job_ok_mono g.now time x (hwait x h1) t1
  have hsorted1 : (priqueue_offer s.priqueue (refresh_job time old)).1.elems.Pairwise
      (precedes s.scheme) := by
    refine priqueue_offer_ordered s.priqueue s.scheme _ hs hcmp hsorted
      (job_ok_in_range time _ hrold.1 t2) ?_
    intro x hx
    exact ⟨job_ok_in_range g.now x (hwait x hx) hn1,
      running_waiting_distinct s hnodup old x hold_run hx⟩
  rw [hoff] at hoffered hsorted1
  refine ⟨s1, w.id, heq, hsch, by rw [hlen]; exact hpos, by rw [hcmp1, hsch, hcmp],
    by simp only [track]; omega, by simp only [track]; omega, ?_, ?_,
    hperm.nodup_iff.mpr hnodup, ?_, ?_⟩
  · intro x hx
    simp only [track]
    simp only [running_jobs] at hx
    rw [hc] at hx
    rcases mem_filterMap_set _ core_id _ x hx with h1 | h1
    · simp only [Option.some.injEq] at h1
      rw [← h1]
      exact running_ok_dispatched time time w (hoffered w (List.mem_cons_self _ _))
        (le_refl _)
    · obtain ⟨j, hj, hxj⟩ := mem_running_refresh s time x h1
      rw [hxj]
      exact running_ok_refresh g.now time j (hrun j hj) t1
  · intro x hx
    simp only [track]
    rw [hq1] at hx
    exact hoffered x (List.mem_cons_of_mem _ hx)
  · intro j hj
    simp only [track]
    have hm : j.arrival_time ∈ (jobs_of s).map job_t.arrival_time :=
      hperm.mem_iff.mp (List.mem_map_of_mem _ hj)
    obtain ⟨j2, hj2, hja⟩ := List.mem_map.mp hm
    rw [← hja]
    exact hsub j2 hj2
  · rw [hsch, hq1]
    exact (List.pairwise_cons.mp hsorted1).2

theorem orderly_step (s : scheduler_t) (g : ledger) (e : event_t) (hs : s.scheme ≠ .RR)
    (hinv : orderly s g) (hv : orderly_event s g e = true) :
    ∃ (s1 : scheduler_t) (r : Int), step s e = some (s1, r) ∧ s1.scheme = s.scheme ∧
      orderly s1 (track s g e) := by
  simp only [orderly_event, Bool.and_eq_true] at hv
  obtain ⟨hv1, hv2⟩ := hv
  cases e with
  | new_job job_number time running_time priority =>
    exact orderly_new_job s g job_number time running_time priority hs hinv hv2
  | job_finished core_id job_number time =>
    exact orderly_job_finished s g core_id job_number time hinv hv1 hv2
  | quantum_expired core_id time =>
    exact orderly_quantum_expired s g core_id time hs hinv hv1 hv2

theorem orderly_run (es : List event_t) (s : scheduler_t) (g : ledger)
    (hs : s.scheme ≠ .RR) (hinv : orderly s g)
    (hv : each_event orderly_event s g es = true) :
    ∃ (s2 : scheduler_t) (rs : List Int), run s es = some (s2, rs) ∧
      s2.scheme = s.scheme ∧ orderly s2 (track_all s g es) := by
  induction es generalizing s g with
  | nil => exact ⟨s, [], rfl, rfl, hinv⟩
  | cons e rest ih =>
    simp only [each_event, Bool.and_eq_true] at hv
    obtain ⟨hv1, hv2⟩ := hv
    obtain ⟨s1, r, hstep, hsch1, hinv1⟩ := orderly_step s g e hs hinv hv1
    simp only [hstep] at hv2
    obtain ⟨s2, rs, hrun, hsch2, hinv2⟩ :=
      ih s1 (track s g e) (by rw [hsch1]; exact hs) hinv1 hv2
    exact ⟨s2, r :: rs, by simp only [run, hstep, hrun], by rw [hsch2, hsch1], by
      simp only [track_all, hstep]; exact hinv2⟩

theorem orderly_start_up (cores : Nat) (scheme : scheme_t) (hc : 0 < cores) :
    orderly (scheduler_start_up cores scheme) ledger.start := by
  refine ⟨by simpa [scheduler_start_up] using hc, rfl, le_refl _, by decide, ?_, ?_, ?_, ?_,
    List.Pairwise.nil⟩
  · intro j hj
    simp [running_jobs, scheduler_start_up] at hj
  · intro j hj
    simp [scheduler_start_up, priqueue_init] at hj
  · simp [jobs_of, running_jobs, scheduler_start_up, priqueue_init]
  · intro j hj
    simp [jobs_of, running_jobs, scheduler_start_up, priqueue_init] at hj

/-- C7: for each scheme other than RR, every positive number of cores and every trace from
`scheduler_start_up` whose events are valid for the interface, come in non-decreasing time
below `2^30`, and whose arrivals have pairwise distinct times, service times in `[0, 2^30)`
and priorities strictly between `-2^30` and `2^30` (so that no comparer difference
overflows): the trace runs to a state `s`, and whenever a job finishes on an occupied core
of `s` while jobs wait, `scheduler_job_finished` installs and returns the front job `w`, and
`w` goes before every other waiting job `x`: under FCFS it arrived earlier; under SJF and
PSJF it has the smaller `remaining_time`, or the same and arrived earlier; under PRI and
PPRI it has the smaller `priority` value, or the same and arrived earlier. -/
theorem job_finished_installs_minimum (cores : Nat) (scheme : scheme_t) (es : List event_t)
    (hc : 0 < cores) (hs : scheme ≠ .RR)
    (hv : each_event orderly_event (scheduler_start_up cores scheme) ledger.start es = true) :
    ∃ (s : scheduler_t) (rs : List Int),
      run (scheduler_start_up cores scheme) es = some (s, rs) ∧
      ∀ (core_id : Nat) (job_number time : Int) (w : job_t) (rest : List job_t),
        occupied s core_id = true → s.priqueue.elems = w :: rest →
        ∃ s1 : scheduler_t,
          scheduler_job_finished s core_id job_number time = some (s1, w.id) ∧
          s1.core_array[core_id]? = some (some (dispatched time w)) ∧
          s1.priqueue.elems = rest ∧
          ∀ x ∈ rest,
            (scheme = .FCFS → w.arrival_time < x.arrival_time) ∧
            (scheme = .SJF ∨ scheme = .PSJF →
              w.remaining_time < x.remaining_time ∨
                (w.remaining_time = x.remaining_time ∧ w.arrival_time < x.arrival_time)) ∧
            (scheme = .PRI ∨ scheme = .PPRI →
              w.priority < x.priority ∨
                (w.priority = x.priority ∧ w.arrival_time < x.arrival_time)) := by
  obtain ⟨s, rs, hrun, hsch, hinv⟩ :=
    orderly_run es (scheduler_start_up cores scheme) ledger.start hs
      (orderly_start_up cores scheme hc) hv
  have hsch2 : s.scheme = scheme := hsch
  obtain ⟨_, _, _, _, _, _, _, _, hsorted⟩ := hinv
  refine ⟨s, rs, hrun, ?_⟩
  intro core_id job_number time w rest hocc hq
  obtain ⟨old, hold⟩ := (occupied_iff s core_id).mp hocc
  have hlt : core_id < s.core_array.length := by
    by_contra hn
    rw [List.getElem?_eq_none (by omega)] at hold
    cases hold
  obtain ⟨s1, heq, hq1, hc1⟩ := job_finished_front s core_id job_number time old w rest hold hq
  refine ⟨s1, heq, by rw [hc1]; simp [hlt], hq1, ?_⟩
  intro x hx
  rw [hq, hsch2] at hsorted
  have hp := (List.pairwise_cons.mp hsorted).1 x hx
  refine ⟨?_, ?_, ?_⟩
  · intro h; subst h; exact hp
  · intro h; rcases h with h | h <;> subst h <;> exact hp
  · intro h; rcases h with h | h <;> subst h <;> exact hp

/-- C7 at `ex_arrivals` on one PSJF core: job 2 runs, jobs 3 (remaining 7) and 1 (remaining
8) wait in that order, and the completion of job 2 at time 5 installs job 3. -/
theorem job_finished_installs_minimum_witness :
    0 < 1 ∧ scheme_t.PSJF ≠ .RR ∧
    each_event orderly_event (scheduler_start_up 1 .PSJF) ledger.start ex_arrivals = true ∧
    (run (scheduler_start_up 1 .PSJF) ex_arrivals).map
        (fun x => (x.1.priqueue.elems.map (fun j => (j.id, j.remaining_time)), x.2)) =
      some ([(3, 7), (1, 8)], [0, 0, -1]) ∧
    (run (scheduler_start_up 1 .PSJF) (ex_arrivals ++ [.job_finished 0 2 5])).map
        (fun x => (job_ids x.1, x.2)) =
      some ([3, 1], [0, 0, -1, 3]) ∧
    ∃ (s : scheduler_t) (rs : List Int),
      run (scheduler_start_up 1 .PSJF) ex_arrivals = some (s, rs) ∧
      ∀ (core_id : Nat) (job_number time : Int) (w : job_t) (rest : List job_t),
        occupied s core_id = true → s.priqueue.elems = w :: rest →
        ∃ s1 : scheduler_t,
          scheduler_job_finished s core_id job_number time = some (s1, w.id) ∧
          s1.core_array[core_id]? = some (some (dispatched time w)) ∧
          s1.priqueue.elems = rest ∧
          ∀ x ∈ rest,
            (scheme_t.PSJF = .FCFS → w.arrival_time < x.arrival_time) ∧
            (scheme_t.PSJF = .SJF ∨ scheme_t.PSJF = .PSJF →
              w.remaining_time < x.remaining_time ∨
                (w.remaining_time = x.remaining_time ∧ w.arrival_time < x.arrival_time)) ∧
            (scheme_t.PSJF = .PRI ∨ scheme_t.PSJF = .PPRI →
              w.priority < x.priority ∨
                (w.priority = x.priority ∧ w.arrival_time < x.arrival_time)) :=
  ⟨by decide, by decide, by decide, by decide, by decide,
    job_finished_installs_minimum 1 .PSJF ex_arrivals (by decide) (by decide) (by decide)⟩

/-! ## Order and stability of the queue under `priqueue_offer` -/

/-- C11: for every comparator whose sign is antisymmetric and transitive and every queue
sorted in non-decreasing comparator order, the queue after `priqueue_offer` is sorted
again, and the item is linked behind every stored element that compares equal to it: the
elements `a` in front of it are the old front part, and every element of the part `b`
behind it is strictly greater than the item. -/
theorem priqueue_offer_sorted_stable {α : Type} (q : priqueue_t α) (item : α)
    (hanti : ∀ x y, q.compare x y < 0 ↔ 0 < q.compare y x)
    (htrans : ∀ x y z, q.compare x y ≤ 0 → q.compare y z ≤ 0 → q.compare x z ≤ 0)
    (hsorted : q.elems.Pairwise (fun x y => q.compare x y ≤ 0)) :
    (priqueue_offer q item).1.elems.Pairwise (fun x y => q.compare x y ≤ 0) ∧
    ∃ a b, q.elems = a ++ b ∧ (priqueue_offer q item).1.elems = a ++ item :: b ∧
      (∀ x ∈ a, q.compare x item ≤ 0) ∧
      (∀ x ∈ b, q.compare item x < 0) ∧
      (∀ x ∈ q.elems, q.compare item x = 0 → x ∈ a) := by
  obtain ⟨a, b, h1, h2, h3, h4, _⟩ := priqueue_offer_shape q item
  rw [h1] at hsorted
  obtain ⟨sa, sb, sab⟩ := List.pairwise_append.mp hsorted
  have hfront : ∀ x ∈ a, q.compare x item ≤ 0 := by
    intro x hx
    have hn := h3 x hx
    by_contra hc
    exact hn ((hanti item x).mpr (by omega))
  have hback : ∀ x ∈ b, q.compare item x < 0 := by
    rcases h4 with hb | ⟨e, rest, hb, he⟩
    · subst hb
      intro x hx
      cases hx
    · subst hb
      intro x hx
      rcases List.mem_cons.mp hx with hx | hx
      · subst hx; exact he
      · have hex := (List.pairwise_cons.mp sb).1 x hx
        by_contra hc
        have hxi : q.compare x item ≤ 0 := by
          by_contra hc2
          exact hc ((hanti item x).mpr (by omega))
        have hei := htrans e x item hex hxi
        have := (hanti item e).mp he
        omega
  refine ⟨?_, a, b, h1, h2, hfront, hback, ?_⟩
  · rw [h2]
    refine List.pairwise_append.mpr ⟨sa, List.pairwise_cons.mpr ⟨?_, sb⟩, ?_⟩
    · intro x hx
      have := hback x hx
      omega
    · intro x hx y hy
      rcases List.mem_cons.mp hy with hy | hy
      · subst hy; exact hfront x hx
      · exact sab x hx y hy
  · intro x hx heq
    rw [h1] at hx
    rcases List.mem_append.mp hx with hx | hx
    · exact hx
    · have := hback x hx
      omega

/-- C11 at `ex_equal_queue`: a pair with key 3 offered to pairs with keys 1, 3, 3, 5 goes
behind the two stored pairs of key 3. -/
theorem priqueue_offer_sorted_stable_witness :
    (∀ x y, ex_equal_queue.compare x y < 0 ↔ 0 < ex_equal_queue.compare y x) ∧
    (∀ x y z, ex_equal_queue.compare x y ≤ 0 → ex_equal_queue.compare y z ≤ 0 →
      ex_equal_queue.compare x z ≤ 0) ∧
    ex_equal_queue.elems.Pairwise (fun x y => ex_equal_queue.compare x y ≤ 0) ∧
    (priqueue_offer ex_equal_queue (3, 9)).1.elems = [(1, 0), (3, 1), (3, 2), (3, 9), (5, 3)] ∧
    ((priqueue_offer ex_equal_queue (3, 9)).1.elems.Pairwise
        (fun x y => ex_equal_queue.compare x y ≤ 0) ∧
      ∃ a b, ex_equal_queue.elems = a ++ b ∧
        (priqueue_offer ex_equal_queue (3, 9)).1.elems = a ++ (3, 9) :: b ∧
        (∀ x ∈ a, ex_equal_queue.compare x (3, 9) ≤ 0) ∧
        (∀ x ∈ b, ex_equal_queue.compare (3, 9) x < 0) ∧
        (∀ x ∈ ex_equal_queue.elems, ex_equal_queue.compare (3, 9) x = 0 → x ∈ a)) :=
  ⟨fun x y => by simp only [ex_equal_queue]; omega,
    fun x y z => by simp only [ex_equal_queue]; omega,
    by simp [ex_equal_queue], by decide,
    priqueue_offer_sorted_stable ex_equal_queue (3, 9)
      (fun x y => by simp only [ex_equal_queue]; omega)
      (fun x y z => by simp only [ex_equal_queue]; omega)
      (by simp [ex_equal_queue])⟩

/-! ## Removal from the queue -/

theorem remove_at_loop_last {α : Type} (a : List α) (x : α) (at_head : Bool) (i : Int)
    (to_return : Option α) (h : a ≠ [] ∨ at_head = false) :
    remove_at_loop (a ++ [x]) at_head i (i + (a.length : Int)) to_return = none := by
  induction a generalizing at_head i with
  | nil =>
    rcases h with h | h
    · exact absurd rfl h
    · subst h
      simp [remove_at_loop]
  | cons t rest ih =>
    have hne : ¬ i = i + ((t :: rest).length : Int) := by
      simp only [List.length_cons]; push_cast; omega
    have hk : i + ((t :: rest).length : Int) = (i + 1) + (rest.length : Int) := by
      simp only [List.length_cons]; push_cast; omega
    have hrec := ih false (i + 1) (Or.inr rfl)
    rw [← hk] at hrec
    obtain ⟨n, more, hnm⟩ : ∃ n more, rest ++ [x] = n :: more := by
      cases rest with
      | nil => exact ⟨x, [], rfl⟩
      | cons y ys => exact ⟨y, ys ++ [x], rfl⟩
    rw [hnm] at hrec
    simp only [List.cons_append, hnm, remove_at_loop, hne, if_false, hrec]

/-- Removing the last position of a queue of two or more elements has no result: the loop
of `priqueue_remove_at` dereferences `NULL`. -/
theorem priqueue_remove_at_last_faults {α : Type} (q : priqueue_t α) (a : List α) (x : α)
    (hq : q.elems = a ++ [x]) (ha : a ≠ []) (hsize : q.size = q.elems.length) :
    priqueue_remove_at q (a.length : Int) = none := by
  have hlen : q.size = a.length + 1 := by rw [hsize, hq]; simp
  have hne : q.elems.isEmpty = false := by
    rw [hq]; cases a <;> rfl
  have h1 : ¬ ((a.length : Int) < 0) := by omega
  have h2 : ¬ ((a.length : Int) ≥ (q.size : Int)) := by rw [hlen]; push_cast; omega
  have hloop := remove_at_loop_last a x true 0 none (Or.inl ha)
  rw [zero_add] at hloop
  have hne2 : (a ++ [x]).isEmpty = false := by rw [← hq]; exact hne
  simp only [priqueue_remove_at, hne, h1, h2, Bool.false_eq_true, or_self, if_false, hq, hloop,
    hne2]

/-- Whatever `priqueue_remove_at` returns, the `size` field is the one it found. -/
theorem priqueue_remove_at_keeps_size {α : Type} (q q1 : priqueue_t α) (index : Int)
    (r : Option α) (h : priqueue_remove_at q index = some (q1, r)) : q1.size = q.size := by
  unfold priqueue_remove_at at h
  split at h
  · simp only [Option.some.injEq, Prod.mk.injEq] at h
    rw [← h.1]
  · split at h
    · simp only [Option.some.injEq, Prod.mk.injEq] at h
      rw [← h.1]
    · cases h

theorem remove_loop_last {α : Type} [DecidableEq α] (a : List α) (ptr : α) (at_head : Bool)
    (hits : Nat) (hnot : ptr ∉ a) (h : a ≠ [] ∨ at_head = false) :
    remove_loop ptr (a ++ [ptr]) at_head hits = none := by
  induction a generalizing at_head with
  | nil =>
    rcases h with h | h
    · exact absurd rfl h
    · subst h
      simp [remove_loop]
  | cons t rest ih =>
    have hne : ¬ t = ptr := fun hc => hnot (hc ▸ List.mem_cons_self _ _)
    have hrest : ptr ∉ rest := fun hc => hnot (List.mem_cons_of_mem _ hc)
    have hrec := ih false hrest (Or.inr rfl)
    obtain ⟨n, more, hnm⟩ : ∃ n more, rest ++ [ptr] = n :: more := by
      cases rest with
      | nil => exact ⟨ptr, [], rfl⟩
      | cons y ys => exact ⟨y, ys ++ [ptr], rfl⟩
    rw [hnm] at hrec
    simp only [List.cons_append, hnm, remove_loop, hne, if_false, hrec]

/-- Removing a value stored only in the last node of a queue of two or more elements has no
result: the loop of `priqueue_remove` dereferences `NULL`. -/
theorem priqueue_remove_last_faults {α : Type} [DecidableEq α] (q : priqueue_t α)
    (a : List α) (ptr : α) (hq : q.elems = a ++ [ptr]) (ha : a ≠ []) (hnot : ptr ∉ a) :
    priqueue_remove q ptr = none := by
  have hloop := remove_loop_last a ptr true 0 hnot (Or.inl ha)
  unfold priqueue_remove
  rw [hq]
  cases a with
  | nil => exact absurd rfl ha
  | cons t rest =>
    simp only [List.cons_append] at hloop ⊢
    rw [hloop]

/-- C16, evaluated on the queue 1, 3, 5 built by three offers. Removing position 2, the
last element, dereferences `NULL` and gives no result. Removing position 0 returns 1 and
leaves 3, 5, and removing position 1 returns 3 and leaves 1, 5, but in both cases
`priqueue_size` still reports 3. An out-of-range position returns `NULL` and changes
nothing. -/
theorem priqueue_remove_at_faults_and_keeps_size :
    queue_view (priqueue_offer (priqueue_offer (priqueue_offer
        (priqueue_init (fun a b : Int => a - b)) 1).1 3).1 5).1 = queue_view ex_queue ∧
    (priqueue_remove_at ex_queue 2).map (fun r => (queue_view r.1, r.2)) = none ∧
    (priqueue_remove_at ex_queue 0).map (fun r => (queue_view r.1, r.2)) =
      some (([3, 5], 3), some 1) ∧
    (priqueue_remove_at ex_queue 1).map (fun r => (queue_view r.1, r.2)) =
      some (([1, 5], 3), some 3) ∧
    (priqueue_remove_at ex_queue 3).map (fun r => (queue_view r.1, r.2)) =
      some (([1, 3, 5], 3), none) := by
  refine ⟨by decide, by decide, by decide, by decide, by decide⟩

/-- C17, evaluated on the queue 1, 3, 5 built by three offers. Removing the value 5, stored
in the last node, dereferences `NULL` and gives no result; removing 3 or 1 returns 1 and
leaves the other two values with size 2; removing an absent value returns 0. -/
theorem priqueue_remove_faults_at_last :
    queue_view (priqueue_offer (priqueue_offer (priqueue_offer
        (priqueue_init (fun a b : Int => a - b)) 1).1 3).1 5).1 = queue_view ex_queue ∧
    (priqueue_remove ex_queue 5).map (fun r => (queue_view r.1, r.2)) = none ∧
    (priqueue_remove ex_queue 3).map (fun r => (queue_view r.1, r.2)) =
      some (([1, 5], 2), 1) ∧
    (priqueue_remove ex_queue 1).map (fun r => (queue_view r.1, r.2)) =
      some (([3, 5], 2), 1) ∧
    (priqueue_remove ex_queue 4).map (fun r => (queue_view r.1, r.2)) =
      some (([1, 3, 5], 3), 0) := by
  refine ⟨by decide, by decide, by decide, by decide, by decide⟩

/-! ## The front of the queue -/

/-- C18: for every queue whose `size` field is at least its number of nodes,
`priqueue_peek` returns the first element (`none` on an empty queue) and `priqueue_poll`
returns the same value; on an empty queue `priqueue_poll` leaves the queue as it is; on a
queue `h :: t` it leaves `t` in order with `priqueue_size` one less and the comparer
untouched. `priqueue_peek` only reads the queue. -/
theorem priqueue_peek_poll {α : Type} (q : priqueue_t α) (hsize : q.elems.length ≤ q.size) :
    priqueue_peek q = q.elems.head? ∧
    (priqueue_poll q).2 = priqueue_peek q ∧
    (q.elems = [] → (priqueue_poll q).2 = none ∧ (priqueue_poll q).1 = q) ∧
    (∀ h t, q.elems = h :: t →
      (priqueue_poll q).2 = some h ∧ (priqueue_poll q).1.elems = t ∧
      priqueue_size (priqueue_poll q).1 + 1 = priqueue_size q ∧
      (priqueue_poll q).1.compare = q.compare) := by
  cases hq : q.elems with
  | nil =>
    refine ⟨by simp [priqueue_peek, hq], by simp [priqueue_peek, priqueue_poll, hq], ?_, ?_⟩
    · intro _
      simp [priqueue_poll, hq]
    · intro h t ht
      cases ht
  | cons x rest =>
    rw [hq] at hsize
    simp only [List.length_cons] at hsize
    refine ⟨by simp [priqueue_peek, hq], by simp [priqueue_peek, priqueue_poll, hq], ?_, ?_⟩
    · intro hn
      cases hn
    · intro h t ht
      cases ht
      simp only [priqueue_poll, hq, priqueue_size]
      refine ⟨trivial, trivial, ?_, trivial⟩
      omega

/-- C18 at `ex_queue`: the front of 1, 3, 5 is 1; polling leaves 3, 5 with size 2. -/
theorem priqueue_peek_poll_witness :
    ex_queue.elems.length ≤ ex_queue.size ∧
    priqueue_peek ex_queue = some 1 ∧
    queue_view (priqueue_poll ex_queue).1 = ([3, 5], 2) ∧
    (priqueue_peek ex_queue = ex_queue.elems.head? ∧
    (priqueue_poll ex_queue).2 = priqueue_peek ex_queue ∧
    (ex_queue.elems = [] → (priqueue_poll ex_queue).2 = none ∧
      (priqueue_poll ex_queue).1 = ex_queue) ∧
    (∀ h t, ex_queue.elems = h :: t →
      (priqueue_poll ex_queue).2 = some h ∧ (priqueue_poll ex_queue).1.elems = t ∧
      priqueue_size (priqueue_poll ex_queue).1 + 1 = priqueue_size ex_queue ∧
      (priqueue_poll ex_queue).1.compare = ex_queue.compare)) :=
  ⟨by decide, by decide, by decide, priqueue_peek_poll ex_queue (by decide)⟩

/-! ## The averages -/

/-- C15 as stated fails: on the FCFS scenario with job 2 finishing at time 7 the returned
values are 0, -1, 2 and -1, but the averages are not 1.5, 5 and 2. -/
theorem fcfs_scenario_averages_differ :
    (run (scheduler_start_up 1 .FCFS) ex_fcfs_trace).map (fun x => (x.2, averages x.1)) ≠
      some ([0, -1, 2, -1], (3 / 2, 5, 2)) := by
  simp [run, step, ex_fcfs_trace, scheduler_new_job, scheduler_job_finished, install_next,
    priqueue_poll, priqueue_offer, offer_loop, idle_scan, scheduler_start_up, priqueue_init,
    updateRemainingTimes, refresh_job, make_job, averages, scheduler_average_waiting_time,
    scheduler_average_turnaround_time, scheduler_average_response_time, start_up_comparer,
    fcfs_compare, wrap32]
  norm_num

/-- C15 as amended: on the FCFS scenario the first arrival returns core 0, the second
returns -1, the completion at time 5 returns job id 2, the completion of job 2 at time 7
returns -1, and at the end the average waiting time is 2, the average turnaround time is
5.5 and the average response time is 2. -/
theorem fcfs_scenario_averages :
    (run (scheduler_start_up 1 .FCFS) ex_fcfs_trace).map (fun x => (x.2, averages x.1)) =
      some ([0, -1, 2, -1], (2, 11 / 2, 2)) := by
  simp [run, step, ex_fcfs_trace, scheduler_new_job, scheduler_job_finished, install_next,
    priqueue_poll, priqueue_offer, offer_loop, idle_scan, scheduler_start_up, priqueue_init,
    updateRemainingTimes, refresh_job, make_job, averages, scheduler_average_waiting_time,
    scheduler_average_turnaround_time, scheduler_average_response_time, start_up_comparer,
    fcfs_compare, wrap32]
  norm_num

/-! ## Arrival with a service time that is not positive -/

/-- C19 as stated fails: on a fresh one-core FCFS scheduler `scheduler_new_job` with service
time 0 returns core 0 and puts the job on that core, and a following arrival with service
time -3 returns -1 and puts the job in the waiting queue; neither call reports a fault. -/
theorem new_job_accepts_non_positive_service :
    observe (scheduler_new_job (scheduler_start_up 1 .FCFS) 1 0 0 0) =
      some (([some { id := 1, arrival_time := 0, used_time := 0, remaining_time := 0,
                     needed_time := 0, last_start_time := 0, time_to_schedule := 0,
                     priority := 0 }], []), 0) ∧
    observe (run (scheduler_start_up 1 .FCFS) [.new_job 1 0 0 0, .new_job 2 1 (-3) 0]) =
      some (([some { id := 1, arrival_time := 0, used_time := 1, remaining_time := -1,
                     needed_time := 0, last_start_time := 1, time_to_schedule := 0,
                     priority := 0 }],
             [{ id := 2, arrival_time := 1, used_time := 0, remaining_time := -3,
                needed_time := -3, last_start_time := 0, time_to_schedule := 0,
                priority := 0 }]), [0, -1]) := by
  refine ⟨by decide, by decide⟩

theorem getElem?_lt {β : Type} (l : List β) (c : Nat) (x : β) (h : l[c]? = some x) :
    c < l.length := by
  by_contra hn
  rw [List.getElem?_eq_none (by omega)] at h
  cases h

theorem preempt_branch_return (key : job_t → Int) (s0 : scheduler_t) (new_job : job_t)
    (time : Int) (s1 : scheduler_t) (r : Int)
    (h : preempt_branch key s0 new_job time = some (s1, r)) :
    r = -1 ∨ (0 ≤ r ∧ r < (s0.core_array.length : Int)) := by
  unfold preempt_branch at h
  split at h
  · cases h
  · rename_i core _
    split at h
    · rename_i old hold
      have hlt := getElem?_lt _ _ _ hold
      split at h
      · simp only [Option.some.injEq, Prod.mk.injEq] at h
        exact Or.inl h.2.symm
      · simp only [Option.some.injEq, Prod.mk.injEq] at h
        right
        rw [← h.2]
        omega
    · cases h

/-- The value returned by `scheduler_new_job` is -1 or the index of a core. -/
theorem new_job_return (s : scheduler_t) (job_number time running_time priority : Int)
    (s1 : scheduler_t) (r : Int)
    (h : scheduler_new_job s job_number time running_time priority = some (s1, r)) :
    r = -1 ∨ (0 ≤ r ∧ r < (s.core_array.length : Int)) := by
  have hlen : (updateRemainingTimes s time).core_array.length = s.core_array.length := by
    simp [updateRemainingTimes]
  unfold scheduler_new_job at h
  simp only [] at h
  split at h
  · rename_i c hc
    obtain ⟨_, hcn, _⟩ := idle_scan_some s.core_array 0 c hc
    have hlt := getElem?_lt _ _ _ hcn
    simp only [Nat.sub_zero] at hlt
    simp only [Option.some.injEq, Prod.mk.injEq] at h
    right
    rw [← h.2]
    omega
  · split at h
    · have := preempt_branch_return _ (updateRemainingTimes s time) _ _ _ _ h
      rw [hlen] at this
      exact this
    · split at h
      · have := preempt_branch_return _ (updateRemainingTimes s time) _ _ _ _ h
        rw [hlen] at this
        exact this
      · split at h
        · simp only [Option.some.injEq, Prod.mk.injEq] at h
          exact Or.inl h.2.symm
        · simp only [Option.some.injEq, Prod.mk.injEq] at h
          exact Or.inl h.2.symm

theorem mem_filterMap_set_self (l : List (Option job_t)) (c : Nat) (j : job_t)
    (hc : c < l.length) : j ∈ (l.set c (some j)).filterMap (fun o => o) := by
  simp only [List.mem_filterMap]
  refine ⟨some j, ?_, rfl⟩
  apply List.getElem?_mem (n := c)
  simp [hc]

/-- C19 as amended: on a scheduler with at least one core, `scheduler_new_job` called with
a service time that is not positive reports no fault; it returns -1 or the index of a core,
and afterwards the job, with `needed_time` and `remaining_time` equal to the service time
given (so with nothing left to run), is on a core or in the waiting queue, as for any other
arrival. -/
theorem new_job_non_positive_service (s : scheduler_t)
    (job_number time running_time priority : Int)
    (hpos : 0 < s.core_array.length) (hrt : running_time ≤ 0) :
    ∃ (s1 : scheduler_t) (r : Int),
      scheduler_new_job s job_number time running_time priority = some (s1, r) ∧
      (r = -1 ∨ (0 ≤ r ∧ r < (s.core_array.length : Int))) ∧
      ∃ j ∈ jobs_of s1, j.id = job_number ∧ j.needed_time = running_time ∧
        j.remaining_time = running_time ∧ j.used_time = 0 ∧ j.remaining_time ≤ 0 := by
  obtain ⟨s1, r, heq, _, hcases⟩ :=
    new_job_shape s job_number time running_time priority hpos
  refine ⟨s1, r, heq, new_job_return s job_number time running_time priority s1 r heq, ?_⟩
  rcases hcases with ⟨c, hcn, hc, _⟩ | ⟨_, hq⟩ | ⟨c, v, hv, hc, _⟩
  · refine ⟨{ make_job job_number time running_time priority with last_start_time := time },
      ?_, rfl, rfl, rfl, rfl, hrt⟩
    simp only [jobs_of, running_jobs, List.mem_append]
    left
    rw [hc]
    exact mem_filterMap_set_self _ c _ (by simpa using getElem?_lt _ _ _ hcn)
  · refine ⟨make_job job_number time running_time priority, ?_, rfl, rfl, rfl, rfl, hrt⟩
    simp only [jobs_of, List.mem_append]
    right
    rw [hq]
    exact (priqueue_offer_perm _ _).mem_iff.mpr (List.mem_cons_self _ _)
  · refine ⟨{ make_job job_number time running_time priority with last_start_time := time },
      ?_, rfl, rfl, rfl, rfl, hrt⟩
    simp only [jobs_of, running_jobs, List.mem_append]
    left
    rw [hc]
    exact mem_filterMap_set_self _ c _ (getElem?_lt _ _ _ hv)

/-- C19 as amended, at a fresh one-core FCFS scheduler and service time 0. -/
theorem new_job_non_positive_service_witness :
    0 < (scheduler_start_up 1 .FCFS).core_array.length ∧ (0 : Int) ≤ 0 ∧
    ∃ (s1 : scheduler_t) (r : Int),
      scheduler_new_job (scheduler_start_up 1 .FCFS) 1 0 0 0 = some (s1, r) ∧
      (r = -1 ∨ (0 ≤ r ∧ r < ((scheduler_start_up 1 .FCFS).core_array.length : Int))) ∧
      ∃ j ∈ jobs_of s1, j.id = 1 ∧ j.needed_time = 0 ∧ j.remaining_time = 0 ∧
        j.used_time = 0 ∧ j.remaining_time ≤ 0 :=
  ⟨by decide, by decide,
    new_job_non_positive_service (scheduler_start_up 1 .FCFS) 1 0 0 0 (by decide) (by decide)⟩

/-! ## Waiting time is turnaround time minus service time -/

/-- After an arrival every running job is the new job or a refreshed running job, and every
waiting job is the new job, a job that waited before, or a refreshed running job (the
victim). -/
theorem new_job_origin (s : scheduler_t) (job_number time running_time priority : Int)
    (hpos : 0 < s.core_array.length) :
    ∃ (s1 : scheduler_t) (r : Int),
      scheduler_new_job s job_number time running_time priority = some (s1, r) ∧
      (∀ j1 ∈ running_jobs s1,
        j1 = { make_job job_number time running_time priority with last_start_time := time } ∨
        ∃ j ∈ running_jobs s, j1 = refresh_job time j) ∧
      (∀ j1 ∈ s1.priqueue.elems,
        j1 = make_job job_number time running_time priority ∨ j1 ∈ s.priqueue.elems ∨
        ∃ j ∈ running_jobs s, j1 = refresh_job time j) := by
  obtain ⟨s1, r, heq, _, hcases⟩ :=
    new_job_shape s job_number time running_time priority hpos
  refine ⟨s1, r, heq, ?_, ?_⟩
  · intro j1 hj1
    simp only [running_jobs] at hj1
    rcases hcases with ⟨c, _, hc, _⟩ | ⟨hc, _⟩ | ⟨c, v, _, hc, _⟩
    · rw [hc] at hj1
      rcases mem_filterMap_set _ c _ j1 hj1 with h1 | h1
      · simp only [Option.some.injEq] at h1
        exact Or.inl h1.symm
      · exact Or.inr (mem_running_refresh s time j1 h1)
    · rw [hc] at hj1
      exact Or.inr (mem_running_refresh s time j1 hj1)
    · rw [hc] at hj1
      rcases mem_filterMap_set _ c _ j1 hj1 with h1 | h1
      · simp only [Option.some.injEq] at h1
        exact Or.inl h1.symm
      · exact Or.inr (mem_running_refresh s time j1 h1)
  · intro j1 hj1
    rcases hcases with ⟨c, _, _, hq⟩ | ⟨_, hq⟩ | ⟨c, v, hv, _, hq⟩
    · rw [hq] at hj1
      exact Or.inr (Or.inl hj1)
    · rw [hq] at hj1
      rcases mem_offer _ _ j1 hj1 with h1 | h1
      · exact Or.inl h1
      · exact Or.inr (Or.inl h1)
    · rw [hq] at hj1
      rcases mem_offer _ _ j1 hj1 with h1 | h1
      · rw [h1]
        exact Or.inr (Or.inr (mem_running_refresh s time v (mem_filterMap_of_get _ c v hv)))
      · exact Or.inr (Or.inl h1)

/-- After a completion every running job ran before or is a dispatched waiting job, and
every waiting job waited before. -/
theorem job_finished_origin (s : scheduler_t) (core_id : Nat) (job_number time : Int)
    (old : job_t) (h : s.core_array[core_id]? = some (some old)) :
    ∃ (s1 : scheduler_t) (r : Int),
      scheduler_job_finished s core_id job_number time = some (s1, r) ∧
      (∀ j1 ∈ running_jobs s1,
        j1 ∈ running_jobs s ∨ ∃ w ∈ s.priqueue.elems, j1 = dispatched time w) ∧
      (∀ j1 ∈ s1.priqueue.elems, j1 ∈ s.priqueue.elems) := by
  obtain ⟨s1, r, heq, _, _, hcases⟩ := job_finished_shape s core_id job_number time old h
  refine ⟨s1, r, heq, ?_, ?_⟩
  · intro j1 hj1
    simp only [running_jobs] at hj1
    rcases hcases with ⟨_, _, hc⟩ | ⟨w, rest, hq, _, hc⟩
    · rw [hc] at hj1
      rcases mem_filterMap_set _ core_id _ j1 hj1 with h1 | h1
      · cases h1
      · exact Or.inl h1
    · rw [hc] at hj1
      rcases mem_filterMap_set _ core_id _ j1 hj1 with h1 | h1
      · simp only [Option.some.injEq] at h1
        exact Or.inr ⟨w, by rw [hq]; exact List.mem_cons_self _ _, h1.symm⟩
      · exact Or.inl h1
  · intro j1 hj1
    rcases hcases with ⟨_, hq1, _⟩ | ⟨w, rest, hq, hq1, _⟩
    · rw [hq1] at hj1
      cases hj1
    · rw [hq1] at hj1
      rw [hq]
      exact List.mem_cons_of_mem _ hj1

/-- After a quantum expiry every running job is a refreshed running job or the dispatched
front of the queue, which waited before or is the refreshed expired job; every waiting job
waited before or is the refreshed expired job. -/
theorem quantum_expired_origin (s : scheduler_t) (core_id : Nat) (time : Int) (old : job_t)
    (h : s.core_array[core_id]? = some (some old)) :
    ∃ (s1 : scheduler_t) (r : Int),
      scheduler_quantum_expired s core_id time = some (s1, r) ∧
      (∀ j1 ∈ running_jobs s1,
        (∃ j ∈ running_jobs s, j1 = refresh_job time j) ∨
        (∃ w ∈ s.priqueue.elems, j1 = dispatched time w) ∨
        (∃ j ∈ running_jobs s, j1 = dispatched time (refresh_job time j))) ∧
      (∀ j1 ∈ s1.priqueue.elems,
        j1 ∈ s.priqueue.elems ∨ ∃ j ∈ running_jobs s, j1 = refresh_job time j) := by
  obtain ⟨s1, w, rest, heq, _, _, hoff, hq1, hc⟩ := quantum_expired_shape s core_id time old h
  have hold : old ∈ running_jobs s := mem_filterMap_of_get _ core_id old h
  have hfrom : ∀ x ∈ w :: rest, x ∈ s.priqueue.elems ∨ x = refresh_job time old := by
    intro x hx
    rw [← hoff] at hx
    rcases mem_offer _ _ x hx with h1 | h1
    · exact Or.inr h1
    · exact Or.inl h1
  refine ⟨s1, w.id, heq, ?_, ?_⟩
  · intro j1 hj1
    simp only [running_jobs] at hj1
    rw [hc] at hj1
    rcases mem_filterMap_set _ core_id _ j1 hj1 with h1 | h1
    · simp only [Option.some.injEq] at h1
      rcases hfrom w (List.mem_cons_self _ _) with h2 | h2
      · exact Or.inr (Or.inl ⟨w, h2, h1.symm⟩)
      · exact Or.inr (Or.inr ⟨old, hold, by rw [← h1, h2]⟩)
    · exact Or.inl (mem_running_refresh s time j1 h1)
  · intro j1 hj1
    rw [hq1] at hj1
    rcases hfrom j1 (List.mem_cons_of_mem _ hj1) with h2 | h2
    · exact Or.inl h2
    · exact Or.inr ⟨old, hold, h2⟩

/-! ## Properties of every job kept by the three events -/

theorem job_finished_some_occupied (s : scheduler_t) (core_id : Nat) (job_number time : Int)
    (x : scheduler_t × Int) (h : scheduler_job_finished s core_id job_number time = some x) :
    ∃ old, s.core_array[core_id]? = some (some old) := by
  unfold scheduler_job_finished at h
  split at h
  · rename_i old hold
    exact ⟨old, hold⟩
  · cases h

theorem quantum_expired_some_occupied (s : scheduler_t) (core_id : Nat) (time : Int)
    (x : scheduler_t × Int) (h : scheduler_quantum_expired s core_id time = some x) :
    ∃ old, s.core_array[core_id]? = some (some old) := by
  unfold scheduler_quantum_expired at h
  simp only [] at h
  split at h
  · rename_i old hold
    simp only [updateRemainingTimes, List.getElem?_map] at hold
    cases ho : s.core_array[core_id]? with
    | none => simp [ho] at hold
    | some y =>
      cases y with
      | none => simp [ho] at hold
      | some j => exact ⟨j, rfl⟩
  · cases h

/-- A property of jobs that holds for a newly made job and is kept by refreshing and by
dispatching holds for every job after an event if it held for every job before. -/
theorem jobs_property_step (P : job_t → Prop)
    (hnew : ∀ jn t rt p : Int,
      P (make_job jn t rt p) ∧ P { make_job jn t rt p with last_start_time := t })
    (href : ∀ (t : Int) (j : job_t), P j → P (refresh_job t j))
    (hdis : ∀ (t : Int) (j : job_t), P j → P (dispatched t j))
    (s : scheduler_t) (e : event_t) (s1 : scheduler_t) (r : Int)
    (hpos : 0 < s.core_array.length) (hstep : step s e = some (s1, r))
    (hP : ∀ j ∈ jobs_of s, P j) : ∀ j ∈ jobs_of s1, P j := by
  have hrun : ∀ j ∈ running_jobs s, P j := fun j hj => hP j (List.mem_append_left _ hj)
  have hwait : ∀ j ∈ s.priqueue.elems, P j := fun j hj => hP j (List.mem_append_right _ hj)
  intro j1 hj1
  cases e with
  | new_job job_number time running_time priority =>
    obtain ⟨s1b, rb, heq, horun, howait⟩ :=
      new_job_origin s job_number time running_time priority hpos
    simp only [step] at hstep
    rw [hstep] at heq
    simp only [Option.some.injEq, Prod.mk.injEq] at heq
    obtain ⟨hs1, _⟩ := heq
    subst hs1
    rcases List.mem_append.mp hj1 with h1 | h1
    · rcases horun j1 h1 with h2 | ⟨j, hj, h2⟩
      · rw [h2]; exact (hnew _ _ _ _).2
      · rw [h2]; exact href _ _ (hrun j hj)
    · rcases howait j1 h1 with h2 | h2 | ⟨j, hj, h2⟩
      · rw [h2]; exact (hnew _ _ _ _).1
      · exact hwait j1 h2
      · rw [h2]; exact href _ _ (hrun j hj)
  | job_finished core_id job_number time =>
    simp only [step] at hstep
    obtain ⟨old, hold⟩ := job_finished_some_occupied s core_id job_number time _ hstep
    obtain ⟨s1b, rb, heq, horun, howait⟩ :=
      job_finished_origin s core_id job_number time old hold
    rw [hstep] at heq
    simp only [Option.some.injEq, Prod.mk.injEq] at heq
    obtain ⟨hs1, _⟩ := heq
    subst hs1
    rcases List.mem_append.mp hj1 with h1 | h1
    · rcases horun j1 h1 with h2 | ⟨w, hw, h2⟩
      · exact hrun j1 h2
      · rw [h2]; exact hdis _ _ (hwait w hw)
    · exact hwait j1 (howait j1 h1)
  | quantum_expired core_id time =>
    simp only [step] at hstep
    obtain ⟨old, hold⟩ := quantum_expired_some_occupied s core_id time _ hstep
    obtain ⟨s1b, rb, heq, horun, howait⟩ := quantum_expired_origin s core_id time old hold
    rw [hstep] at heq
    simp only [Option.some.injEq, Prod.mk.injEq] at heq
    obtain ⟨hs1, _⟩ := heq
    subst hs1
    rcases List.mem_append.mp hj1 with h1 | h1
    · rcases horun j1 h1 with ⟨j, hj, h2⟩ | ⟨w, hw, h2⟩ | ⟨j, hj, h2⟩
      · rw [h2]; exact href _ _ (hrun j hj)
      · rw [h2]; exact hdis _ _ (hwait w hw)
      · rw [h2]; exact hdis _ _ (href _ _ (hrun j hj))
    · rcases howait j1 h1 with h2 | ⟨j, hj, h2⟩
      · exact hwait j1 h2
      · rw [h2]; exact href _ _ (hrun j hj)

theorem jobs_property_run (P : job_t → Prop)
    (hnew : ∀ jn t rt p : Int,
      P (make_job jn t rt p) ∧ P { make_job jn t rt p with last_start_time := t })
    (href : ∀ (t : Int) (j : job_t), P j → P (refresh_job t j))
    (hdis : ∀ (t : Int) (j : job_t), P j → P (dispatched t j))
    (es : List event_t) (s : scheduler_t) (g : ledger)
    (hinv : ids_accounted s g) (hv : each_event valid_event s g es = true)
    (hP : ∀ j ∈ jobs_of s, P j) :
    ∃ (s2 : scheduler_t) (rs : List Int), run s es = some (s2, rs) ∧
      ∀ j ∈ jobs_of s2, P j := by
  induction es generalizing s g with
  | nil => exact ⟨s, [], rfl, hP⟩
  | cons e rest ih =>
    simp only [each_event, Bool.and_eq_true] at hv
    obtain ⟨hv1, hv2⟩ := hv
    obtain ⟨s1, r, hstep, hinv1⟩ := ids_accounted_step s g e hinv hv1
    simp only [hstep] at hv2
    have hP1 := jobs_property_step P hnew href hdis s e s1 r hinv.1 hstep hP
    obtain ⟨s2, rs, hrun, hP2⟩ := ih s1 (track s g e) hinv1 hv2 hP1
    exact ⟨s2, r :: rs, by simp only [run, hstep, hrun], hP2⟩

theorem ids_accounted_start_up (cores : Nat) (scheme : scheme_t) (hc : 0 < cores) :
    ids_accounted (scheduler_start_up cores scheme) ledger.start := by
  refine ⟨by simpa [scheduler_start_up] using hc, ?_, ?_⟩
  · intro x
    simp [job_ids, fields_eq, scheduler_start_up, priqueue_init, ledger.start]
  · intro x hx
    simp [ledger.start] at hx

theorem jobs_of_start_up (cores : Nat) (scheme : scheme_t) :
    jobs_of (scheduler_start_up cores scheme) = [] := by
  simp [jobs_of, running_jobs, scheduler_start_up, priqueue_init]

/-! ## The latency of the first dispatch -/

/-- C12 as stated fails: on one PSJF core, job 2 (arrival 1) is first placed on the core at
time 5, where its `time_to_schedule` becomes 4; job 3 arriving at time 5 sends it back to
the queue with `used_time` still 0, and its next dispatch at time 7 changes its
`time_to_schedule` to 6. All events are valid and in non-decreasing time. -/
theorem latency_rewritten_on_redispatch :
    each_event in_order_event (scheduler_start_up 1 .PSJF) ledger.start ex_redispatch = true ∧
    (run (scheduler_start_up 1 .PSJF) (ex_redispatch.take 3)).map
        (fun x => (latencies x.1, x.2)) = some ([some (2, 0, 4)], [0, -1, 2]) ∧
    (run (scheduler_start_up 1 .PSJF) (ex_redispatch.take 4)).map
        (fun x => (latencies x.1, x.2)) = some ([some (3, 0, 0)], [0, -1, 2, 0]) ∧
    (run (scheduler_start_up 1 .PSJF) (ex_redispatch.take 4)).map
        (fun x => waiting_latencies x.1) = some [(2, 0, 4)] ∧
    (run (scheduler_start_up 1 .PSJF) ex_redispatch).map
        (fun x => (latencies x.1, x.2)) = some ([some (2, 0, 6)], [0, -1, 2, 0, 2]) := by
  refine ⟨by decide, by decide, by decide, by decide, by decide⟩

theorem keeps_latency_refl (j : job_t) : keeps_latency j j :=
  ⟨rfl, fun h => ⟨rfl, h⟩⟩

theorem keeps_latency_trans (a b c : job_t) (h1 : keeps_latency a b) (h2 : keeps_latency b c) :
    keeps_latency a c := by
  refine ⟨h1.1.trans h2.1, ?_⟩
  intro ha
  obtain ⟨e1, u1⟩ := h1.2 ha
  obtain ⟨e2, u2⟩ := h2.2 u1
  exact ⟨e2.trans e1, u2⟩

theorem keeps_latency_refresh (t : Int) (j : job_t) (h : j.last_start_time ≤ t) :
    keeps_latency j (refresh_job t j) := by
  refine ⟨rfl, ?_⟩
  intro hu
  refine ⟨rfl, ?_⟩
  simp only [refresh_job]
  omega

theorem keeps_latency_dispatched (t : Int) (j : job_t) :
    keeps_latency j (dispatched t j) := by
  refine ⟨rfl, ?_⟩
  intro hu
  have hne : ¬ j.used_time = 0 := by omega
  simp [dispatched, hne, hu]

theorem track_now (s : scheduler_t) (g : ledger) (e : event_t) :
    (track s g e).now = event_time e := by
  cases e with
  | new_job a b c d => rfl
  | quantum_expired a b => rfl
  | job_finished c a b =>
    simp only [track, event_time]
    split <;> rfl

theorem track_arrived (s : scheduler_t) (g : ledger) (e : event_t) (x : Int)
    (h : x ∈ g.arrived) : x ∈ (track s g e).arrived := by
  cases e with
  | new_job a b c d => exact List.mem_cons_of_mem _ h
  | quantum_expired a b => exact h
  | job_finished c a b =>
    simp only [track]
    split <;> exact h

theorem mem_arrived_of_mem (s : scheduler_t) (g : ledger) (h : ids_accounted s g)
    (j : job_t) (hj : j ∈ jobs_of s) : j.id ∈ g.arrived := by
  have hc := h.2.1 j.id
  have hpos : 0 < (job_ids s).count j.id :=
    List.count_pos_iff.mpr (List.mem_map_of_mem _ hj)
  by_contra hn
  simp only [hn, false_and, if_false] at hc
  omega

theorem unique_by_id (s : scheduler_t) (g : ledger) (h : ids_accounted s g)
    (j j0 : job_t) (hj : j ∈ jobs_of s) (hj0 : j0 ∈ jobs_of s) (hid : j.id = j0.id) :
    j = j0 := by
  have hnd : (job_ids s).Nodup := by
    rw [List.nodup_iff_count_le_one]
    intro x
    rw [h.2.1 x]
    split <;> omega
  exact List.inj_on_of_nodup_map hnd hj hj0 hid

theorem dispatched_unused (t : Int) (w : job_t) (h : (dispatched t w).used_time = 0) :
    (dispatched t w).time_to_schedule = t - (dispatched t w).arrival_time := by
  have hw : w.used_time = 0 := h
  simp [dispatched, hw]

theorem refresh_unused (t : Int) (j : job_t) (h0 : 0 ≤ j.used_time)
    (hl : j.last_start_time ≤ t) (hu : (refresh_job t j).used_time = 0) :
    j.used_time = 0 ∧ t = j.last_start_time := by
  simp only [refresh_job] at hu
  constructor <;> omega

theorem refresh_used_nonneg (t : Int) (j : job_t) (h0 : 0 ≤ j.used_time)
    (hl : j.last_start_time ≤ t) : 0 ≤ (refresh_job t j).used_time := by
  simp only [refresh_job]
  omega

theorem refresh_placement (t : Int) (j : job_t) (h0 : 0 ≤ j.used_time)
    (hl : j.last_start_time ≤ t)
    (hp : j.used_time = 0 → j.time_to_schedule = j.last_start_time - j.arrival_time)
    (hu : (refresh_job t j).used_time = 0) :
    (refresh_job t j).time_to_schedule =
      (refresh_job t j).last_start_time - (refresh_job t j).arrival_time := by
  obtain ⟨h1, h2⟩ := refresh_unused t j h0 hl hu
  have := hp h1
  simp only [refresh_job]
  omega

theorem dispatched_placement (t : Int) (w : job_t) (h : (dispatched t w).used_time = 0) :
    (dispatched t w).time_to_schedule =
      (dispatched t w).last_start_time - (dispatched t w).arrival_time :=
  dispatched_unused t w h

theorem latency_rule_same (s s1 : scheduler_t) (t : Int) (j j1 : job_t) (hid : j1.id = j.id)
    (ha : j1.arrival_time = j.arrival_time) (ht : j1.time_to_schedule = j.time_to_schedule) :
    latency_rule s s1 t j j1 :=
  ⟨hid, ha, Or.inl ht⟩

theorem latency_rule_dispatched (s s1 : scheduler_t) (t : Int) (w : job_t)
    (hw : w ∈ s.priqueue.elems) (h1 : dispatched t w ∈ running_jobs s1) :
    latency_rule s s1 t w (dispatched t w) := by
  refine ⟨rfl, rfl, ?_⟩
  by_cases hu : w.used_time = 0
  · right
    exact ⟨hw, hu, h1, by simp [dispatched, hu]⟩
  · left
    simp [dispatched, hu]

theorem latency_rule_redispatched (s s1 : scheduler_t) (t : Int) (j : job_t)
    (h0 : 0 ≤ j.used_time) (hl : j.last_start_time ≤ t)
    (hp : j.used_time = 0 → j.time_to_schedule = j.last_start_time - j.arrival_time) :
    latency_rule s s1 t j (dispatched t (refresh_job t j)) := by
  refine ⟨rfl, rfl, Or.inl ?_⟩
  by_cases hu : (refresh_job t j).used_time = 0
  · obtain ⟨h1, h2⟩ := refresh_unused t j h0 hl hu
    have := hp h1
    have e : (dispatched t (refresh_job t j)).time_to_schedule =
        t - (refresh_job t j).arrival_time := by simp [dispatched, hu]
    rw [e]
    simp only [refresh_job]
    omega
  · have e : (dispatched t (refresh_job t j)).time_to_schedule =
        (refresh_job t j).time_to_schedule := by simp [dispatched, hu]
    rw [e]
    rfl

/-- One event of a trace in time order: the state stays consistent; every job afterwards
is a newly arrived one or continues a job of the state before; a job that the event puts
on a core with `used_time = 0` has `time_to_schedule = time - arrival_time`; and every job
afterwards is the newly arrived one, with latency 0, or follows `latency_rule`. -/
theorem latency_step (s : scheduler_t) (g : ledger) (e : event_t) (hinv : in_order s g)
    (hv : in_order_event s g e = true) :
    ∃ (s1 : scheduler_t) (r : Int), step s e = some (s1, r) ∧
      in_order s1 (track s g e) ∧
      (∀ j1 ∈ jobs_of s1, j1.id ∉ g.arrived ∨ ∃ j ∈ jobs_of s, keeps_latency j j1) ∧
      (∀ j1 ∈ running_jobs s1, j1.id ∉ (running_jobs s).map job_t.id → j1.used_time = 0 →
        j1.time_to_schedule = event_time e - j1.arrival_time) ∧
      (∀ j1 ∈ jobs_of s1,
        (j1.id ∉ g.arrived ∧ j1.time_to_schedule = 0 ∧ j1.used_time = 0 ∧
          j1.arrival_time = event_time e) ∨
        ∃ j ∈ jobs_of s, latency_rule s s1 (event_time e) j j1) := by
  simp only [in_order_event, Bool.and_eq_true, decide_eq_true_eq] at hv
  obtain ⟨hv1, hv2⟩ := hv
  obtain ⟨hacc, hlast, hused, hplaced⟩ := hinv
  obtain ⟨s1, r, hstep, hacc1⟩ := ids_accounted_step s g e hacc hv1
  have hin_run : ∀ j ∈ running_jobs s, j ∈ jobs_of s :=
    fun j hj => List.mem_append_left _ hj
  have hin_wait : ∀ j ∈ s.priqueue.elems, j ∈ jobs_of s :=
    fun j hj => List.mem_append_right _ hj
  have hle : ∀ j ∈ running_jobs s, j.last_start_time ≤ event_time e :=
    fun j hj => by have := hlast j hj; omega
  have hrefresh : ∀ j ∈ running_jobs s, keeps_latency j (refresh_job (event_time e) j) :=
    fun j hj => keeps_latency_refresh _ j (hle j hj)
  have hrun0 : ∀ j ∈ running_jobs s, 0 ≤ (refresh_job (event_time e) j).used_time :=
    fun j hj => refresh_used_nonneg _ j (hused j (hin_run j hj)) (hle j hj)
  have hrunp : ∀ j ∈ running_jobs s, (refresh_job (event_time e) j).used_time = 0 →
      (refresh_job (event_time e) j).time_to_schedule =
        (refresh_job (event_time e) j).last_start_time -
          (refresh_job (event_time e) j).arrival_time :=
    fun j hj => refresh_placement _ j (hused j (hin_run j hj)) (hle j hj) (hplaced j hj)
  have hrule : ∀ (s2 : scheduler_t), ∀ j ∈ running_jobs s,
      latency_rule s s2 (event_time e) j (refresh_job (event_time e) j) :=
    fun s2 j _ => latency_rule_same s s2 _ j _ rfl rfl rfl
  have hid_run : ∀ j ∈ running_jobs s, j.id ∈ (running_jobs s).map job_t.id :=
    fun j hj => List.mem_map_of_mem _ hj
  refine ⟨s1, r, hstep, ?_⟩
  cases e with
  | new_job job_number time running_time priority =>
    simp only [valid_event, decide_eq_true_eq] at hv1
    simp only [event_time] at hv2 hrefresh hrun0 hrunp hrule hle ⊢
    obtain ⟨s1b, rb, heq, horun, howait⟩ :=
      new_job_origin s job_number time running_time priority hacc.1
    simp only [step] at hstep
    rw [hstep] at heq
    simp only [Option.some.injEq, Prod.mk.injEq] at heq
    obtain ⟨hs1, _⟩ := heq
    subst hs1
    refine ⟨⟨hacc1, ?_, ?_, ?_⟩, ?_, ?_, ?_⟩
    · intro j1 hj1
      rw [track_now]
      rcases horun j1 hj1 with h2 | ⟨j, hj, h2⟩ <;> rw [h2] <;> exact le_refl _
    · intro j1 hj1
      rcases List.mem_append.mp hj1 with h1 | h1
      · rcases horun j1 h1 with h2 | ⟨j, hj, h2⟩
        · rw [h2]; exact le_refl _
        · rw [h2]; exact hrun0 j hj
      · rcases howait j1 h1 with h2 | h2 | ⟨j, hj, h2⟩
        · rw [h2]; exact le_refl _
        · exact hused j1 (hin_wait j1 h2)
        · rw [h2]; exact hrun0 j hj
    · intro j1 hj1
      rcases horun j1 hj1 with h2 | ⟨j, hj, h2⟩
      · rw [h2]
        intro _
        simp [make_job]
      · rw [h2]; exact hrunp j hj
    · intro j1 hj1
      rcases List.mem_append.mp hj1 with h1 | h1
      · rcases horun j1 h1 with h2 | ⟨j, hj, h2⟩
        · left; rw [h2]; exact hv1
        · right; exact ⟨j, hin_run j hj, h2 ▸ hrefresh j hj⟩
      · rcases howait j1 h1 with h2 | h2 | ⟨j, hj, h2⟩
        · left; rw [h2]; exact hv1
        · right; exact ⟨j1, hin_wait j1 h2, keeps_latency_refl j1⟩
        · right; exact ⟨j, hin_run j hj, h2 ▸ hrefresh j hj⟩
    · intro j1 hj1 hnot _
      rcases horun j1 hj1 with h2 | ⟨j, hj, h2⟩
      · rw [h2]
        simp [make_job]
      · exact absurd (by rw [h2]; exact hid_run j hj) hnot
    · intro j1 hj1
      rcases List.mem_append.mp hj1 with h1 | h1
      · rcases horun j1 h1 with h2 | ⟨j, hj, h2⟩
        · left; rw [h2]; exact ⟨hv1, rfl, rfl, rfl⟩
        · right; exact ⟨j, hin_run j hj, h2 ▸ hrule _ j hj⟩
      · rcases howait j1 h1 with h2 | h2 | ⟨j, hj, h2⟩
        · left; rw [h2]; exact ⟨hv1, rfl, rfl, rfl⟩
        · right; exact ⟨j1, hin_wait j1 h2, latency_rule_same _ _ _ _ _ rfl rfl rfl⟩
        · right; exact ⟨j, hin_run j hj, h2 ▸ hrule _ j hj⟩
  | job_finished core_id job_number time =>
    simp only [valid_event] at hv1
    simp only [event_time] at hv2 hrefresh hrun0 hrunp hrule hle ⊢
    obtain ⟨old, hold⟩ := (occupied_iff s core_id).mp hv1
    obtain ⟨s1b, rb, heq, horun, howait⟩ :=
      job_finished_origin s core_id job_number time old hold
    simp only [step] at hstep
    rw [hstep] at heq
    simp only [Option.some.injEq, Prod.mk.injEq] at heq
    obtain ⟨hs1, _⟩ := heq
    subst hs1
    refine ⟨⟨hacc1, ?_, ?_, ?_⟩, ?_, ?_, ?_⟩
    · intro j1 hj1
      rw [track_now]
      simp only [event_time]
      rcases horun j1 hj1 with h2 | ⟨w, hw, h2⟩
      · have := hlast j1 h2
        omega
      · rw [h2]; exact le_refl _
    · intro j1 hj1
      rcases List.mem_append.mp hj1 with h1 | h1
      · rcases horun j1 h1 with h2 | ⟨w, hw, h2⟩
        · exact hused j1 (hin_run j1 h2)
        · rw [h2]; exact hused w (hin_wait w hw)
      · exact hused j1 (hin_wait j1 (howait j1 h1))
    · intro j1 hj1
      rcases horun j1 hj1 with h2 | ⟨w, hw, h2⟩
      · exact hplaced j1 h2
      · rw [h2]; exact dispatched_placement time w
    · intro j1 hj1
      right
      rcases List.mem_append.mp hj1 with h1 | h1
      · rcases horun j1 h1 with h2 | ⟨w, hw, h2⟩
        · exact ⟨j1, hin_run j1 h2, keeps_latency_refl j1⟩
        · exact ⟨w, hin_wait w hw, h2 ▸ keeps_latency_dispatched time w⟩
      · exact ⟨j1, hin_wait j1 (howait j1 h1), keeps_latency_refl j1⟩
    · intro j1 hj1 hnot hu
      rcases horun j1 hj1 with h2 | ⟨w, hw, h2⟩
      · exact absurd (hid_run j1 h2) hnot
      · rw [h2] at hu ⊢
        exact dispatched_unused time w hu
    · intro j1 hj1
      right
      rcases List.mem_append.mp hj1 with h1 | h1
      · rcases horun j1 h1 with h2 | ⟨w, hw, h2⟩
        · exact ⟨j1, hin_run j1 h2, latency_rule_same _ _ _ _ _ rfl rfl rfl⟩
        · exact ⟨w, hin_wait w hw, by
            subst h2
            exact latency_rule_dispatched _ _ time w hw h1⟩
      · exact ⟨j1, hin_wait j1 (howait j1 h1), latency_rule_same _ _ _ _ _ rfl rfl rfl⟩
  | quantum_expired core_id time =>
    simp only [valid_event] at hv1
    simp only [event_time] at hv2 hrefresh hrun0 hrunp hrule hle ⊢
    obtain ⟨old, hold⟩ := (occupied_iff s core_id).mp hv1
    obtain ⟨s1b, rb, heq, horun, howait⟩ := quantum_expired_origin s core_id time old hold
    simp only [step] at hstep
    rw [hstep] at heq
    simp only [Option.some.injEq, Prod.mk.injEq] at heq
    obtain ⟨hs1, _⟩ := heq
    subst hs1
    refine ⟨⟨hacc1, ?_, ?_, ?_⟩, ?_, ?_, ?_⟩
    · intro j1 hj1
      rw [track_now]
      rcases horun j1 hj1 with ⟨j, hj, h2⟩ | ⟨w, hw, h2⟩ | ⟨j, hj, h2⟩ <;> rw [h2] <;>
        exact le_refl _
    · intro j1 hj1
      rcases List.mem_append.mp hj1 with h1 | h1
      · rcases horun j1 h1 with ⟨j, hj, h2⟩ | ⟨w, hw, h2⟩ | ⟨j, hj, h2⟩
        · rw [h2]; exact hrun0 j hj
        · rw [h2]; exact hused w (hin_wait w hw)
        · rw [h2]; exact hrun0 j hj
      · rcases howait j1 h1 with h2 | ⟨j, hj, h2⟩
        · exact hused j1 (hin_wait j1 h2)
        · rw [h2]; exact hrun0 j hj
    · intro j1 hj1
      rcases horun j1 hj1 with ⟨j, hj, h2⟩ | ⟨w, hw, h2⟩ | ⟨j, hj, h2⟩
      · rw [h2]; exact hrunp j hj
      · rw [h2]; exact dispatched_placement time w
      · rw [h2]; exact dispatched_placement time _
    · intro j1 hj1
      right
      rcases List.mem_append.mp hj1 with h1 | h1
      · rcases horun j1 h1 with ⟨j, hj, h2⟩ | ⟨w, hw, h2⟩ | ⟨j, hj, h2⟩
        · exact ⟨j, hin_run j hj, h2 ▸ hrefresh j hj⟩
        · exact ⟨w, hin_wait w hw, h2 ▸ keeps_latency_dispatched time w⟩
        · exact ⟨j, hin_run j hj, h2 ▸ keeps_latency_trans _ _ _ (hrefresh j hj)
            (keeps_latency_dispatched time _)⟩
      · rcases howait j1 h1 with h2 | ⟨j, hj, h2⟩
        · exact ⟨j1, hin_wait j1 h2, keeps_latency_refl j1⟩
        · exact ⟨j, hin_run j hj, h2 ▸ hrefresh j hj⟩
    · intro j1 hj1 hnot hu
      rcases horun j1 hj1 with ⟨j, hj, h2⟩ | ⟨w, hw, h2⟩ | ⟨j, hj, h2⟩
      · exact absurd (by rw [h2]; exact hid_run j hj) hnot
      · rw [h2] at hu ⊢
        exact dispatched_unused time w hu
      · exact absurd (by rw [h2]; exact hid_run j hj) hnot
    · intro j1 hj1
      right
      rcases List.mem_append.mp hj1 with h1 | h1
      · rcases horun j1 h1 with ⟨j, hj, h2⟩ | ⟨w, hw, h2⟩ | ⟨j, hj, h2⟩
        · exact ⟨j, hin_run j hj, h2 ▸ hrule _ j hj⟩
        · exact ⟨w, hin_wait w hw, by
            subst h2
            exact latency_rule_dispatched _ _ time w hw h1⟩
        · exact ⟨j, hin_run j hj, by
            subst h2
            exact latency_rule_redispatched _ _ time j (hused j (hin_run j hj)) (hle j hj)
              (hplaced j hj)⟩
      · rcases howait j1 h1 with h2 | ⟨j, hj, h2⟩
        · exact ⟨j1, hin_wait j1 h2, latency_rule_same _ _ _ _ _ rfl rfl rfl⟩
        · exact ⟨j, hin_run j hj, h2 ▸ hrule _ j hj⟩

theorem latency_run (es : List event_t) (s : scheduler_t) (g : ledger) (hinv : in_order s g)
    (hv : each_event in_order_event s g es = true) :
    ∃ (s2 : scheduler_t) (rs : List Int), run s es = some (s2, rs) ∧
      in_order s2 (track_all s g es) ∧
      ∀ j2 ∈ jobs_of s2, j2.id ∉ g.arrived ∨ ∃ j ∈ jobs_of s, keeps_latency j j2 := by
  induction es generalizing s g with
  | nil => exact ⟨s, [], rfl, hinv, fun j2 hj2 => Or.inr ⟨j2, hj2, keeps_latency_refl j2⟩⟩
  | cons e rest ih =>
    simp only [each_event, Bool.and_eq_true] at hv
    obtain ⟨hv1, hv2⟩ := hv
    obtain ⟨s1, r, hstep, hinv1, hrel1, _⟩ := latency_step s g e hinv hv1
    simp only [hstep] at hv2
    obtain ⟨s2, rs, hrun, hinv2, hrel2⟩ := ih s1 (track s g e) hinv1 hv2
    refine ⟨s2, r :: rs, by simp only [run, hstep, hrun], by
      simp only [track_all, hstep]; exact hinv2, ?_⟩
    intro j2 hj2
    rcases hrel2 j2 hj2 with h | ⟨j1, hj1, hk1⟩
    · exact Or.inl (fun hc => h (track_arrived s g e _ hc))
    · rcases hrel1 j1 hj1 with h | ⟨j, hj, hk⟩
      · left
        rw [← hk1.1]
        exact h
      · exact Or.inr ⟨j, hj, keeps_latency_trans _ _ _ hk hk1⟩

theorem latency_split (es es2 : List event_t) (s : scheduler_t) (g : ledger)
    (hinv : in_order s g) (hv : each_event in_order_event s g (es ++ es2) = true) :
    ∃ (s1 : scheduler_t) (rs : List Int), run s es = some (s1, rs) ∧
      in_order s1 (track_all s g es) ∧
      each_event in_order_event s1 (track_all s g es) es2 = true := by
  induction es generalizing s g with
  | nil => exact ⟨s, [], rfl, hinv, hv⟩
  | cons e rest ih =>
    simp only [List.cons_append, each_event, Bool.and_eq_true] at hv
    obtain ⟨hv1, hv2⟩ := hv
    obtain ⟨s1, r, hstep, hinv1, _, _⟩ := latency_step s g e hinv hv1
    simp only [hstep] at hv2
    obtain ⟨s2, rs, hrun, hinv2, hv3⟩ := ih s1 (track s g e) hinv1 hv2
    exact ⟨s2, r :: rs, by simp only [run, hstep, hrun], by
      simp only [track_all, hstep]; exact hinv2, by
      simp only [track_all, hstep]; exact hv3⟩

theorem in_order_start_up (cores : Nat) (scheme : scheme_t) (hc : 0 < cores) :
    in_order (scheduler_start_up cores scheme) ledger.start := by
  have hnone : ∀ j, j ∉ jobs_of (scheduler_start_up cores scheme) := by
    intro j hj
    rw [jobs_of_start_up] at hj
    cases hj
  refine ⟨ids_accounted_start_up cores scheme hc, ?_, ?_, ?_⟩
  · intro j hj
    exact absurd (List.mem_append_left _ hj) (hnone j)
  · intro j hj
    exact absurd hj (hnone j)
  · intro j hj
    exact absurd (List.mem_append_left _ hj) (hnone j)

/-- C12 as amended: for every scheme, every positive number of cores and every trace
`es ++ es2` of valid events in non-decreasing time, both parts run, and with `s` the state
after `es` and `s2` the state after `es2` more:
(1) a job of `s` that has used processor time has in `s2`, if it is still in the system,
the `time_to_schedule` it had in `s`;
(2) when `es2` is a single event, a job that this event puts on a core (it was not running
in `s`) with `used_time = 0` has `time_to_schedule` equal to the time of the event minus
its `arrival_time`;
(3) when `es2` is a single event, every job of `s2` is either the job that just arrived
(its id is not in `s`; its `time_to_schedule` and `used_time` are 0 and its `arrival_time`
is the time of the event) or a job of `s` with the same id and `arrival_time`, whose
`time_to_schedule` is the one it had in `s` unless the event took it from the waiting queue
with `used_time = 0` and put it on a core, when it is the time of the event minus
`arrival_time`;
(4) in `s2` a job on a core that has not used any time has `time_to_schedule` equal to
`last_start_time - arrival_time`, the time of its placement minus its arrival time.
So the latency is 0 at arrival, is written at each placement from the waiting queue of a
job that has not used any time yet, is changed by nothing else, and is fixed from the
moment the job has used time. -/
theorem latency_fixed_after_use (cores : Nat) (scheme : scheme_t) (es es2 : List event_t)
    (hc : 0 < cores)
    (hv : each_event in_order_event (scheduler_start_up cores scheme) ledger.start
      (es ++ es2) = true) :
    ∃ (s : scheduler_t) (rs : List Int) (s2 : scheduler_t) (rs2 : List Int),
      run (scheduler_start_up cores scheme) es = some (s, rs) ∧
      run s es2 = some (s2, rs2) ∧
      (∀ j ∈ jobs_of s, 0 < j.used_time → ∀ j2 ∈ jobs_of s2, j2.id = j.id →
        j2.time_to_schedule = j.time_to_schedule) ∧
      (∀ e : event_t, es2 = [e] → ∀ j2 ∈ running_jobs s2,
        j2.id ∉ (running_jobs s).map job_t.id → j2.used_time = 0 →
        j2.time_to_schedule = event_time e - j2.arrival_time) ∧
      (∀ e : event_t, es2 = [e] → ∀ j2 ∈ jobs_of s2,
        (j2.id ∉ job_ids s ∧ j2.time_to_schedule = 0 ∧ j2.used_time = 0 ∧
          j2.arrival_time = event_time e) ∨
        ∃ j ∈ jobs_of s, latency_rule s s2 (event_time e) j j2) ∧
      (∀ j2 ∈ running_jobs s2, j2.used_time = 0 →
        j2.time_to_schedule = j2.last_start_time - j2.arrival_time) := by
  have h0 := in_order_start_up cores scheme hc
  obtain ⟨s, rs, hrun, hinv, hv2⟩ :=
    latency_split es es2 (scheduler_start_up cores scheme) ledger.start h0 hv
  obtain ⟨s2, rs2, hrun2, hinv2, hrel⟩ := latency_run es2 s _ hinv hv2
  refine ⟨s, rs, s2, rs2, hrun, hrun2, ?_, ?_, ?_, hinv2.2.2.2⟩
  · intro j hj hu j2 hj2 hid
    rcases hrel j2 hj2 with h | ⟨j0, hj0, hk⟩
    · exact absurd (hid ▸ mem_arrived_of_mem s _ hinv.1 j hj) h
    · have hsame : j0 = j := unique_by_id s _ hinv.1 j0 j hj0 hj (hk.1.trans hid)
      subst hsame
      exact (hk.2 hu).1
  · intro e he j2 hj2 hnot hu
    subst he
    simp only [each_event, Bool.and_eq_true] at hv2
    obtain ⟨s1, r, hstep, _, _, hplace, _⟩ := latency_step s _ e hinv hv2.1
    simp only [run, hstep, Option.some.injEq, Prod.mk.injEq] at hrun2
    obtain ⟨hs, _⟩ := hrun2
    subst hs
    exact hplace j2 hj2 hnot hu
  · intro e he j2 hj2
    subst he
    simp only [each_event, Bool.and_eq_true] at hv2
    obtain ⟨s1, r, hstep, _, _, _, hrule⟩ := latency_step s _ e hinv hv2.1
    simp only [run, hstep, Option.some.injEq, Prod.mk.injEq] at hrun2
    obtain ⟨hs, _⟩ := hrun2
    subst hs
    rcases hrule j2 hj2 with ⟨h1, h2, h3, h4⟩ | h
    · left
      refine ⟨?_, h2, h3, h4⟩
      intro hmem
      obtain ⟨j, hj, hid⟩ := List.mem_map.mp hmem
      exact h1 (hid ▸ mem_arrived_of_mem s _ hinv.1 j hj)
    · exact Or.inr h

/-- C12 as amended, at `ex_trace` on one PSJF core, split before its last event: job 1
waits having used 2 units, with latency 0, and keeps that latency when the completion of
job 3 at time 12 puts it back on the core. -/
theorem latency_fixed_after_use_witness :
    0 < 1 ∧
    each_event in_order_event (scheduler_start_up 1 .PSJF) ledger.start
      (ex_trace.take 5 ++ ex_trace.drop 5) = true ∧
    (run (scheduler_start_up 1 .PSJF) (ex_trace.take 5)).map
        (fun x => waiting_latencies x.1) = some [(1, 2, 0)] ∧
    (run (scheduler_start_up 1 .PSJF) ex_trace).map
        (fun x => latencies x.1) = some [some (1, 2, 0)] ∧
    ∃ (s : scheduler_t) (rs : List Int) (s2 : scheduler_t) (rs2 : List Int),
      run (scheduler_start_up 1 .PSJF) (ex_trace.take 5) = some (s, rs) ∧
      run s (ex_trace.drop 5) = some (s2, rs2) ∧
      (∀ j ∈ jobs_of s, 0 < j.used_time → ∀ j2 ∈ jobs_of s2, j2.id = j.id →
        j2.time_to_schedule = j.time_to_schedule) ∧
      (∀ e : event_t, ex_trace.drop 5 = [e] → ∀ j2 ∈ running_jobs s2,
        j2.id ∉ (running_jobs s).map job_t.id → j2.used_time = 0 →
        j2.time_to_schedule = event_time e - j2.arrival_time) ∧
      (∀ e : event_t, ex_trace.drop 5 = [e] → ∀ j2 ∈ jobs_of s2,
        (j2.id ∉ job_ids s ∧ j2.time_to_schedule = 0 ∧ j2.used_time = 0 ∧
          j2.arrival_time = event_time e) ∨
        ∃ j ∈ jobs_of s, latency_rule s s2 (event_time e) j j2) ∧
      (∀ j2 ∈ running_jobs s2, j2.used_time = 0 →
        j2.time_to_schedule = j2.last_start_time - j2.arrival_time) :=
  ⟨by decide, by decide, by decide, by decide,
    latency_fixed_after_use 1 .PSJF (ex_trace.take 5) (ex_trace.drop 5)
      (by decide) (by decide)⟩

/-! ## Quantum expiry never leaves an occupied core idle -/

theorem priqueue_offer_empty {α : Type} (q : priqueue_t α) (v : α) (h : q.elems = []) :
    (priqueue_offer q v).1.elems = [v] := by
  simp [priqueue_offer, h]

/-- C21 as stated fails: on one RR core, `scheduler_new_job` accepts the job number -1
and puts that job on core 0; when the quantum expires at time 4 the job is put back on the
core, which stays occupied, and the value returned is its id, -1. Both events are valid
for the interface. -/
theorem quantum_expired_returns_minus_one_on_busy_core :
    each_event valid_event (scheduler_start_up 1 .RR) ledger.start ex_minus_one = true ∧
    observe (run (scheduler_start_up 1 .RR) ex_minus_one) =
      some (([some { id := -1, arrival_time := 0, used_time := 4, remaining_time := 6,
                     needed_time := 10, last_start_time := 4, time_to_schedule := 0,
                     priority := 0 }], []), [0, -1]) := by
  refine ⟨by decide, by decide⟩

/-- C21 as amended: under RR, and under every other scheme as well, with job `r` on
`core_id`: if the waiting queue is empty, `scheduler_quantum_expired` puts the same job `r`
(refreshed to `time`) back on `core_id` with `last_start_time = time`, leaves the queue
empty and returns `r.id`. Whatever the queue holds, the call returns a result, the core
holds a job `w` afterwards (the refreshed `r` or a job that waited) and the value returned
is `w.id`: the branch that returns -1 for a core left idle is not taken, and the value
returned differs from -1 as long as no job of the system carries the id -1. -/
theorem quantum_expired_keeps_core_busy (s : scheduler_t) (core_id : Nat) (time : Int)
    (r : job_t) (hr : s.core_array[core_id]? = some (some r)) :
    (s.priqueue.elems = [] →
      ∃ s1 : scheduler_t,
        scheduler_quantum_expired s core_id time = some (s1, r.id) ∧
        s1.core_array[core_id]? = some (some (dispatched time (refresh_job time r))) ∧
        (dispatched time (refresh_job time r)).id = r.id ∧
        (dispatched time (refresh_job time r)).last_start_time = time ∧
        s1.priqueue.elems = []) ∧
    (∃ (s1 : scheduler_t) (w : job_t),
      scheduler_quantum_expired s core_id time = some (s1, w.id) ∧
      s1.core_array[core_id]? = some (some (dispatched time w)) ∧
      (w = refresh_job time r ∨ w ∈ s.priqueue.elems) ∧
      ((∀ j ∈ jobs_of s, j.id ≠ -1) → w.id ≠ -1)) := by
  have hlt : core_id < s.core_array.length := getElem?_lt _ _ _ hr
  constructor
  · intro hq
    obtain ⟨s2, heq, hq2, _, hc2⟩ := quantum_expired_eq s core_id time r hr
    have hel : s2.priqueue.elems = refresh_job time r :: [] := by
      rw [hq2]
      exact priqueue_offer_empty s.priqueue _ hq
    rw [install_next_cons s2 core_id time (refresh_job time r) [] hel] at heq
    refine ⟨_, heq, ?_, rfl, rfl, rfl⟩
    simp [hc2, hlt, updateRemainingTimes]
  · obtain ⟨s1, w, rest, heq, _, _, hoff, _, hc⟩ := quantum_expired_shape s core_id time r hr
    have hw : w = refresh_job time r ∨ w ∈ s.priqueue.elems :=
      mem_offer s.priqueue _ w (by rw [hoff]; exact List.mem_cons_self _ _)
    refine ⟨s1, w, heq, by rw [hc]; simp [hlt], hw, ?_⟩
    intro hids
    rcases hw with h | h
    · rw [h]
      exact hids r (List.mem_append_left _ (mem_filterMap_of_get _ core_id r hr))
    · exact hids w (List.mem_append_right _ h)

/-- C21 at `ex_rr_alone`: the quantum of job 1, alone on one RR core, expires at time 4;
job 1 stays on core 0 with `last_start_time = 4`, the queue stays empty and 1 is
returned. -/
theorem quantum_expired_keeps_core_busy_witness :
    ex_rr_alone.core_array[0]? = some (some { make_job 1 0 10 0 with last_start_time := 0 }) ∧
    ex_rr_alone.scheme = .RR ∧
    observe (scheduler_quantum_expired ex_rr_alone 0 4) =
      some (([some { id := 1, arrival_time := 0, used_time := 4, remaining_time := 6,
                     needed_time := 10, last_start_time := 4, time_to_schedule := 0,
                     priority := 0 }], []), 1) ∧
    ((ex_rr_alone.priqueue.elems = [] →
      ∃ s1 : scheduler_t,
        scheduler_quantum_expired ex_rr_alone 0 4 =
          some (s1, ({ make_job 1 0 10 0 with last_start_time := 0 } : job_t).id) ∧
        s1.core_array[0]? = some (some (dispatched 4
          (refresh_job 4 { make_job 1 0 10 0 with last_start_time := 0 }))) ∧
        (dispatched 4 (refresh_job 4 { make_job 1 0 10 0 with last_start_time := 0 })).id =
          ({ make_job 1 0 10 0 with last_start_time := 0 } : job_t).id ∧
        (dispatched 4
          (refresh_job 4 { make_job 1 0 10 0 with last_start_time := 0 })).last_start_time = 4 ∧
        s1.priqueue.elems = []) ∧
    (∃ (s1 : scheduler_t) (w : job_t),
      scheduler_quantum_expired ex_rr_alone 0 4 = some (s1, w.id) ∧
      s1.core_array[0]? = some (some (dispatched 4 w)) ∧
      (w = refresh_job 4 { make_job 1 0 10 0 with last_start_time := 0 } ∨
        w ∈ ex_rr_alone.priqueue.elems) ∧
      ((∀ j ∈ jobs_of ex_rr_alone, j.id ≠ -1) → w.id ≠ -1))) :=
  ⟨rfl, rfl, by decide,
    quantum_expired_keeps_core_busy ex_rr_alone 0 4
      { make_job 1 0 10 0 with last_start_time := 0 } rfl⟩

/-! ## Rounding to binary32 -/

theorem round_even_intCast (n : Int) : round_even (n : ℚ) = n := by
  simp [round_even]

theorem round_even_cases (y : ℚ) : round_even y = ⌊y⌋ ∨ round_even y = ⌊y⌋ + 1 := by
  unfold round_even
  split
  · exact Or.inl rfl
  · split
    · exact Or.inr rfl
    · split
      · exact Or.inl rfl
      · exact Or.inr rfl

theorem round_even_nearest (y : ℚ) (m : Int) :
    |(round_even y : ℚ) - y| ≤ |(m : ℚ) - y| := by
  have h1 : (⌊y⌋ : ℚ) ≤ y := Int.floor_le y
  have h2 : y < (⌊y⌋ : ℚ) + 1 := Int.lt_floor_add_one y
  have hm : m ≤ ⌊y⌋ ∨ ⌊y⌋ + 1 ≤ m := by omega
  have hm2 : (m : ℚ) ≤ (⌊y⌋ : ℚ) ∨ (⌊y⌋ : ℚ) + 1 ≤ (m : ℚ) := by
    rcases hm with h | h
    · exact Or.inl (by exact_mod_cast h)
    · exact Or.inr (by exact_mod_cast h)
  unfold round_even
  split
  · rename_i hd
    rw [abs_le]
    rcases hm2 with h | h
    · rw [abs_of_nonpos (by linarith)]
      constructor <;> linarith
    · rw [abs_of_nonneg (by linarith)]
      constructor <;> linarith
  · rename_i hd
    split
    · rename_i hd2
      push_cast
      rw [abs_le]
      rcases hm2 with h | h
      · rw [abs_of_nonpos (by linarith)]
        constructor <;> linarith
      · rw [abs_of_nonneg (by linarith)]
        constructor <;> linarith
    · rename_i hd2
      have heq : y - (⌊y⌋ : ℚ) = 1 / 2 := le_antisymm (not_lt.mp hd2) (not_lt.mp hd)
      split
      · rw [abs_le]
        rcases hm2 with h | h
        · rw [abs_of_nonpos (by linarith)]
          constructor <;> linarith
        · rw [abs_of_nonneg (by linarith)]
          constructor <;> linarith
      · push_cast
        rw [abs_le]
        rcases hm2 with h | h
        · rw [abs_of_nonpos (by linarith)]
          constructor <;> linarith
        · rw [abs_of_nonneg (by linarith)]
          constructor <;> linarith

theorem round_even_error (y : ℚ) : |(round_even y : ℚ) - y| ≤ 1 / 2 := by
  have h1 : (⌊y⌋ : ℚ) ≤ y := Int.floor_le y
  have h2 : y < (⌊y⌋ : ℚ) + 1 := Int.lt_floor_add_one y
  unfold round_even
  split
  · rw [abs_le]; constructor <;> linarith
  · split
    · push_cast; rw [abs_le]; constructor <;> linarith
    · rename_i hd hd2
      have heq : y - (⌊y⌋ : ℚ) = 1 / 2 := le_antisymm (not_lt.mp hd2) (not_lt.mp hd)
      split
      · rw [abs_le]; constructor <;> linarith
      · push_cast; rw [abs_le]; constructor <;> linarith

/-- The value of `f32` on a number whose binade is known. -/
theorem f32_of_bounds (x : ℚ) (e : Int) (he : -126 ≤ e) (h1 : (2 : ℚ) ^ e ≤ |x|)
    (h2 : |x| < (2 : ℚ) ^ (e + 1)) :
    f32 x = (round_even (x / 2 ^ (e - 23)) : ℚ) * 2 ^ (e - 23) := by
  have hpos : 0 < |x| := lt_of_lt_of_le (zpow_pos (by norm_num) e) h1
  have hx : x ≠ 0 := abs_pos.mp hpos
  have hlog : Int.log 2 |x| = e := by
    apply le_antisymm
    · have := (Int.lt_zpow_iff_log_lt (b := 2) (by norm_num) hpos).mp h2
      omega
    · exact (Int.zpow_le_iff_le_log (b := 2) (by norm_num) hpos).mp h1
  simp only [f32, hx, if_false, hlog, max_eq_left he]

theorem f32_zero : f32 0 = 0 := by simp [f32]

/-- A multiple `m * 2 ^ k` of a power of two with `|m| < 2 ^ 24` and `k ≥ -149` is a
binary32 value. -/
theorem f32_exact (m k : Int) (hm : |m| < 16777216) (hk : -149 ≤ k) :
    f32 ((m : ℚ) * 2 ^ k) = (m : ℚ) * 2 ^ k := by
  by_cases hm0 : m = 0
  · subst hm0; simp [f32]
  have h2 : (0 : ℚ) < 2 := by norm_num
  have hx : (m : ℚ) * 2 ^ k ≠ 0 :=
    mul_ne_zero (by exact_mod_cast hm0) (zpow_ne_zero k (by norm_num))
  have hpos : 0 < |(m : ℚ) * 2 ^ k| := abs_pos.mpr hx
  have hlt : |(m : ℚ) * 2 ^ k| < (2 : ℚ) ^ (24 + k) := by
    rw [abs_mul, abs_of_pos (zpow_pos h2 k), zpow_add₀ (by norm_num : (2 : ℚ) ≠ 0)]
    apply mul_lt_mul_of_pos_right _ (zpow_pos h2 k)
    have : ((|m| : Int) : ℚ) < 16777216 := by exact_mod_cast hm
    rw [Int.cast_abs] at this
    norm_num
    exact this
  have hlog : Int.log 2 |(m : ℚ) * 2 ^ k| < 24 + k :=
    (Int.lt_zpow_iff_log_lt (b := 2) (by norm_num) hpos).mp hlt
  obtain ⟨d, hd⟩ : ∃ d : Nat, k = (max (Int.log 2 |(m : ℚ) * 2 ^ k|) (-126) - 23) + (d : Int) := by
    refine ⟨(k - (max (Int.log 2 |(m : ℚ) * 2 ^ k|) (-126) - 23)).toNat, ?_⟩
    have : max (Int.log 2 |(m : ℚ) * 2 ^ k|) (-126) - 23 ≤ k := by
      rcases max_cases (Int.log 2 |(m : ℚ) * 2 ^ k|) (-126) with ⟨h, _⟩ | ⟨h, _⟩ <;> omega
    omega
  simp only [f32, hx, if_false]
  generalize max (Int.log 2 |(m : ℚ) * 2 ^ k|) (-126) - 23 = u at hd
  have hdiv : (m : ℚ) * 2 ^ k / 2 ^ u = ((m * 2 ^ d : Int) : ℚ) := by
    rw [hd, zpow_add₀ (by norm_num : (2 : ℚ) ≠ 0), zpow_natCast]
    push_cast
    field_simp
    ring
  rw [hdiv, round_even_intCast, hd, zpow_add₀ (by norm_num : (2 : ℚ) ≠ 0), zpow_natCast]
  push_cast
  ring

/-- Every integer of magnitude at most `2 ^ 24` is a binary32 value. -/
theorem f32_int_exact (n : Int) (h : |n| ≤ 16777216) : f32 (n : ℚ) = (n : ℚ) := by
  by_cases hlt : |n| < 16777216
  · have := f32_exact n 0 hlt (by norm_num)
    simpa using this
  · have habs : |n| = 16777216 := le_antisymm h (not_lt.mp hlt)
    rcases abs_eq (by norm_num : (0 : Int) ≤ 16777216) |>.mp habs with h1 | h1
    · have := f32_exact 8388608 1 (by norm_num) (by norm_num)
      rw [h1]
      norm_num at this ⊢
      exact this
    · have := f32_exact (-8388608) 1 (by norm_num) (by norm_num)
      rw [h1]
      norm_num at this ⊢
      exact this

/-- The rounding error of `f32` is at most half a unit in the last place. -/
theorem f32_error (x : ℚ) (h : (2 : ℚ) ^ (-126 : Int) ≤ |x|) :
    |f32 x - x| ≤ |x| / 16777216 := by
  have h2 : (0 : ℚ) < 2 := by norm_num
  have hpos : 0 < |x| := lt_of_lt_of_le (zpow_pos h2 _) h
  have he : -126 ≤ Int.log 2 |x| :=
    (Int.zpow_le_iff_le_log (b := 2) (by norm_num) hpos).mp h
  have h1 : (2 : ℚ) ^ (Int.log 2 |x|) ≤ |x| := Int.zpow_log_le_self (by norm_num) hpos
  have h3 : |x| < (2 : ℚ) ^ (Int.log 2 |x| + 1) := Int.lt_zpow_succ_log_self (by norm_num) _
  rw [f32_of_bounds x _ he h1 h3]
  generalize Int.log 2 |x| = e at h1
  have hu : (0 : ℚ) < 2 ^ (e - 23) := zpow_pos h2 _
  have herr := round_even_error (x / 2 ^ (e - 23))
  have hfac : (round_even (x / 2 ^ (e - 23)) : ℚ) * 2 ^ (e - 23) - x =
      ((round_even (x / 2 ^ (e - 23)) : ℚ) - x / 2 ^ (e - 23)) * 2 ^ (e - 23) := by
    field_simp
  rw [hfac, abs_mul, abs_of_pos hu]
  have hsplit : (2 : ℚ) ^ e = 2 ^ (e - 23) * 8388608 := by
    have : e = (e - 23) + 23 := by ring
    conv_lhs => rw [this, zpow_add₀ (by norm_num : (2 : ℚ) ≠ 0)]
    norm_num
  calc |(round_even (x / 2 ^ (e - 23)) : ℚ) - x / 2 ^ (e - 23)| * 2 ^ (e - 23)
      ≤ 1 / 2 * 2 ^ (e - 23) := mul_le_mul_of_nonneg_right herr hu.le
    _ = 2 ^ e / 16777216 := by rw [hsplit]; ring
    _ ≤ |x| / 16777216 := by
        apply div_le_div_of_nonneg_right h1 (by norm_num)

theorem f32_grid (x : ℚ) (hx : x ≠ 0) (m : Int) :
    |f32 x - x| ≤ |(m : ℚ) * 2 ^ (max (Int.log 2 |x|) (-126) - 23) - x| := by
  simp only [f32, hx, if_false]
  generalize max (Int.log 2 |x|) (-126) - 23 = k
  have hu : (0 : ℚ) < 2 ^ k := zpow_pos (by norm_num) _
  have h := round_even_nearest (x / 2 ^ k) m
  have e1 : (round_even (x / 2 ^ k) : ℚ) * 2 ^ k - x =
      ((round_even (x / 2 ^ k) : ℚ) - x / 2 ^ k) * 2 ^ k := by field_simp
  have e2 : (m : ℚ) * 2 ^ k - x = ((m : ℚ) - x / 2 ^ k) * 2 ^ k := by field_simp
  rw [e1, e2, abs_mul, abs_mul, abs_of_pos hu]
  exact mul_le_mul_of_nonneg_right h hu.le

/-- Among the binary32 values, `f32 x` is one nearest to `x`. -/
theorem f32_nearest (x y : ℚ) (hy : f32 y = y) : |f32 x - x| ≤ |y - x| := by
  by_cases hx : x = 0
  · subst hx; simp [f32]
  by_cases hy0 : y = 0
  · subst hy0
    have := f32_grid x hx 0
    simpa using this
  have h2 : (0 : ℚ) < 2 := by norm_num
  have hxpos : 0 < |x| := abs_pos.mpr hx
  have hypos : 0 < |y| := abs_pos.mpr hy0
  by_cases hle : max (Int.log 2 |x|) (-126) ≤ max (Int.log 2 |y|) (-126)
  · obtain ⟨d, hd⟩ : ∃ d : Nat, max (Int.log 2 |y|) (-126) - 23 =
        (max (Int.log 2 |x|) (-126) - 23) + (d : Int) :=
      ⟨(max (Int.log 2 |y|) (-126) - max (Int.log 2 |x|) (-126)).toNat, by omega⟩
    have hrep : y = ((round_even (y / 2 ^ (max (Int.log 2 |y|) (-126) - 23)) * 2 ^ d : Int) : ℚ) *
        2 ^ (max (Int.log 2 |x|) (-126) - 23) := by
      conv_lhs => rw [← hy]
      simp only [f32, hy0, if_false]
      rw [hd, zpow_add₀ (by norm_num : (2 : ℚ) ≠ 0), zpow_natCast]
      push_cast
      ring
    have := f32_grid x hx (round_even (y / 2 ^ (max (Int.log 2 |y|) (-126) - 23)) * 2 ^ d)
    rw [← hrep] at this
    exact this
  · have hlt : max (Int.log 2 |y|) (-126) < max (Int.log 2 |x|) (-126) := not_le.mp hle
    have hex : max (Int.log 2 |x|) (-126) = Int.log 2 |x| := by
      rcases max_cases (Int.log 2 |x|) (-126) with ⟨h, _⟩ | ⟨h, _⟩
      · exact h
      · have := le_max_right (Int.log 2 |y|) (-126)
        omega
    have hylog : Int.log 2 |y| < Int.log 2 |x| := by
      have := le_max_left (Int.log 2 |y|) (-126)
      omega
    have hyb : |y| < (2 : ℚ) ^ (Int.log 2 |x|) :=
      (Int.lt_zpow_iff_log_lt (b := 2) (by norm_num) hypos).mpr hylog
    have hxb : (2 : ℚ) ^ (Int.log 2 |x|) ≤ |x| := Int.zpow_log_le_self (by norm_num) hxpos
    have hsplit : (2 : ℚ) ^ (Int.log 2 |x|) = 8388608 * 2 ^ (Int.log 2 |x| - 23) := by
      have : Int.log 2 |x| = 23 + (Int.log 2 |x| - 23) := by ring
      conv_lhs => rw [this, zpow_add₀ (by norm_num : (2 : ℚ) ≠ 0)]
      norm_num
    have htri : |x| - |y| ≤ |y - x| := by
      rw [abs_sub_comm y x]
      exact abs_sub_abs_le_abs_sub x y
    have hgrid := f32_grid x hx
    rw [hex] at hgrid
    generalize Int.log 2 |x| = L at hyb hxb hsplit hgrid
    rcases lt_or_gt_of_ne hx with hneg | hpos
    · have := hgrid (-8388608)
      push_cast at this
      rw [neg_mul, ← hsplit] at this
      rw [abs_of_neg hneg] at hxb htri
      have e : |-(2 : ℚ) ^ L - x| = -x - 2 ^ L := by
        rw [abs_of_nonneg (by linarith)]
        ring
      rw [e] at this
      linarith
    · have := hgrid 8388608
      push_cast at this
      rw [← hsplit] at this
      rw [abs_of_pos hpos] at hxb htri
      have e : |(2 : ℚ) ^ L - x| = x - 2 ^ L := by
        rw [abs_of_nonpos (by linarith)]
        ring
      rw [e] at this
      linarith

theorem round_even_bound (y : ℚ) (n : Int) (h : |y| < (n : ℚ)) : |round_even y| ≤ n := by
  have h1 : (⌊y⌋ : ℚ) ≤ y := Int.floor_le y
  have h2 : y < (⌊y⌋ : ℚ) + 1 := Int.lt_floor_add_one y
  obtain ⟨h3, h4⟩ := abs_lt.mp h
  have h5 : -n ≤ ⌊y⌋ := by
    have : ((-n : Int) : ℚ) < (⌊y⌋ : ℚ) + 1 := by push_cast; linarith
    have : (-n : Int) < ⌊y⌋ + 1 := by exact_mod_cast this
    omega
  have h6 : ⌊y⌋ < n := by
    have : (⌊y⌋ : ℚ) < (n : ℚ) := by linarith
    exact_mod_cast this
  rw [abs_le]
  rcases round_even_cases y with h | h <;> rw [h] <;> constructor <;> omega

/-- The result of `f32` is a binary32 value: rounding it again changes nothing. -/
theorem f32_idem (x : ℚ) : f32 (f32 x) = f32 x := by
  by_cases hx : x = 0
  · subst hx; simp [f32]
  have h2 : (0 : ℚ) < 2 := by norm_num
  have hxpos : 0 < |x| := abs_pos.mpr hx
  have hub : |x| < (2 : ℚ) ^ (max (Int.log 2 |x|) (-126) + 1) := by
    refine lt_of_lt_of_le (Int.lt_zpow_succ_log_self (b := 2) (by norm_num) _) ?_
    apply zpow_le_zpow_right₀ (by norm_num)
    have := le_max_left (Int.log 2 |x|) (-126)
    omega
  have hk : -149 ≤ max (Int.log 2 |x|) (-126) - 23 := by
    have := le_max_right (Int.log 2 |x|) (-126)
    omega
  have hfx : f32 x = (round_even (x / 2 ^ (max (Int.log 2 |x|) (-126) - 23)) : ℚ) *
      2 ^ (max (Int.log 2 |x|) (-126) - 23) := by
    simp only [f32, hx, if_false]
  have hsplit : (2 : ℚ) ^ (max (Int.log 2 |x|) (-126) + 1) =
      16777216 * 2 ^ (max (Int.log 2 |x|) (-126) - 23) := by
    have : max (Int.log 2 |x|) (-126) + 1 = 24 + (max (Int.log 2 |x|) (-126) - 23) := by ring
    conv_lhs => rw [this, zpow_add₀ (by norm_num : (2 : ℚ) ≠ 0)]
    norm_num
  rw [hsplit] at hub
  generalize max (Int.log 2 |x|) (-126) - 23 = k at hub hk hfx
  have hu : (0 : ℚ) < 2 ^ k := zpow_pos h2 _
  have hq : |x / 2 ^ k| < ((16777216 : Int) : ℚ) := by
    rw [abs_div, abs_of_pos hu, div_lt_iff₀ hu]
    push_cast
    exact hub
  have hM := round_even_bound _ _ hq
  rw [hfx]
  generalize round_even (x / 2 ^ k) = M at hM
  by_cases hlt : |M| < 16777216
  · exact f32_exact M k hlt hk
  · have habs : |M| = 16777216 := le_antisymm hM (not_lt.mp hlt)
    have hk1 : (2 : ℚ) ^ (k + 1) = 2 * 2 ^ k := by
      rw [zpow_add₀ (by norm_num : (2 : ℚ) ≠ 0)]
      ring
    rcases abs_eq (by norm_num : (0 : Int) ≤ 16777216) |>.mp habs with h1 | h1
    · have := f32_exact 8388608 (k + 1) (by norm_num) (by omega)
      rw [hk1] at this
      have e : ((16777216 : Int) : ℚ) * 2 ^ k = ((8388608 : Int) : ℚ) * (2 * 2 ^ k) := by
        push_cast; ring
      rw [h1, e]
      exact this
    · have := f32_exact (-8388608) (k + 1) (by norm_num) (by omega)
      rw [hk1] at this
      have e : ((-16777216 : Int) : ℚ) * 2 ^ k = ((-8388608 : Int) : ℚ) * (2 * 2 ^ k) := by
        push_cast; ring
      rw [h1, e]
      exact this

theorem round_even_of_floor (y : ℚ) (n : Int) (h1 : (n : ℚ) ≤ y) (h2 : y < (n : ℚ) + 1) :
    round_even y =
      if y - (n : ℚ) < 1 / 2 then n
      else if 1 / 2 < y - (n : ℚ) then n + 1
      else if n % 2 = 0 then n else n + 1 := by
  have hf : ⌊y⌋ = n := Int.floor_eq_iff.mpr ⟨h1, h2⟩
  simp only [round_even, hf]

theorem f32_16777217 : f32 16777217 = 16777216 := by
  rw [f32_of_bounds 16777217 24 (by norm_num) (by norm_num) (by norm_num)]
  have e : (16777217 : ℚ) / 2 ^ ((24 : Int) - 23) = 16777217 / 2 := by norm_num
  rw [e, round_even_of_floor _ 8388608 (by norm_num) (by norm_num)]
  norm_num

theorem f32_thirteen_thirds : f32 (13 / 3) = 9087659 / 2097152 := by
  have ha : |(13 / 3 : ℚ)| = 13 / 3 := abs_of_pos (by norm_num)
  rw [f32_of_bounds (13 / 3) 2 (by norm_num) (by rw [ha]; norm_num) (by rw [ha]; norm_num)]
  have e : (13 / 3 : ℚ) / 2 ^ ((2 : Int) - 23) = 27262976 / 3 := by norm_num
  rw [e, round_even_of_floor _ 9087658 (by norm_num) (by norm_num)]
  norm_num

/-! ## The accumulators and the averages in the machine reading -/

theorem install_next32_stats (s : scheduler_t) (core_id : Nat) (time : Int) :
    stats (install_next32 s core_id time).1 = stats s := by
  unfold install_next32
  split <;> rfl

theorem new_job32_stats (s : scheduler_t) (job_number time running_time priority : Int)
    (s1 : scheduler_t) (r : Int)
    (h : scheduler_new_job32 s job_number time running_time priority = some (s1, r)) :
    stats s1 = stats s := by
  unfold scheduler_new_job32 at h
  simp only [] at h
  split at h
  · cases h; rfl
  · split at h
    · exact preempt_branch_stats _ (updateRemainingTimes32 s time) _ _ _ _ h
    · split at h
      · exact preempt_branch_stats _ (updateRemainingTimes32 s time) _ _ _ _ h
      · split at h
        · cases h; rfl
        · cases h; rfl

theorem quantum_expired32_stats (s : scheduler_t) (core_id : Nat) (time : Int)
    (s1 : scheduler_t) (r : Int)
    (h : scheduler_quantum_expired32 s core_id time = some (s1, r)) : stats s1 = stats s := by
  unfold scheduler_quantum_expired32 at h
  simp only [] at h
  split at h
  · simp only [Option.some.injEq] at h
    have h2 := install_next32_stats
      { updateRemainingTimes32 s time with
        priqueue := (priqueue_offer (updateRemainingTimes32 s time).priqueue ‹job_t›).1
        core_array := (updateRemainingTimes32 s time).core_array.set core_id none } core_id time
    rw [h] at h2
    exact h2
  · cases h

theorem job_finished32_eq (s : scheduler_t) (core_id : Nat) (job_number time : Int)
    (old : job_t) (h : s.core_array[core_id]? = some (some old)) :
    ∃ s0 : scheduler_t,
      scheduler_job_finished32 s core_id job_number time =
        some (install_next32 s0 core_id time) ∧
      s0.priqueue = s.priqueue ∧ s0.scheme = s.scheme ∧
      s0.core_array = s.core_array.set core_id none ∧
      s0.total_jobs = wrap32 (s.total_jobs + 1) ∧
      s0.total_wait =
        f32 (s.total_wait +
          f32 ((wrap32 (wrap32 (time - old.arrival_time) - old.needed_time) : Int) : ℚ)) ∧
      s0.total_turnaround =
        f32 (s.total_turnaround + f32 ((wrap32 (time - old.arrival_time) : Int) : ℚ)) ∧
      s0.total_response = f32 (s.total_response + f32 (old.time_to_schedule : ℚ)) :=
  ⟨{ s with
      total_jobs := wrap32 (s.total_jobs + 1)
      total_wait :=
        f32 (s.total_wait +
          f32 ((wrap32 (wrap32 (time - old.arrival_time) - old.needed_time) : Int) : ℚ))
      total_turnaround :=
        f32 (s.total_turnaround + f32 ((wrap32 (time - old.arrival_time) : Int) : ℚ))
      total_response := f32 (s.total_response + f32 (old.time_to_schedule : ℚ))
      core_array := s.core_array.set core_id none },
    by simp only [scheduler_job_finished32, h], rfl, rfl, rfl, rfl, rfl, rfl, rfl⟩

/-- Adding in binary32 an integer to an integer total is exact when the integer added and
the sum are of magnitude at most `2 ^ 24`. -/
theorem f32_add_int_exact (total : ℚ) (n a : Int) (hn : total = (n : ℚ))
    (ha : |a| ≤ 16777216) (hs : |n + a| ≤ 16777216) :
    f32 (total + f32 (a : ℚ)) = total + (a : ℚ) := by
  rw [f32_int_exact a ha, hn]
  have := f32_int_exact (n + a) hs
  push_cast at this
  exact this

theorem wrap32_sub_wrap32 (a b : Int) (h1 : -2147483648 ≤ a - b) (h2 : a - b < 2147483648) :
    wrap32 (wrap32 a - b) = a - b := by
  unfold wrap32
  omega

/-- C6 as stated fails: on one FCFS core job 1 (arrival 0, service 1) finishes at time
16777218, both events valid, in time order and within the range of `int`. The claim makes
`total_wait` grow from 0 by `(16777218 - 0) - 1 = 16777217`; the `float` accumulator
holds 16777216 afterwards, the binary32 value nearest to 16777217. The count is 1 and
`total_turnaround` is 16777218, which binary32 represents. -/
theorem job_finished_rounds_total_wait :
    each_event32 ranged_event (scheduler_start_up 1 .FCFS) ledger.start ex_long_wait = true ∧
    (run32 (scheduler_start_up 1 .FCFS) ex_long_wait).map (fun x => (x.2, stats x.1)) =
      some ([0, -1], (1, 16777216, 16777218, 0)) ∧
    (0 : ℚ) + (((16777218 - 0) - 1 : Int) : ℚ) ≠ 16777216 := by
  have h2 : f32 16777218 = 16777218 := by
    have := f32_exact 8388609 1 (by norm_num) (by norm_num)
    norm_num at this
    exact this
  have h3 : f32 16777216 = 16777216 := by
    have := f32_int_exact 16777216 (by norm_num)
    norm_num at this
    exact this
  refine ⟨by decide, ?_, by norm_num⟩
  simp [run32, step32, ex_long_wait, scheduler_new_job32, scheduler_job_finished32,
    install_next32, priqueue_poll, idle_scan, scheduler_start_up, priqueue_init,
    updateRemainingTimes32, refresh_job32, make_job, stats, start_up_comparer, wrap32,
    f32_zero, f32_16777217, h2, h3]

/-- C6 as amended: on a core occupied by job `j`, `scheduler_job_finished` returns a
result and sets `total_jobs` to `total_jobs + 1` in 32-bit arithmetic, which is
`total_jobs + 1` unless the count was `2^31 - 1`. Each `float` total becomes the binary32
value of the old total plus the amount converted to binary32, the amount being
`(time - j.arrival_time) - j.needed_time` for `total_wait`, `time - j.arrival_time` for
`total_turnaround` (both computed in 32-bit arithmetic) and `j.time_to_schedule` for
`total_response`. That value is a binary32 value nearest to the sum, and is exactly the old
total plus the amount when the old total is an integer and the amount and the sum have
magnitude at most `2^24`. `scheduler_new_job` and `scheduler_quantum_expired` leave the
four accumulators as they are, and the three average functions return the state they were
given. -/
theorem job_finished32_accumulates (s : scheduler_t) (core_id : Nat) (job_number time : Int)
    (j : job_t) (h : s.core_array[core_id]? = some (some j)) :
    (∃ (s1 : scheduler_t) (r : Int),
      scheduler_job_finished32 s core_id job_number time = some (s1, r) ∧
      s1.total_jobs = wrap32 (s.total_jobs + 1) ∧
      (-2147483648 ≤ s.total_jobs → s.total_jobs < 2147483647 →
        s1.total_jobs = s.total_jobs + 1) ∧
      s1.total_wait =
        f32 (s.total_wait +
          f32 ((wrap32 (wrap32 (time - j.arrival_time) - j.needed_time) : Int) : ℚ)) ∧
      s1.total_turnaround =
        f32 (s.total_turnaround + f32 ((wrap32 (time - j.arrival_time) : Int) : ℚ)) ∧
      s1.total_response = f32 (s.total_response + f32 (j.time_to_schedule : ℚ)) ∧
      (∀ y : ℚ, f32 y = y →
        |s1.total_wait - (s.total_wait +
            f32 ((wrap32 (wrap32 (time - j.arrival_time) - j.needed_time) : Int) : ℚ))| ≤
          |y - (s.total_wait +
            f32 ((wrap32 (wrap32 (time - j.arrival_time) - j.needed_time) : Int) : ℚ))| ∧
        |s1.total_turnaround -
            (s.total_turnaround + f32 ((wrap32 (time - j.arrival_time) : Int) : ℚ))| ≤
          |y - (s.total_turnaround + f32 ((wrap32 (time - j.arrival_time) : Int) : ℚ))| ∧
        |s1.total_response - (s.total_response + f32 (j.time_to_schedule : ℚ))| ≤
          |y - (s.total_response + f32 (j.time_to_schedule : ℚ))|) ∧
      (∀ n : Int, s.total_wait = (n : ℚ) →
        |(time - j.arrival_time) - j.needed_time| ≤ 16777216 →
        |n + ((time - j.arrival_time) - j.needed_time)| ≤ 16777216 →
        s1.total_wait = s.total_wait + (((time - j.arrival_time) - j.needed_time : Int) : ℚ)) ∧
      (∀ n : Int, s.total_turnaround = (n : ℚ) →
        |time - j.arrival_time| ≤ 16777216 → |n + (time - j.arrival_time)| ≤ 16777216 →
        s1.total_turnaround = s.total_turnaround + ((time - j.arrival_time : Int) : ℚ)) ∧
      (∀ n : Int, s.total_response = (n : ℚ) →
        |j.time_to_schedule| ≤ 16777216 → |n + j.time_to_schedule| ≤ 16777216 →
        s1.total_response = s.total_response + (j.time_to_schedule : ℚ))) ∧
    (∀ (t : scheduler_t) (job_number time running_time priority : Int) (t1 : scheduler_t)
        (r : Int), scheduler_new_job32 t job_number time running_time priority = some (t1, r) →
      stats t1 = stats t) ∧
    (∀ (t : scheduler_t) (core_id : Nat) (time : Int) (t1 : scheduler_t) (r : Int),
      scheduler_quantum_expired32 t core_id time = some (t1, r) → stats t1 = stats t) ∧
    (∀ t : scheduler_t, (scheduler_average_waiting_time32 t).1 = t ∧
      (scheduler_average_turnaround_time32 t).1 = t ∧
      (scheduler_average_response_time32 t).1 = t) := by
  refine ⟨?_, new_job32_stats, quantum_expired32_stats, fun t => ⟨rfl, rfl, rfl⟩⟩
  obtain ⟨s0, heq, _, _, _, h1, h2, h3, h4⟩ :=
    job_finished32_eq s core_id job_number time j h
  have hst := install_next32_stats s0 core_id time
  simp only [stats, Prod.mk.injEq] at hst
  obtain ⟨e1, e2, e3, e4⟩ := hst
  rw [h1] at e1
  rw [h2] at e2
  rw [h3] at e3
  rw [h4] at e4
  refine ⟨(install_next32 s0 core_id time).1, (install_next32 s0 core_id time).2, heq,
    e1, ?_, e2, e3, e4, ?_, ?_, ?_, ?_⟩
  · intro hlo hhi
    rw [e1]
    exact wrap32_eq _ (by omega) (by omega)
  · intro y hy
    rw [e2, e3, e4]
    exact ⟨f32_nearest _ y hy, f32_nearest _ y hy, f32_nearest _ y hy⟩
  · intro n hn ha hs
    have hb := abs_le.mp ha
    rw [e2, wrap32_sub_wrap32 _ _ (by omega) (by omega)]
    exact f32_add_int_exact _ n _ hn ha hs
  · intro n hn ha hs
    have hb := abs_le.mp ha
    rw [e3, wrap32_eq _ (by omega) (by omega)]
    exact f32_add_int_exact _ n _ hn ha hs
  · intro n hn ha hs
    rw [e4]
    exact f32_add_int_exact _ n _ hn ha hs

/-- C6 as amended, at `ex_fcfs_waiting`: job 1 (arrival 0, service 5) finishing at time 5
adds one completed job, wait 0, turnaround 5 and response 0, all exactly. -/
theorem job_finished32_accumulates_witness :
    ex_fcfs_waiting.core_array[0]? = some (some { make_job 1 0 5 0 with last_start_time := 0 }) ∧
    ((∃ (s1 : scheduler_t) (r : Int),
      scheduler_job_finished32 ex_fcfs_waiting 0 1 5 = some (s1, r) ∧
      s1.total_jobs = wrap32 (ex_fcfs_waiting.total_jobs + 1) ∧
      (-2147483648 ≤ ex_fcfs_waiting.total_jobs → ex_fcfs_waiting.total_jobs < 2147483647 →
        s1.total_jobs = ex_fcfs_waiting.total_jobs + 1) ∧
      s1.total_wait =
        f32 (ex_fcfs_waiting.total_wait +
          f32 ((wrap32 (wrap32 (5 - (make_job 1 0 5 0).arrival_time) -
            (make_job 1 0 5 0).needed_time) : Int) : ℚ)) ∧
      s1.total_turnaround =
        f32 (ex_fcfs_waiting.total_turnaround +
          f32 ((wrap32 (5 - (make_job 1 0 5 0).arrival_time) : Int) : ℚ)) ∧
      s1.total_response =
        f32 (ex_fcfs_waiting.total_response + f32 ((make_job 1 0 5 0).time_to_schedule : ℚ)) ∧
      (∀ y : ℚ, f32 y = y →
        |s1.total_wait - (ex_fcfs_waiting.total_wait +
            f32 ((wrap32 (wrap32 (5 - (make_job 1 0 5 0).arrival_time) -
              (make_job 1 0 5 0).needed_time) : Int) : ℚ))| ≤
          |y - (ex_fcfs_waiting.total_wait +
            f32 ((wrap32 (wrap32 (5 - (make_job 1 0 5 0).arrival_time) -
              (make_job 1 0 5 0).needed_time) : Int) : ℚ))| ∧
        |s1.total_turnaround - (ex_fcfs_waiting.total_turnaround +
            f32 ((wrap32 (5 - (make_job 1 0 5 0).arrival_time) : Int) : ℚ))| ≤
          |y - (ex_fcfs_waiting.total_turnaround +
            f32 ((wrap32 (5 - (make_job 1 0 5 0).arrival_time) : Int) : ℚ))| ∧
        |s1.total_response - (ex_fcfs_waiting.total_response +
            f32 ((make_job 1 0 5 0).time_to_schedule : ℚ))| ≤
          |y - (ex_fcfs_waiting.total_response +
            f32 ((make_job 1 0 5 0).time_to_schedule : ℚ))|) ∧
      (∀ n : Int, ex_fcfs_waiting.total_wait = (n : ℚ) →
        |(5 - (make_job 1 0 5 0).arrival_time) - (make_job 1 0 5 0).needed_time| ≤ 16777216 →
        |n + ((5 - (make_job 1 0 5 0).arrival_time) - (make_job 1 0 5 0).needed_time)| ≤
          16777216 →
        s1.total_wait = ex_fcfs_waiting.total_wait +
          (((5 - (make_job 1 0 5 0).arrival_time) - (make_job 1 0 5 0).needed_time : Int) : ℚ)) ∧
      (∀ n : Int, ex_fcfs_waiting.total_turnaround = (n : ℚ) →
        |5 - (make_job 1 0 5 0).arrival_time| ≤ 16777216 →
        |n + (5 - (make_job 1 0 5 0).arrival_time)| ≤ 16777216 →
        s1.total_turnaround = ex_fcfs_waiting.total_turnaround +
          ((5 - (make_job 1 0 5 0).arrival_time : Int) : ℚ)) ∧
      (∀ n : Int, ex_fcfs_waiting.total_response = (n : ℚ) →
        |(make_job 1 0 5 0).time_to_schedule| ≤ 16777216 →
        |n + (make_job 1 0 5 0).time_to_schedule| ≤ 16777216 →
        s1.total_response = ex_fcfs_waiting.total_response +
          ((make_job 1 0 5 0).time_to_schedule : ℚ))) ∧
    (∀ (t : scheduler_t) (job_number time running_time priority : Int) (t1 : scheduler_t)
        (r : Int), scheduler_new_job32 t job_number time running_time priority = some (t1, r) →
      stats t1 = stats t) ∧
    (∀ (t : scheduler_t) (core_id : Nat) (time : Int) (t1 : scheduler_t) (r : Int),
      scheduler_quantum_expired32 t core_id time = some (t1, r) → stats t1 = stats t) ∧
    (∀ t : scheduler_t, (scheduler_average_waiting_time32 t).1 = t ∧
      (scheduler_average_turnaround_time32 t).1 = t ∧
      (scheduler_average_response_time32 t).1 = t)) :=
  ⟨rfl, job_finished32_accumulates ex_fcfs_waiting 0 1 5
      { make_job 1 0 5 0 with last_start_time := 0 } rfl⟩

theorem f32_twenty_six_thirds : f32 (26 / 3) = 9087659 / 1048576 := by
  have ha : |(26 / 3 : ℚ)| = 26 / 3 := abs_of_pos (by norm_num)
  rw [f32_of_bounds (26 / 3) 3 (by norm_num) (by rw [ha]; norm_num) (by rw [ha]; norm_num)]
  have e : (26 / 3 : ℚ) / 2 ^ ((3 : Int) - 23) = 27262976 / 3 := by norm_num
  rw [e, round_even_of_floor _ 9087658 (by norm_num) (by norm_num)]
  norm_num

/-- C14 as stated fails: on one FCFS core three jobs wait 0, 6 and 7 units, all events
valid, in time order and within the range of `int`; the totals are 13, 26 and 13 over 3
jobs. The average waiting time returned is 9087659/2097152 (4.3333335 as a `float`), the
binary32 value nearest to 13/3, and not 13/3; likewise the average turnaround time is
9087659/1048576 and not 26/3. -/
theorem average_is_rounded_quotient :
    each_event32 ranged_event (scheduler_start_up 1 .FCFS) ledger.start ex_thirds = true ∧
    (run32 (scheduler_start_up 1 .FCFS) ex_thirds).map
        (fun x => (stats x.1, (averages32 x.1).2)) =
      some ((3, 13, 26, 13), (9087659 / 2097152, 9087659 / 1048576, 9087659 / 2097152)) ∧
    (9087659 / 2097152 : ℚ) ≠ 13 / 3 ∧ (9087659 / 1048576 : ℚ) ≠ 26 / 3 := by
  have hs : ∀ n : Int, |n| ≤ 16777216 → f32 (n : ℚ) = (n : ℚ) := f32_int_exact
  have h3 : f32 3 = 3 := by simpa using hs 3 (by norm_num)
  have h6 : f32 6 = 6 := by simpa using hs 6 (by norm_num)
  have h7 : f32 7 = 7 := by simpa using hs 7 (by norm_num)
  have h8 : f32 8 = 8 := by simpa using hs 8 (by norm_num)
  have h11 : f32 11 = 11 := by simpa using hs 11 (by norm_num)
  have h13 : f32 13 = 13 := by simpa using hs 13 (by norm_num)
  have h15 : f32 15 = 15 := by simpa using hs 15 (by norm_num)
  have h26 : f32 26 = 26 := by simpa using hs 26 (by norm_num)
  refine ⟨by decide, ?_, by norm_num, by norm_num⟩
  simp [run32, step32, ex_thirds, scheduler_new_job32, scheduler_job_finished32,
    install_next32, priqueue_poll, priqueue_offer, offer_loop, idle_scan, scheduler_start_up,
    priqueue_init, updateRemainingTimes32, refresh_job32, make_job, stats, averages32,
    scheduler_average_waiting_time32, scheduler_average_turnaround_time32,
    scheduler_average_response_time32, start_up_comparer, fcfs_compare, wrap32,
    f32_zero, h3, h6, h7, h8, h11, h13, h15, h26, f32_thirteen_thirds, f32_twenty_six_thirds]
  norm_num [f32_zero, h3, h6, h7, h8, h11, h13, h15, h26, f32_thirteen_thirds,
    f32_twenty_six_thirds]

/-- C14 as amended: in every state each of the three average functions `f`, with `total`
its accumulator, returns the state it was given, so that a second call in a row returns the
same number; the number is 0 when `total_jobs` is 0 and otherwise the binary32 quotient of
the total by `total_jobs` converted to binary32. When `total_jobs` has magnitude at most
`2^24`, that number is a binary32 value nearest to the exact quotient
`total / total_jobs`, and equal to it when the exact quotient is a binary32 value. -/
theorem average32_is_nearest_quotient (s : scheduler_t) (f : scheduler_t → scheduler_t × ℚ)
    (total : scheduler_t → ℚ)
    (hf : (f = scheduler_average_waiting_time32 ∧ total = scheduler_t.total_wait) ∨
      (f = scheduler_average_turnaround_time32 ∧ total = scheduler_t.total_turnaround) ∨
      (f = scheduler_average_response_time32 ∧ total = scheduler_t.total_response)) :
    (f s).1 = s ∧
    (f (f s).1).2 = (f s).2 ∧
    (s.total_jobs = 0 → (f s).2 = 0) ∧
    (s.total_jobs ≠ 0 → (f s).2 = f32 (total s / f32 (s.total_jobs : ℚ))) ∧
    (s.total_jobs ≠ 0 → |s.total_jobs| ≤ 16777216 →
      f32 (f s).2 = (f s).2 ∧
      (∀ y : ℚ, f32 y = y →
        |(f s).2 - total s / (s.total_jobs : ℚ)| ≤ |y - total s / (s.total_jobs : ℚ)|) ∧
      (f32 (total s / (s.total_jobs : ℚ)) = total s / (s.total_jobs : ℚ) →
        (f s).2 = total s / (s.total_jobs : ℚ))) := by
  have hval : (f s).1 = s ∧
      (f s).2 = if s.total_jobs = 0 then 0 else f32 (total s / f32 (s.total_jobs : ℚ)) := by
    rcases hf with ⟨h1, h2⟩ | ⟨h1, h2⟩ | ⟨h1, h2⟩ <;> subst h1 <;> subst h2 <;> exact ⟨rfl, rfl⟩
  obtain ⟨hs, hv⟩ := hval
  refine ⟨hs, by rw [hs], ?_, ?_, ?_⟩
  · intro h0
    rw [hv, if_pos h0]
  · intro h0
    rw [hv, if_neg h0]
  · intro h0 hn
    rw [hv, if_neg h0, f32_int_exact _ hn]
    exact ⟨f32_idem _, fun y hy => f32_nearest _ y hy, fun h => h⟩

/-- C14 as amended, at `ex_two_done` (2 jobs, total waiting time 4): the average waiting
time is 2, exactly. -/
theorem average32_is_nearest_quotient_witness :
    (scheduler_average_waiting_time32 ex_two_done).2 = 2 ∧
    ((scheduler_average_waiting_time32 ex_two_done).1 = ex_two_done ∧
    (scheduler_average_waiting_time32 (scheduler_average_waiting_time32 ex_two_done).1).2 =
      (scheduler_average_waiting_time32 ex_two_done).2 ∧
    (ex_two_done.total_jobs = 0 → (scheduler_average_waiting_time32 ex_two_done).2 = 0) ∧
    (ex_two_done.total_jobs ≠ 0 →
      (scheduler_average_waiting_time32 ex_two_done).2 =
        f32 (scheduler_t.total_wait ex_two_done / f32 (ex_two_done.total_jobs : ℚ))) ∧
    (ex_two_done.total_jobs ≠ 0 → |ex_two_done.total_jobs| ≤ 16777216 →
      f32 (scheduler_average_waiting_time32 ex_two_done).2 =
        (scheduler_average_waiting_time32 ex_two_done).2 ∧
      (∀ y : ℚ, f32 y = y →
        |(scheduler_average_waiting_time32 ex_two_done).2 -
            scheduler_t.total_wait ex_two_done / (ex_two_done.total_jobs : ℚ)| ≤
          |y - scheduler_t.total_wait ex_two_done / (ex_two_done.total_jobs : ℚ)|) ∧
      (f32 (scheduler_t.total_wait ex_two_done / (ex_two_done.total_jobs : ℚ)) =
          scheduler_t.total_wait ex_two_done / (ex_two_done.total_jobs : ℚ) →
        (scheduler_average_waiting_time32 ex_two_done).2 =
          scheduler_t.total_wait ex_two_done / (ex_two_done.total_jobs : ℚ)))) := by
  have h2 : f32 2 = 2 := by simpa using f32_int_exact 2 (by norm_num)
  refine ⟨?_, average32_is_nearest_quotient ex_two_done scheduler_average_waiting_time32
    scheduler_t.total_wait (Or.inl ⟨rfl, rfl⟩)⟩
  norm_num [scheduler_average_waiting_time32, ex_two_done, h2]

/-! ## The time accounting in the machine reading -/

theorem refresh_job32_eq (now t : Int) (j : job_t) (hj : job_fits now j) (h1 : now ≤ t)
    (h2 : t < 2147483648) : refresh_job32 t j = refresh_job t j := by
  obtain ⟨a1, a2, n1, n2, u1, u2, l1, _⟩ := hj
  have e1 : wrap32 (t - j.last_start_time) = t - j.last_start_time :=
    wrap32_eq _ (by omega) (by omega)
  have e2 : wrap32 (j.used_time + (t - j.last_start_time)) =
      j.used_time + (t - j.last_start_time) := wrap32_eq _ (by omega) (by omega)
  have e3 : wrap32 (j.needed_time - (j.used_time + (t - j.last_start_time))) =
      j.needed_time - (j.used_time + (t - j.last_start_time)) :=
    wrap32_eq _ (by omega) (by omega)
  simp only [refresh_job32, refresh_job, e1, e2, e3]

theorem job_fits_mono (now t : Int) (j : job_t) (hj : job_fits now j) (h1 : now ≤ t) :
    job_fits t j := by
  obtain ⟨a1, a2, n1, n2, u1, u2, l1, r1⟩ := hj
  exact ⟨a1, a2, n1, n2, u1, u2, by omega, r1⟩

theorem job_fits_refresh (now t : Int) (j : job_t) (hj : job_fits now j) (h1 : now ≤ t) :
    job_fits t (refresh_job t j) := by
  obtain ⟨a1, a2, n1, n2, u1, u2, l1, r1⟩ := hj
  refine ⟨a1, a2, n1, n2, ?_, ?_, ?_, ?_⟩ <;> simp only [refresh_job] <;> omega

theorem job_fits_dispatched (now t : Int) (j : job_t) (hj : job_fits now j) (h1 : now ≤ t) :
    job_fits t (dispatched t j) := by
  obtain ⟨a1, a2, n1, n2, u1, u2, l1, r1⟩ := hj
  refine ⟨a1, a2, n1, n2, u1, ?_, ?_, r1⟩ <;> simp only [dispatched] <;> omega

theorem job_fits_new (job_number t running_time priority : Int) (h1 : 0 ≤ t)
    (h2 : t < 2147483648) (h3 : 0 ≤ running_time) (h4 : running_time < 2147483648) :
    job_fits t (make_job job_number t running_time priority) ∧
    job_fits t { make_job job_number t running_time priority with last_start_time := t } := by
  constructor
  · refine ⟨h1, h2, h3, h4, ?_, ?_, ?_, ?_⟩
    · simp [make_job]
    · simp [make_job]
    · simp [make_job]
      exact h1
    · simp [make_job]
  · refine ⟨h1, h2, h3, h4, ?_, ?_, ?_, ?_⟩
    · simp [make_job]
    · simp [make_job]
      exact h1
    · simp [make_job]
    · simp [make_job]

theorem updateRemainingTimes32_eq (s : scheduler_t) (t : Int)
    (h : ∀ j ∈ running_jobs s, refresh_job32 t j = refresh_job t j) :
    updateRemainingTimes32 s t = updateRemainingTimes s t := by
  have hmap : s.core_array.map (Option.map (refresh_job32 t)) =
      s.core_array.map (Option.map (refresh_job t)) := by
    apply List.map_congr_left
    intro x hx
    cases x with
    | none => rfl
    | some j =>
      have hj : j ∈ running_jobs s := by
        simp only [running_jobs, List.mem_filterMap]
        exact ⟨some j, hx, rfl⟩
      simp only [Option.map_some', h j hj]
  simp only [updateRemainingTimes32, updateRemainingTimes, hmap]

theorem install_next32_eq (s : scheduler_t) (core_id : Nat) (t : Int)
    (h : ∀ w ∈ s.priqueue.elems, wrap32 (t - w.arrival_time) = t - w.arrival_time) :
    install_next32 s core_id t = install_next s core_id t := by
  cases hq : s.priqueue.elems with
  | nil => simp [install_next32, install_next, priqueue_poll, hq]
  | cons w rest =>
    have hw := h w (by rw [hq]; exact List.mem_cons_self _ _)
    simp [install_next32, install_next, priqueue_poll, hq, hw]

theorem new_job32_eq (s : scheduler_t) (job_number t running_time priority : Int)
    (h : updateRemainingTimes32 s t = updateRemainingTimes s t) :
    scheduler_new_job32 s job_number t running_time priority =
      scheduler_new_job s job_number t running_time priority := by
  unfold scheduler_new_job32 scheduler_new_job
  rw [h]

theorem quantum_expired32_eq (s : scheduler_t) (core_id : Nat) (t : Int)
    (h : updateRemainingTimes32 s t = updateRemainingTimes s t)
    (ha : ∀ j ∈ jobs_of s, wrap32 (t - j.arrival_time) = t - j.arrival_time) :
    scheduler_quantum_expired32 s core_id t = scheduler_quantum_expired s core_id t := by
  unfold scheduler_quantum_expired32 scheduler_quantum_expired
  rw [h]
  simp only []
  split
  · rename_i old hold
    congr 1
    apply install_next32_eq
    intro w hw
    rcases mem_offer _ _ w hw with h1 | h1
    · obtain ⟨j, hj, hx⟩ := mem_running_refresh s t old (mem_filterMap_of_get _ core_id old hold)
      rw [h1, hx]
      exact ha j (List.mem_append_left _ hj)
    · exact ha w (List.mem_append_right _ h1)
  · rfl

theorem same_jobs_jobs_of (s s1 : scheduler_t) (h : same_jobs s s1) : jobs_of s1 = jobs_of s := by
  obtain ⟨_, hq, hc⟩ := h
  simp only [jobs_of, running_jobs, hq, hc]

theorem install_next_same_jobs (a b : scheduler_t) (core_id : Nat) (t : Int)
    (h : same_jobs a b) :
    same_jobs (install_next a core_id t).1 (install_next b core_id t).1 ∧
    (install_next b core_id t).2 = (install_next a core_id t).2 := by
  obtain ⟨hs, hq, hc⟩ := h
  cases hel : a.priqueue.elems with
  | nil =>
    rw [install_next_nil a core_id t hel, install_next_nil b core_id t (by rw [hq]; exact hel)]
    exact ⟨⟨hs, hq, hc⟩, rfl⟩
  | cons w rest =>
    rw [install_next_cons a core_id t w rest hel,
      install_next_cons b core_id t w rest (by rw [hq]; exact hel)]
    exact ⟨⟨hs, by simp only [hq], by simp only [hc]⟩, rfl⟩

theorem job_finished32_same_jobs (s : scheduler_t) (core_id : Nat) (job_number t : Int)
    (old : job_t) (hold : s.core_array[core_id]? = some (some old))
    (ha : ∀ j ∈ jobs_of s, wrap32 (t - j.arrival_time) = t - j.arrival_time) :
    ∃ (s1 s2 : scheduler_t) (r : Int),
      scheduler_job_finished s core_id job_number t = some (s1, r) ∧
      scheduler_job_finished32 s core_id job_number t = some (s2, r) ∧ same_jobs s1 s2 := by
  obtain ⟨a, heqa, hqa, hsa, hca, _⟩ := job_finished_eq s core_id job_number t old hold
  obtain ⟨b, heqb, hqb, hsb, hcb, _⟩ := job_finished32_eq s core_id job_number t old hold
  have hab : same_jobs a b := ⟨by rw [hsb, hsa], by rw [hqb, hqa], by rw [hcb, hca]⟩
  have h32 : install_next32 b core_id t = install_next b core_id t := by
    apply install_next32_eq
    intro w hw
    rw [hqb] at hw
    exact ha w (List.mem_append_right _ hw)
  obtain ⟨hsame, hret⟩ := install_next_same_jobs a b core_id t hab
  refine ⟨(install_next a core_id t).1, (install_next b core_id t).1,
    (install_next a core_id t).2, heqa, ?_, hsame⟩
  rw [heqb, h32, ← hret]

theorem fits_arrival_range (s : scheduler_t) (g : ledger) (hfit : fits s g) (t : Int)
    (h1 : g.now ≤ t) (h2 : t < 2147483648) :
    ∀ j ∈ jobs_of s, wrap32 (t - j.arrival_time) = t - j.arrival_time := by
  intro j hj
  obtain ⟨a1, a2, _⟩ := hfit.2.2.2 j hj
  have := hfit.2.1
  exact wrap32_eq _ (by omega) (by omega)

theorem fits_refresh_eq (s : scheduler_t) (g : ledger) (hfit : fits s g) (t : Int)
    (h1 : g.now ≤ t) (h2 : t < 2147483648) :
    updateRemainingTimes32 s t = updateRemainingTimes s t :=
  updateRemainingTimes32_eq s t (fun j hj =>
    refresh_job32_eq g.now t j (hfit.2.2.2 j (List.mem_append_left _ hj)) h1 h2)

/-- One event of a trace within range: the integer reading and the machine reading both
return a result, with the same value and the same jobs in the same places. -/
theorem step32_same_jobs (s : scheduler_t) (g : ledger) (e : event_t) (hfit : fits s g)
    (hev : ranged_event s g e = true) :
    ∃ (s1 s2 : scheduler_t) (r : Int),
      step s e = some (s1, r) ∧ step32 s e = some (s2, r) ∧ same_jobs s1 s2 := by
  simp only [ranged_event, in_order_event, Bool.and_eq_true, decide_eq_true_eq] at hev
  obtain ⟨⟨⟨hv, hnow⟩, hlt⟩, _⟩ := hev
  have hupd := fits_refresh_eq s g hfit (event_time e) hnow hlt
  have harr := fits_arrival_range s g hfit (event_time e) hnow hlt
  cases e with
  | new_job job_number time running_time priority =>
    simp only [event_time] at hupd
    obtain ⟨s1, r, heq, _⟩ := new_job_origin s job_number time running_time priority hfit.1
    refine ⟨s1, s1, r, heq, ?_, rfl, rfl, rfl⟩
    simp only [step32]
    rw [new_job32_eq s job_number time running_time priority hupd]
    exact heq
  | job_finished core_id job_number time =>
    simp only [valid_event] at hv
    simp only [event_time] at harr
    obtain ⟨old, hold⟩ := (occupied_iff s core_id).mp hv
    exact job_finished32_same_jobs s core_id job_number time old hold harr
  | quantum_expired core_id time =>
    simp only [valid_event] at hv
    simp only [event_time] at hupd harr
    obtain ⟨old, hold⟩ := (occupied_iff s core_id).mp hv
    obtain ⟨s1, r, heq, _⟩ := quantum_expired_origin s core_id time old hold
    refine ⟨s1, s1, r, heq, ?_, rfl, rfl, rfl⟩
    simp only [step32]
    rw [quantum_expired32_eq s core_id time hupd harr]
    exact heq

/-- One event of a trace within range keeps the time accounting of every job within
range. -/
theorem fits_step (s : scheduler_t) (g : ledger) (e : event_t) (hfit : fits s g)
    (hev : ranged_event s g e = true) (s1 : scheduler_t) (r : Int)
    (hstep : step s e = some (s1, r)) : fits s1 (track s g e) := by
  simp only [ranged_event, in_order_event, Bool.and_eq_true, decide_eq_true_eq] at hev
  obtain ⟨⟨⟨hv, hnow⟩, hlt⟩, hserv⟩ := hev
  obtain ⟨hpos, hg0, hg1, hjobs⟩ := hfit
  have hrun : ∀ j ∈ running_jobs s, job_fits g.now j :=
    fun j hj => hjobs j (List.mem_append_left _ hj)
  have hwait : ∀ j ∈ s.priqueue.elems, job_fits g.now j :=
    fun j hj => hjobs j (List.mem_append_right _ hj)
  have hnow1 : (track s g e).now = event_time e := track_now s g e
  refine ⟨?_, by rw [hnow1]; omega, by rw [hnow1]; exact hlt, ?_⟩
  · cases e with
    | new_job job_number time running_time priority =>
      obtain ⟨s1b, rb, heq, hlen, _⟩ :=
        new_job_fields job_t.id stable_id s job_number time running_time priority hpos
      simp only [step] at hstep
      rw [hstep] at heq
      simp only [Option.some.injEq, Prod.mk.injEq] at heq
      rw [heq.1, hlen]
      exact hpos
    | job_finished core_id job_number time =>
      simp only [valid_event] at hv
      obtain ⟨old, hold⟩ := (occupied_iff s core_id).mp hv
      obtain ⟨s1b, rb, heq, hlen, _⟩ :=
        job_finished_fields job_t.id stable_id s core_id job_number time old hold
      simp only [step] at hstep
      rw [hstep] at heq
      simp only [Option.some.injEq, Prod.mk.injEq] at heq
      rw [heq.1, hlen]
      exact hpos
    | quantum_expired core_id time =>
      simp only [valid_event] at hv
      obtain ⟨old, hold⟩ := (occupied_iff s core_id).mp hv
      obtain ⟨s1b, rb, heq, hlen, _⟩ :=
        quantum_expired_fields job_t.id stable_id s core_id time old hold
      simp only [step] at hstep
      rw [hstep] at heq
      simp only [Option.some.injEq, Prod.mk.injEq] at heq
      rw [heq.1, hlen]
      exact hpos
  · rw [hnow1]
    intro j1 hj1
    cases e with
    | new_job job_number time running_time priority =>
      simp only [event_time] at hnow hlt ⊢
      simp only [decide_eq_true_eq] at hserv
      obtain ⟨hnew1, hnew2⟩ :=
        job_fits_new job_number time running_time priority (by omega) hlt hserv.1 hserv.2
      obtain ⟨s1b, rb, heq, horun, howait⟩ :=
        new_job_origin s job_number time running_time priority hpos
      simp only [step] at hstep
      rw [hstep] at heq
      simp only [Option.some.injEq, Prod.mk.injEq] at heq
      obtain ⟨hs1, _⟩ := heq
      subst hs1
      rcases List.mem_append.mp hj1 with h1 | h1
      · rcases horun j1 h1 with h2 | ⟨j, hj, h2⟩
        · rw [h2]; exact hnew2
        · rw [h2]; exact job_fits_refresh g.now time j (hrun j hj) hnow
      · rcases howait j1 h1 with h2 | h2 | ⟨j, hj, h2⟩
        · rw [h2]; exact hnew1
        · exact job_fits_mono g.now time j1 (hwait j1 h2) hnow
        · rw [h2]; exact job_fits_refresh g.now time j (hrun j hj) hnow
    | job_finished core_id job_number time =>
      simp only [event_time] at hnow hlt ⊢
      simp only [valid_event] at hv
      obtain ⟨old, hold⟩ := (occupied_iff s core_id).mp hv
      obtain ⟨s1b, rb, heq, horun, howait⟩ :=
        job_finished_origin s core_id job_number time old hold
      simp only [step] at hstep
      rw [hstep] at heq
      simp only [Option.some.injEq, Prod.mk.injEq] at heq
      obtain ⟨hs1, _⟩ := heq
      subst hs1
      rcases List.mem_append.mp hj1 with h1 | h1
      · rcases horun j1 h1 with h2 | ⟨w, hw, h2⟩
        · exact job_fits_mono g.now time j1 (hrun j1 h2) hnow
        · rw [h2]; exact job_fits_dispatched g.now time w (hwait w hw) hnow
      · exact job_fits_mono g.now time j1 (hwait j1 (howait j1 h1)) hnow
    | quantum_expired core_id time =>
      simp only [event_time] at hnow hlt ⊢
      simp only [valid_event] at hv
      obtain ⟨old, hold⟩ := (occupied_iff s core_id).mp hv
      obtain ⟨s1b, rb, heq, horun, howait⟩ := quantum_expired_origin s core_id time old hold
      simp only [step] at hstep
      rw [hstep] at heq
      simp only [Option.some.injEq, Prod.mk.injEq] at heq
      obtain ⟨hs1, _⟩ := heq
      subst hs1
      rcases List.mem_append.mp hj1 with h1 | h1
      · rcases horun j1 h1 with ⟨j, hj, h2⟩ | ⟨w, hw, h2⟩ | ⟨j, hj, h2⟩
        · rw [h2]; exact job_fits_refresh g.now time j (hrun j hj) hnow
        · rw [h2]; exact job_fits_dispatched g.now time w (hwait w hw) hnow
        · rw [h2]
          exact job_fits_dispatched time time _
            (job_fits_refresh g.now time j (hrun j hj) hnow) (le_refl _)
      · rcases howait j1 h1 with h2 | ⟨j, hj, h2⟩
        · exact job_fits_mono g.now time j1 (hwait j1 h2) hnow
        · rw [h2]; exact job_fits_refresh g.now time j (hrun j hj) hnow

theorem fits_same_jobs (s s1 : scheduler_t) (g : ledger) (h : same_jobs s s1)
    (hfit : fits s g) : fits s1 g := by
  obtain ⟨hpos, hg0, hg1, hjobs⟩ := hfit
  refine ⟨by rw [h.2.2]; exact hpos, hg0, hg1, ?_⟩
  rw [same_jobs_jobs_of s s1 h]
  exact hjobs

theorem step32_fits (s : scheduler_t) (g : ledger) (e : event_t) (hfit : fits s g)
    (hev : ranged_event s g e = true) :
    ∃ (s2 : scheduler_t) (r : Int), step32 s e = some (s2, r) ∧ fits s2 (track s g e) := by
  obtain ⟨s1, s2, r, h1, h2, hsame⟩ := step32_same_jobs s g e hfit hev
  exact ⟨s2, r, h2, fits_same_jobs s1 s2 _ hsame (fits_step s g e hfit hev s1 r h1)⟩

theorem run32_fits (es : List event_t) (s : scheduler_t) (g : ledger) (hfit : fits s g)
    (hv : each_event32 ranged_event s g es = true) :
    ∃ (s2 : scheduler_t) (rs : List Int), run32 s es = some (s2, rs) ∧
      fits s2 (track_all32 s g es) := by
  induction es generalizing s g with
  | nil => exact ⟨s, [], rfl, hfit⟩
  | cons e rest ih =>
    simp only [each_event32, Bool.and_eq_true] at hv
    obtain ⟨hv1, hv2⟩ := hv
    obtain ⟨s1, r, hstep, hfit1⟩ := step32_fits s g e hfit hv1
    simp only [hstep] at hv2
    obtain ⟨s2, rs, hrun, hfit2⟩ := ih s1 (track s g e) hfit1 hv2
    exact ⟨s2, r :: rs, by simp only [run32, hstep, hrun], by
      simp only [track_all32, hstep]; exact hfit2⟩

theorem track_all32_now (es : List event_t) (s : scheduler_t) (g : ledger) (now : Int)
    (hg : g.now ≤ now) (hes : ∀ e ∈ es, event_time e ≤ now) :
    (track_all32 s g es).now ≤ now := by
  induction es generalizing s g with
  | nil => exact hg
  | cons e rest ih =>
    have he : (track s g e).now ≤ now := by
      rw [track_now]
      exact hes e (List.mem_cons_self _ _)
    simp only [track_all32]
    split
    · exact ih _ _ he (fun x hx => hes x (List.mem_cons_of_mem _ hx))
    · exact he

theorem fits_start_up (cores : Nat) (scheme : scheme_t) (hc : 0 < cores) :
    fits (scheduler_start_up cores scheme) ledger.start := by
  refine ⟨by simpa [scheduler_start_up] using hc, le_refl _, by decide, ?_⟩
  intro j hj
  rw [jobs_of_start_up] at hj
  cases hj

/-- C20 as stated fails: in each of three traces on one FCFS core, all events valid for the
interface, the arrival of job 2 refreshes the running job 1 and the 32-bit arithmetic of
`updateRemainingTimes` wraps around. With job 1 placed at time -2 and refreshed at time
2147483647, its `used_time` becomes -2147483647, not `0 + (2147483647 - (-2))`, and its
`remaining_time` -2147483639, not `10 - used_time`. With job 1 placed at time 2147483647
and refreshed at time 0, the same values result. With job 1 of service time -10 placed at
time 0 and refreshed at time 2147483647, its `remaining_time` becomes 2147483639, not
`-10 - 2147483647`. -/
theorem refresh_wraps_around :
    each_event32 valid_event (scheduler_start_up 1 .FCFS) ledger.start ex_wrap_negative = true ∧
    (run32 (scheduler_start_up 1 .FCFS) ex_wrap_negative).map (fun x => accounts x.1) =
      some [(1, -2147483639, 10, -2147483647), (2, 5, 5, 0)] ∧
    each_event32 valid_event (scheduler_start_up 1 .FCFS) ledger.start ex_wrap_backwards = true ∧
    (run32 (scheduler_start_up 1 .FCFS) ex_wrap_backwards).map (fun x => accounts x.1) =
      some [(1, -2147483639, 10, -2147483647), (2, 5, 5, 0)] ∧
    each_event32 valid_event (scheduler_start_up 1 .FCFS) ledger.start ex_wrap_service = true ∧
    (run32 (scheduler_start_up 1 .FCFS) ex_wrap_service).map (fun x => accounts x.1) =
      some [(1, 2147483639, -10, 2147483647), (2, 5, 5, 0)] := by
  refine ⟨by decide, by decide, by decide, by decide, by decide, by decide⟩

/-- C20 as amended: for every scheme, every positive number of cores and every trace of
events that are valid for the interface, delivered in non-decreasing time from time 0 on,
with times below `2^31` and service times in `[0, 2^31)`, the trace runs (in 32-bit
arithmetic) to a state in which every job, running or waiting, has
`remaining_time = needed_time - used_time`. In that state `updateRemainingTimes` at any
`now` leaves the waiting queue and the number of slots as they are and leaves every empty
slot empty; and when `now` is not before any event of the trace and below `2^31`, it turns
the occupant `j` of a slot into the same job with
`used_time = j.used_time + (now - j.last_start_time)`, `remaining_time` recomputed as
`needed_time - used_time` and `last_start_time = now`. -/
theorem remaining_is_needed_minus_used32 (cores : Nat) (scheme : scheme_t)
    (es : List event_t) (hc : 0 < cores)
    (hv : each_event32 ranged_event (scheduler_start_up cores scheme) ledger.start es = true) :
    ∃ (s : scheduler_t) (rs : List Int),
      run32 (scheduler_start_up cores scheme) es = some (s, rs) ∧
      (∀ j ∈ jobs_of s, j.remaining_time = j.needed_time - j.used_time) ∧
      ∀ now : Int,
        (updateRemainingTimes32 s now).priqueue = s.priqueue ∧
        (updateRemainingTimes32 s now).core_array.length = s.core_array.length ∧
        ∀ i : Nat,
          (s.core_array[i]? = some none →
            (updateRemainingTimes32 s now).core_array[i]? = some none) ∧
          ∀ j : job_t, s.core_array[i]? = some (some j) →
            (∀ e ∈ es, event_time e ≤ now) → 0 ≤ now → now < 2147483648 →
            (updateRemainingTimes32 s now).core_array[i]? = some (some
              { j with
                used_time := j.used_time + (now - j.last_start_time)
                remaining_time := j.needed_time - (j.used_time + (now - j.last_start_time))
                last_start_time := now }) := by
  obtain ⟨s, rs, hrun, hfit⟩ :=
    run32_fits es (scheduler_start_up cores scheme) ledger.start
      (fits_start_up cores scheme hc) hv
  refine ⟨s, rs, hrun, fun j hj => (hfit.2.2.2 j hj).2.2.2.2.2.2.2, ?_⟩
  intro now
  refine ⟨rfl, by simp [updateRemainingTimes32], ?_⟩
  intro i
  constructor
  · intro h
    simp [updateRemainingTimes32, List.getElem?_map, h]
  · intro j h hes h0 h1
    have hle := track_all32_now es (scheduler_start_up cores scheme) ledger.start now h0 hes
    have hj : j ∈ jobs_of s := List.mem_append_left _ (mem_filterMap_of_get _ i j h)
    have e := refresh_job32_eq _ now j (hfit.2.2.2 j hj) hle h1
    simp [updateRemainingTimes32, List.getElem?_map, h, e, refresh_job]

/-- C20 as amended, at `ex_arrivals` on one PSJF core: job 2 runs with 2 of its 3 units
remaining, jobs 3 and 1 wait with 7 and 8 units remaining (job 1 has used 2 of its 10). -/
theorem remaining_is_needed_minus_used32_witness :
    0 < 1 ∧
    each_event32 ranged_event (scheduler_start_up 1 .PSJF) ledger.start ex_arrivals = true ∧
    (run32 (scheduler_start_up 1 .PSJF) ex_arrivals).map (fun x => accounts x.1) =
      some [(2, 2, 3, 1), (3, 7, 7, 0), (1, 8, 10, 2)] ∧
    ∃ (s : scheduler_t) (rs : List Int),
      run32 (scheduler_start_up 1 .PSJF) ex_arrivals = some (s, rs) ∧
      (∀ j ∈ jobs_of s, j.remaining_time = j.needed_time - j.used_time) ∧
      ∀ now : Int,
        (updateRemainingTimes32 s now).priqueue = s.priqueue ∧
        (updateRemainingTimes32 s now).core_array.length = s.core_array.length ∧
        ∀ i : Nat,
          (s.core_array[i]? = some none →
            (updateRemainingTimes32 s now).core_array[i]? = some none) ∧
          ∀ j : job_t, s.core_array[i]? = some (some j) →
            (∀ e ∈ ex_arrivals, event_time e ≤ now) → 0 ≤ now → now < 2147483648 →
            (updateRemainingTimes32 s now).core_array[i]? = some (some
              { j with
                used_time := j.used_time + (now - j.last_start_time)
                remaining_time := j.needed_time - (j.used_time + (now - j.last_start_time))
                last_start_time := now }) :=
  ⟨by decide, by decide, by decide,
    remaining_is_needed_minus_used32 1 .PSJF ex_arrivals (by decide) (by decide)⟩

end Scheduler
